import Mathlib

/-
  Verification development for the tree model core of xgboost
  (include/xgboost/tree_model.h).

  Modelling conventions:
  * `bst_float` values are modelled as rationals (ℚ): the algorithms are
    plain field arithmetic, and ℚ gives the exact-arithmetic semantics.
    Division by zero in ℚ is total (x / 0 = 0); places where the C++ code
    can actually divide by zero are tracked by dedicated decision
    procedures that mirror the control flow.
  * C `int` fields are modelled as ℤ.  Bit-packed `unsigned` fields
    (`sindex_`, `parent_`) are modelled as the raw 32-bit pattern, a ℕ.
  * The SHAP scratch buffer (a raw `PathElement*`) is modelled as a total
    function ℕ → PathElement; in-place mutation becomes pointwise update.
  * Fatal CHECK failures and C++ undefined behaviour (out-of-range vector
    indexing) are modelled by `Option`: `none` means the operation aborts.
  * Recursions that the C++ code performs on the node arena (TreeShap,
    MaxDepth, CollapseToLeaf, FillNodeMeanValue) are given explicit fuel;
    theorems supply enough fuel for the trees they quantify over.
-/

set_option maxRecDepth 2000

namespace XGB

/-- One element of the SHAP decision path (struct PathElement). -/
structure PathElement where
  feature_index : ℤ
  zero_fraction : ℚ
  one_fraction  : ℚ
  pweight       : ℚ
deriving DecidableEq, Repr

instance : Inhabited PathElement := ⟨⟨0, 0, 0, 0⟩⟩

/-- Pointwise update of the path buffer at one slot. -/
def upd (p : ℕ → PathElement) (i : ℕ) (e : PathElement) : ℕ → PathElement :=
  fun j => if j = i then e else p j

@[simp] theorem upd_same (p : ℕ → PathElement) (i : ℕ) (e : PathElement) :
    upd p i e i = e := by simp [upd]

theorem upd_ne (p : ℕ → PathElement) (i j : ℕ) (e : PathElement) (h : j ≠ i) :
    upd p i e j = p j := by simp [upd, h]

/-- In-place mutation of the `pweight` field of one slot
    (`unique_path[i].pweight = v`). -/
def updPw (p : ℕ → PathElement) (i : ℕ) (v : ℚ) : ℕ → PathElement :=
  fun j => if j = i then { p i with pweight := v } else p j

theorem updPw_pw (p : ℕ → PathElement) (i : ℕ) (v : ℚ) (j : ℕ) :
    ((updPw p i v) j).pweight = if j = i then v else (p j).pweight := by
  by_cases h : j = i <;> simp [updPw, h]

theorem updPw_fields (p : ℕ → PathElement) (i : ℕ) (v : ℚ) (j : ℕ) :
    ((updPw p i v) j).feature_index = (p j).feature_index ∧
    ((updPw p i v) j).zero_fraction = (p j).zero_fraction ∧
    ((updPw p i v) j).one_fraction = (p j).one_fraction := by
  by_cases h : j = i <;> simp [updPw, h]

/-- Body of the `ExtendPath` loop at loop index `i`
    (tree_model.h:684-689). -/
def extStep (zf of : ℚ) (d : ℕ) (p : ℕ → PathElement) (i : ℕ) : ℕ → PathElement :=
  updPw
    (updPw p (i+1)
      ((p (i+1)).pweight + of * (p i).pweight * ((i:ℚ)+1) / ((d:ℚ)+1)))
    i
    (zf * (p i).pweight * ((d - i : ℕ) : ℚ) / ((d:ℚ)+1))

/-- The `ExtendPath` loop, iterating `i = n-1, n-2, ..., 0`. -/
def extLoop (zf of : ℚ) (d : ℕ) : ℕ → (ℕ → PathElement) → (ℕ → PathElement)
  | 0,     p => p
  | i + 1, p => extLoop zf of d i (extStep zf of d p i)

/-- `ExtendPath` (tree_model.h:678-690): append one path element at index
    `unique_depth`, then re-derive all permutation weights. -/
def ExtendPath (p : ℕ → PathElement) (unique_depth : ℕ)
    (zero_fraction one_fraction : ℚ) (feature_index : ℤ) : ℕ → PathElement :=
  extLoop zero_fraction one_fraction unique_depth unique_depth
    (upd p unique_depth
      ⟨feature_index, zero_fraction, one_fraction,
        if unique_depth = 0 then 1 else 0⟩)

/-- Body of the `UnwindPath` weight loop; state is (path, next_one_portion)
    (tree_model.h:698-709). -/
def unwStep (zf of : ℚ) (d : ℕ) (s : (ℕ → PathElement) × ℚ) (i : ℕ) :
    (ℕ → PathElement) × ℚ :=
  if of ≠ 0 then
    (updPw s.1 i (s.2 * ((d:ℚ)+1) / ((((i:ℚ)+1)) * of)),
     (s.1 i).pweight -
       s.2 * ((d:ℚ)+1) / ((((i:ℚ)+1)) * of) * zf * ((d - i : ℕ) : ℚ) / ((d:ℚ)+1))
  else
    (updPw s.1 i ((s.1 i).pweight * ((d:ℚ)+1) / (zf * ((d - i : ℕ) : ℚ))),
     s.2)

/-- The `UnwindPath` weight loop, iterating `i = n-1, ..., 0`. -/
def unwLoop (zf of : ℚ) (d : ℕ) : ℕ → ((ℕ → PathElement) × ℚ) → ((ℕ → PathElement) × ℚ)
  | 0,     s => s
  | i + 1, s => unwLoop zf of d i (unwStep zf of d s i)

/-- The compaction loop of `UnwindPath` (tree_model.h:711-715): starting at
    slot `i`, for `n` iterations copy feature_index/zero_fraction/one_fraction
    from slot `i+1` down to slot `i` (pweight is left as is). -/
def shiftLoop : ℕ → ℕ → (ℕ → PathElement) → (ℕ → PathElement)
  | _, 0,     p => p
  | i, n + 1, p =>
      shiftLoop (i+1) n
        (upd p i
          ⟨(p (i+1)).feature_index, (p (i+1)).zero_fraction,
           (p (i+1)).one_fraction, (p i).pweight⟩)

/-- `UnwindPath` (tree_model.h:693-716). -/
def UnwindPath (p : ℕ → PathElement) (unique_depth path_index : ℕ) : ℕ → PathElement :=
  shiftLoop path_index (unique_depth - path_index)
    (unwLoop (p path_index).zero_fraction (p path_index).one_fraction
      unique_depth unique_depth (p, (p unique_depth).pweight)).1

/-- Body of the `UnwoundPathSum` loop; state is (next_one_portion, total)
    (tree_model.h:726-737). -/
def upsStep (zf of : ℚ) (d : ℕ) (p : ℕ → PathElement) (s : ℚ × ℚ) (i : ℕ) : ℚ × ℚ :=
  if of ≠ 0 then
    ((p i).pweight -
       s.1 * ((d:ℚ)+1) / ((((i:ℚ)+1)) * of) * zf * (((d - i : ℕ) : ℚ) / ((d:ℚ)+1)),
     s.2 + s.1 * ((d:ℚ)+1) / ((((i:ℚ)+1)) * of))
  else
    (s.1, s.2 + ((p i).pweight / zf) / (((d - i : ℕ) : ℚ) / ((d:ℚ)+1)))

/-- The `UnwoundPathSum` loop, iterating `i = n-1, ..., 0`. -/
def upsLoop (zf of : ℚ) (d : ℕ) (p : ℕ → PathElement) : ℕ → (ℚ × ℚ) → (ℚ × ℚ)
  | 0,     s => s
  | i + 1, s => upsLoop zf of d p i (upsStep zf of d p s i)

/-- `UnwoundPathSum` (tree_model.h:720-739). -/
def UnwoundPathSum (p : ℕ → PathElement) (unique_depth path_index : ℕ) : ℚ :=
  (upsLoop (p path_index).zero_fraction (p path_index).one_fraction
    unique_depth p unique_depth ((p unique_depth).pweight, 0)).2

/-! ### Division-by-zero instrumentation

The following decision procedures mirror the control flow of
`UnwindPath` / `UnwoundPathSum` and report whether some division that the
code actually executes has a zero denominator. -/

/-- Denominators executed by one `UnwindPath` loop iteration. -/
def unwStepDiv (zf of : ℚ) (d i : ℕ) : Bool :=
  if of ≠ 0 then
    decide (((((i:ℚ)+1)) * of) = 0) || decide (((d:ℚ)+1) = 0)
  else
    decide ((zf * ((d - i : ℕ) : ℚ)) = 0)

/-- Scan of all `UnwindPath` loop iterations `i = n-1, ..., 0`. -/
def unwDivScan (zf of : ℚ) (d : ℕ) : ℕ → Bool
  | 0     => false
  | i + 1 => unwStepDiv zf of d i || unwDivScan zf of d i

/-- Whether `UnwindPath p unique_depth path_index` executes a division by
    zero. -/
def UnwindPathDivZero (p : ℕ → PathElement) (unique_depth path_index : ℕ) : Bool :=
  unwDivScan (p path_index).zero_fraction (p path_index).one_fraction
    unique_depth unique_depth

/-- Denominators executed by one `UnwoundPathSum` loop iteration. -/
def upsStepDiv (zf of : ℚ) (d i : ℕ) : Bool :=
  if of ≠ 0 then
    decide (((((i:ℚ)+1)) * of) = 0) || decide (((d:ℚ)+1) = 0)
  else
    decide (zf = 0) || decide ((((d - i : ℕ) : ℚ) / ((d:ℚ)+1)) = 0)

/-- Scan of all `UnwoundPathSum` loop iterations. -/
def upsDivScan (zf of : ℚ) (d : ℕ) : ℕ → Bool
  | 0     => false
  | i + 1 => upsStepDiv zf of d i || upsDivScan zf of d i

/-- Whether `UnwoundPathSum p unique_depth path_index` executes a division
    by zero. -/
def UnwoundPathSumDivZero (p : ℕ → PathElement) (unique_depth path_index : ℕ) : Bool :=
  upsDivScan (p path_index).zero_fraction (p path_index).one_fraction
    unique_depth unique_depth

/-! ### Tree data model -/

/-- `TreeModel::Node` (tree_model.h:79-195).  `parent_` and `sindex_` are
    stored as raw 32-bit patterns (ℕ); `cleft_`/`cright_` as ℤ; the
    value/split union `Info` as a single ℚ field. -/
structure NodeS where
  parent_ : ℕ
  cleft_  : ℤ
  cright_ : ℤ
  sindex_ : ℕ
  value   : ℚ
deriving DecidableEq, Repr

instance : Inhabited NodeS := ⟨⟨0, 0, 0, 0, 0⟩⟩

namespace NodeS

/-- `Node::cleft`. -/
def cleft (n : NodeS) : ℤ := n.cleft_
/-- `Node::cright`. -/
def cright (n : NodeS) : ℤ := n.cright_
/-- `Node::split_index`: low 31 bits of `sindex_`. -/
def split_index (n : NodeS) : ℕ := n.sindex_ % 2^31
/-- `Node::default_left`: bit 31 of `sindex_`. -/
def default_left (n : NodeS) : Bool := n.sindex_ >>> 31 != 0
/-- `Node::cdefault`. -/
def cdefault (n : NodeS) : ℤ := if n.default_left then n.cleft else n.cright
/-- `Node::is_leaf`. -/
def is_leaf (n : NodeS) : Bool := n.cleft_ == -1
/-- `Node::leaf_value` (union read). -/
def leaf_value (n : NodeS) : ℚ := n.value
/-- `Node::split_cond` (union read). -/
def split_cond (n : NodeS) : ℚ := n.value
/-- `Node::parent`: low 31 bits of `parent_`. -/
def parent (n : NodeS) : ℕ := n.parent_ % 2^31
/-- `Node::is_left_child`: bit 31 of `parent_`. -/
def is_left_child (n : NodeS) : Bool := n.parent_ >>> 31 != 0
/-- `Node::is_deleted`: `sindex_` equals the all-ones sentinel. -/
def is_deleted (n : NodeS) : Bool := n.sindex_ == 2^32 - 1
/-- `Node::is_root`: `parent_` is the pattern of `-1`. -/
def is_root (n : NodeS) : Bool := n.parent_ == 2^32 - 1
/-- `Node::set_split`. -/
def set_split (n : NodeS) (si : ℕ) (cond : ℚ) (dl : Bool) : NodeS :=
  { n with sindex_ := if dl then si ||| 2^31 else si, value := cond }
/-- `Node::set_leaf`. -/
def set_leaf (n : NodeS) (v : ℚ) (right : ℤ := -1) : NodeS :=
  { n with value := v, cleft_ := -1, cright_ := right }
/-- `Node::mark_delete`. -/
def mark_delete (n : NodeS) : NodeS := { n with sindex_ := 2^32 - 1 }
/-- `Node::set_parent`; `pidx` is the raw pattern of the parent index. -/
def set_parent (n : NodeS) (pidx : ℕ) (ilc : Bool := true) : NodeS :=
  { n with parent_ := if ilc then pidx ||| 2^31 else pidx }

end NodeS

/-- `RTreeNodeStat` (tree_model.h:407-417). -/
structure RTreeNodeStat where
  loss_chg       : ℚ
  sum_hess       : ℚ
  base_weight    : ℚ
  leaf_child_cnt : ℤ
deriving DecidableEq, Repr

instance : Inhabited RTreeNodeStat := ⟨⟨0, 0, 0, 0⟩⟩

/-- `TreeParam` (tree_model.h:26-63): 6 meaningful int fields plus 31
    reserved ints. -/
structure TreeParamS where
  num_roots        : ℤ
  num_nodes        : ℤ
  num_deleted      : ℤ
  max_depth        : ℤ
  num_feature      : ℤ
  size_leaf_vector : ℤ
  reserved         : List ℤ
deriving DecidableEq, Repr

/-- `RegTree` in-memory state (TreeModel fields plus `node_mean_values`). -/
structure TreeS where
  param            : TreeParamS
  nodes            : List NodeS
  deleted_nodes    : List ℤ
  stats            : List RTreeNodeStat
  leaf_vector      : List ℚ
  node_mean_values : List ℚ
deriving DecidableEq, Repr

/-- Unchecked node access `(*this)[nid]` (used on the read-only paths where
    the tree is assumed well-formed; out-of-range reads give the default
    node). -/
def getNodeD (tr : TreeS) (i : ℤ) : NodeS := tr.nodes.getD i.toNat default

/-- Unchecked stat access `this->stat(nid)`. -/
def getStatD (tr : TreeS) (i : ℤ) : RTreeNodeStat := tr.stats.getD i.toNat default

/-- Unchecked mean-value access `this->node_mean_values[nid]`. -/
def getMeanD (tr : TreeS) (i : ℤ) : ℚ := tr.node_mean_values.getD i.toNat 0

/-- `RegTree::GetNext` (tree_model.h:847-858). -/
def GetNext (tr : TreeS) (pid : ℤ) (fvalue : ℚ) (is_unknown : Bool) : ℤ :=
  let split_value := (getNodeD tr pid).split_cond
  if is_unknown then
    (getNodeD tr pid).cdefault
  else
    if fvalue < split_value then (getNodeD tr pid).cleft
    else (getNodeD tr pid).cright

/-! ### Claim C2: GetNext routing -/

/-- C2: for every node, `GetNext` returns the node's configured default
    child when the queried feature value is missing; otherwise it returns
    the left child exactly when the value is strictly less than the split
    threshold, and the right child otherwise (ties go right). -/
theorem C2_getNext_routing (tr : TreeS) (pid : ℤ) (fv : ℚ) :
    GetNext tr pid fv true = (getNodeD tr pid).cdefault ∧
    (fv < (getNodeD tr pid).split_cond →
      GetNext tr pid fv false = (getNodeD tr pid).cleft) ∧
    ((getNodeD tr pid).split_cond ≤ fv →
      GetNext tr pid fv false = (getNodeD tr pid).cright) := by
  refine ⟨rfl, fun h => ?_, fun h => ?_⟩
  · simp [GetNext, h]
  · simp [GetNext, not_lt.mpr h]

/-- Witness for C2 on a concrete one-node tree and value. -/
theorem C2_getNext_routing_witness :
    let tr : TreeS :=
      ⟨⟨1, 1, 0, 0, 2, 0, []⟩, [⟨2^32 - 1, 1, 2, 2^31, (1:ℚ)/2⟩], [], [], [], []⟩
    GetNext tr 0 0 true = 1 ∧ GetNext tr 0 0 false = 1 ∧
      GetNext tr 0 ((1:ℚ)/2) false = 2 := by
  refine ⟨(C2_getNext_routing _ 0 0).1.trans (by with_unfolding_all decide),
    ((C2_getNext_routing _ 0 0).2.1 (by with_unfolding_all decide)).trans
      (by with_unfolding_all decide),
    ((C2_getNext_routing _ 0 ((1:ℚ)/2)).2.2 (by with_unfolding_all decide)).trans
      (by with_unfolding_all decide)⟩

/-! ### Claim C5: division-by-zero hazard in UnwindPath / UnwoundPathSum -/

theorem unwStepDiv_iff (zf of : ℚ) (d i : ℕ) (hid : i < d) :
    unwStepDiv zf of d i = true ↔ (of = 0 ∧ zf = 0) := by
  have hdi : ((d - i : ℕ) : ℚ) ≠ 0 := by
    have : 0 < d - i := Nat.sub_pos_of_lt hid
    exact_mod_cast Nat.pos_iff_ne_zero.mp this
  have hi1 : ((i:ℚ) + 1) ≠ 0 := by positivity
  have hd1 : ((d:ℚ) + 1) ≠ 0 := by positivity
  unfold unwStepDiv
  by_cases h : of = 0
  · simp [h, hdi]
  · simp [h, hi1, hd1, mul_eq_zero]

theorem unwDivScan_iff (zf of : ℚ) (d : ℕ) :
    ∀ n, n ≤ d → (unwDivScan zf of d n = true ↔ (of = 0 ∧ zf = 0 ∧ 1 ≤ n)) := by
  intro n
  induction n with
  | zero => intro _; simp [unwDivScan]
  | succ m ih =>
      intro hle
      have hmd : m < d := hle
      rw [show unwDivScan zf of d (m+1) = (unwStepDiv zf of d m || unwDivScan zf of d m)
          from rfl]
      rw [Bool.or_eq_true, unwStepDiv_iff zf of d m hmd, ih (Nat.le_of_succ_le hle)]
      constructor
      · rintro (⟨h1, h2⟩ | ⟨h1, h2, _⟩) <;> exact ⟨h1, h2, Nat.succ_le_succ (Nat.zero_le m)⟩
      · rintro ⟨h1, h2, _⟩; exact Or.inl ⟨h1, h2⟩

theorem upsStepDiv_iff (zf of : ℚ) (d i : ℕ) (hid : i < d) :
    upsStepDiv zf of d i = true ↔ (of = 0 ∧ zf = 0) := by
  have hdi : ((d - i : ℕ) : ℚ) ≠ 0 := by
    have : 0 < d - i := Nat.sub_pos_of_lt hid
    exact_mod_cast Nat.pos_iff_ne_zero.mp this
  have hi1 : ((i:ℚ) + 1) ≠ 0 := by positivity
  have hd1 : ((d:ℚ) + 1) ≠ 0 := by positivity
  unfold upsStepDiv
  by_cases h : of = 0
  · simp [h, div_eq_zero_iff, hdi, hd1]
  · simp [h, hi1, hd1, mul_eq_zero]

theorem upsDivScan_iff (zf of : ℚ) (d : ℕ) :
    ∀ n, n ≤ d → (upsDivScan zf of d n = true ↔ (of = 0 ∧ zf = 0 ∧ 1 ≤ n)) := by
  intro n
  induction n with
  | zero => intro _; simp [upsDivScan]
  | succ m ih =>
      intro hle
      have hmd : m < d := hle
      rw [show upsDivScan zf of d (m+1) = (upsStepDiv zf of d m || upsDivScan zf of d m)
          from rfl]
      rw [Bool.or_eq_true, upsStepDiv_iff zf of d m hmd, ih (Nat.le_of_succ_le hle)]
      constructor
      · rintro (⟨h1, h2⟩ | ⟨h1, h2, _⟩) <;> exact ⟨h1, h2, Nat.succ_le_succ (Nat.zero_le m)⟩
      · rintro ⟨h1, h2, _⟩; exact Or.inl ⟨h1, h2⟩

/-- C5: in `UnwindPath` and `UnwoundPathSum` the division by the unwound
    element's `one_fraction` is guarded by `one_fraction ≠ 0`, but the other
    branch divides by `zero_fraction` unconditionally: a division by zero is
    executed exactly when the unwound element has both fractions zero (and
    the loop runs at all), so an element with both fractions zero makes a
    division by zero reachable and no guard prevents it. -/
theorem C5_divzero_characterization (p : ℕ → PathElement) (d k : ℕ) :
    (UnwindPathDivZero p d k = true ↔
      ((p k).one_fraction = 0 ∧ (p k).zero_fraction = 0 ∧ 1 ≤ d)) ∧
    (UnwoundPathSumDivZero p d k = true ↔
      ((p k).one_fraction = 0 ∧ (p k).zero_fraction = 0 ∧ 1 ≤ d)) := by
  constructor
  · rw [UnwindPathDivZero, unwDivScan_iff _ _ d d le_rfl]
  · rw [UnwoundPathSumDivZero, upsDivScan_iff _ _ d d le_rfl]

/-! ### Loop characterizations for ExtendPath / UnwindPath -/

/-- Intermediate pweight state of the `ExtendPath` loop: `extS zf of d w j`
    describes the pweights after iterations `d-1, ..., j` have run, where
    `w` is the pweight state just before the loop (with `w d = 0`). -/
def extS (zf of : ℚ) (d : ℕ) (w : ℕ → ℚ) (j pos : ℕ) : ℚ :=
  if pos < j then w pos
  else if pos = j then zf * w j * ((d - j : ℕ) : ℚ) / ((d:ℚ)+1)
  else if pos ≤ d then
    zf * w pos * ((d - pos : ℕ) : ℚ) / ((d:ℚ)+1) +
      of * w (pos-1) * (pos:ℚ) / ((d:ℚ)+1)
  else w pos

/-- The fully-run extend loop state, written uniformly (the `pos = 0` branch
    agrees with the general formula because the second summand vanishes). -/
theorem extS_zero (zf of : ℚ) (d : ℕ) (w : ℕ → ℚ) (pos : ℕ) (hpos : pos ≤ d) :
    extS zf of d w 0 pos =
      zf * w pos * ((d - pos : ℕ) : ℚ) / ((d:ℚ)+1) +
        of * w (pos-1) * (pos:ℚ) / ((d:ℚ)+1) := by
  unfold extS
  rw [if_neg (by omega : ¬ pos < 0)]
  by_cases h : pos = 0
  · subst h
    rw [if_pos rfl]
    simp
  · rw [if_neg h, if_pos (by omega : pos ≤ d)]

theorem extStep_fields (zf of : ℚ) (d : ℕ) (p : ℕ → PathElement) (i j : ℕ) :
    ((extStep zf of d p i) j).feature_index = (p j).feature_index ∧
    ((extStep zf of d p i) j).zero_fraction = (p j).zero_fraction ∧
    ((extStep zf of d p i) j).one_fraction = (p j).one_fraction := by
  unfold extStep
  refine ⟨?_, ?_, ?_⟩ <;>
    simp [(updPw_fields _ _ _ j).1, (updPw_fields _ _ _ j).2.1,
      (updPw_fields _ _ _ j).2.2]

theorem extLoop_fields (zf of : ℚ) (d : ℕ) :
    ∀ (n : ℕ) (p : ℕ → PathElement) (j : ℕ),
    ((extLoop zf of d n p) j).feature_index = (p j).feature_index ∧
    ((extLoop zf of d n p) j).zero_fraction = (p j).zero_fraction ∧
    ((extLoop zf of d n p) j).one_fraction = (p j).one_fraction := by
  intro n
  induction n with
  | zero => intro p j; exact ⟨rfl, rfl, rfl⟩
  | succ m ih =>
      intro p j
      have h1 := ih (extStep zf of d p m) j
      have h2 := extStep_fields zf of d p m j
      exact ⟨h1.1.trans h2.1, h1.2.1.trans h2.2.1, h1.2.2.trans h2.2.2⟩

theorem extStep_pw_spec (zf of : ℚ) (d : ℕ) (w : ℕ → ℚ) (j : ℕ) (hj : j < d)
    (p : ℕ → PathElement) (hp : ∀ i, (p i).pweight = extS zf of d w (j+1) i) :
    ∀ i, ((extStep zf of d p j) i).pweight = extS zf of d w j i := by
  intro i
  have hpj : (p j).pweight = w j := by
    rw [hp j]; unfold extS; simp
  unfold extStep
  rw [updPw_pw, updPw_pw]
  by_cases h1 : i = j
  · subst h1
    simp [extS, hpj]
  · rw [if_neg h1]
    by_cases h2 : i = j + 1
    · subst h2
      rw [if_pos rfl, hp (j+1), hpj]
      unfold extS
      have : ¬ (j + 1 < j) := by omega
      have h3 : ¬ (j + 1 < j + 1) := by omega
      rw [if_neg h3, if_pos rfl, if_neg this, if_neg (by omega : ¬ j + 1 = j)]
      by_cases h4 : j + 1 ≤ d
      · rw [if_pos h4]; simp
      · omega
    · rw [if_neg h2, hp i]
      unfold extS
      by_cases h3 : i < j
      · rw [if_pos (by omega : i < j + 1), if_pos h3]
      · have h4 : ¬ (i < j + 1) := by omega
        rw [if_neg h4, if_neg h3, if_neg (by omega : ¬ i = j + 1), if_neg h1]

theorem extLoop_pw_spec (zf of : ℚ) (d : ℕ) (w : ℕ → ℚ) :
    ∀ (j : ℕ), j ≤ d → ∀ (p : ℕ → PathElement),
      (∀ i, (p i).pweight = extS zf of d w j i) →
      ∀ i, ((extLoop zf of d j p) i).pweight = extS zf of d w 0 i := by
  intro j
  induction j with
  | zero => intro _ p hp i; exact hp i
  | succ m ih =>
      intro hle p hp i
      have hm : m < d := hle
      exact ih (Nat.le_of_succ_le hle) (extStep zf of d p m)
        (extStep_pw_spec zf of d w m hm p hp) i

/-- Full pweight characterization of `ExtendPath` for `1 ≤ d`: writing `w`
    for the pweights of `p` with slot `d` replaced by 0, the resulting
    pweights are given by `extS … 0`. -/
theorem ExtendPath_pw (p : ℕ → PathElement) (d : ℕ) (hd : 1 ≤ d)
    (zf of : ℚ) (f : ℤ) :
    ∀ i, ((ExtendPath p d zf of f) i).pweight =
      extS zf of d (fun j => if j = d then 0 else (p j).pweight) 0 i := by
  intro i
  unfold ExtendPath
  rw [if_neg (by omega : ¬ d = 0)]
  apply extLoop_pw_spec zf of d _ d le_rfl
  intro i2
  by_cases h2 : i2 = d
  · subst h2
    show (upd p i2 ⟨f, zf, of, 0⟩ i2).pweight = extS zf of i2 _ i2 i2
    rw [upd_same]
    unfold extS
    rw [if_neg (by omega : ¬ i2 < i2), if_pos rfl]
    simp
  · show (upd p d ⟨f, zf, of, 0⟩ i2).pweight = extS zf of d _ d i2
    rw [upd_ne _ _ _ _ h2]
    unfold extS
    by_cases h1 : i2 < d
    · rw [if_pos h1]
      simp [h2]
    · rw [if_neg h1, if_neg h2, if_neg (by omega : ¬ i2 ≤ d)]
      simp [h2]

theorem ExtendPath_fields (p : ℕ → PathElement) (d : ℕ) (zf of : ℚ) (f : ℤ) :
    ∀ i, ((ExtendPath p d zf of f) i).feature_index =
        (if i = d then f else (p i).feature_index) ∧
      ((ExtendPath p d zf of f) i).zero_fraction =
        (if i = d then zf else (p i).zero_fraction) ∧
      ((ExtendPath p d zf of f) i).one_fraction =
        (if i = d then of else (p i).one_fraction) := by
  intro i
  unfold ExtendPath
  refine ⟨(extLoop_fields _ _ _ _ _ _).1.trans ?_,
    (extLoop_fields _ _ _ _ _ _).2.1.trans ?_,
    (extLoop_fields _ _ _ _ _ _).2.2.trans ?_⟩ <;>
  · by_cases h : i = d
    · subst h; simp
    · rw [upd_ne _ _ _ _ h, if_neg h]

theorem unwStep_fst_ne (zf of : ℚ) (d : ℕ) (s : (ℕ → PathElement) × ℚ)
    (i j : ℕ) (h : j ≠ i) : (unwStep zf of d s i).1 j = s.1 j := by
  by_cases hof : of ≠ 0 <;> simp [unwStep, hof, updPw, h]

theorem unwStep_fields (zf of : ℚ) (d : ℕ) (s : (ℕ → PathElement) × ℚ) (i j : ℕ) :
    ((unwStep zf of d s i).1 j).feature_index = (s.1 j).feature_index ∧
    ((unwStep zf of d s i).1 j).zero_fraction = (s.1 j).zero_fraction ∧
    ((unwStep zf of d s i).1 j).one_fraction = (s.1 j).one_fraction := by
  by_cases hof : of ≠ 0 <;>
  · refine ⟨?_, ?_, ?_⟩ <;>
      simp [unwStep, hof, (updPw_fields _ _ _ j).1, (updPw_fields _ _ _ j).2.1,
        (updPw_fields _ _ _ j).2.2]

theorem unwLoop_untouched (zf of : ℚ) (d : ℕ) :
    ∀ (n : ℕ) (s : (ℕ → PathElement) × ℚ) (j : ℕ), n ≤ j →
      (unwLoop zf of d n s).1 j = s.1 j := by
  intro n
  induction n with
  | zero => intro s j _; rfl
  | succ m ih =>
      intro s j hj
      have h1 := ih (unwStep zf of d s m) j (by omega)
      rw [show unwLoop zf of d (m+1) s = unwLoop zf of d m (unwStep zf of d s m) from rfl,
        h1, unwStep_fst_ne zf of d s m j (by omega)]

theorem unwLoop_fields (zf of : ℚ) (d : ℕ) :
    ∀ (n : ℕ) (s : (ℕ → PathElement) × ℚ) (j : ℕ),
    ((unwLoop zf of d n s).1 j).feature_index = (s.1 j).feature_index ∧
    ((unwLoop zf of d n s).1 j).zero_fraction = (s.1 j).zero_fraction ∧
    ((unwLoop zf of d n s).1 j).one_fraction = (s.1 j).one_fraction := by
  intro n
  induction n with
  | zero => intro s j; exact ⟨rfl, rfl, rfl⟩
  | succ m ih =>
      intro s j
      have h1 := ih (unwStep zf of d s m) j
      have h2 := unwStep_fields zf of d s m j
      exact ⟨h1.1.trans h2.1, h1.2.1.trans h2.2.1, h1.2.2.trans h2.2.2⟩

/-- Inverse lemma, `one_fraction ≠ 0` branch: the `UnwindPath` weight loop
    undoes the `ExtendPath` weight recurrence. -/
theorem unwLoop_inv_one (zf of : ℚ) (hof : of ≠ 0) (d : ℕ) (w : ℕ → ℚ) :
    ∀ (m : ℕ), m ≤ d → ∀ (p : ℕ → PathElement),
      (∀ i, i < m → (p i).pweight = extS zf of d w 0 i) →
      ∀ pos, pos < m →
        ((unwLoop zf of d m (p, of * w (m-1) * (m:ℚ) / ((d:ℚ)+1))).1 pos).pweight
          = w pos := by
  intro m
  induction m with
  | zero => intro _ p _ pos hpos; omega
  | succ m ih =>
      intro hle p hp pos hpos
      have hmd : m < d := hle
      rw [show unwLoop zf of d (m+1) (p, of * w ((m+1)-1) * ((m+1:ℕ):ℚ) / ((d:ℚ)+1)) =
        unwLoop zf of d m
          (unwStep zf of d (p, of * w ((m+1)-1) * ((m+1:ℕ):ℚ) / ((d:ℚ)+1)) m) from rfl]
      have hd1 : ((d:ℚ)+1) ≠ 0 := by positivity
      have hm1 : ((m:ℚ)+1) ≠ 0 := by positivity
      have hstep : unwStep zf of d (p, of * w ((m+1)-1) * ((m+1:ℕ):ℚ) / ((d:ℚ)+1)) m =
          (updPw p m (w m), of * w (m-1) * ((m:ℕ):ℚ) / ((d:ℚ)+1)) := by
        unfold unwStep
        rw [if_pos hof]
        have hnew : of * w ((m+1)-1) * ((m+1:ℕ):ℚ) / ((d:ℚ)+1) * ((d:ℚ)+1) /
            (((m:ℚ)+1) * of) = w m := by
          have : ((m+1:ℕ):ℚ) = (m:ℚ) + 1 := by push_cast; ring
          rw [this]
          field_simp
          ring
        simp only [hnew]
        have hpm : (p m).pweight = extS zf of d w 0 m := hp m (by omega)
        have hnext : (p m).pweight - w m * zf * ((d - m : ℕ):ℚ) / ((d:ℚ)+1) =
            of * w (m-1) * ((m:ℕ):ℚ) / ((d:ℚ)+1) := by
          rw [hpm, extS_zero zf of d w m (by omega)]
          ring
        rw [hnext]
      rw [hstep]
      by_cases hpos2 : pos < m
      · exact ih (by omega) (updPw p m (w m)) (fun i hi => by
          rw [updPw_pw]
          rw [if_neg (by omega : ¬ i = m)]
          exact hp i (by omega)) pos hpos2
      · have hpm : pos = m := by omega
        subst hpm
        rw [unwLoop_untouched zf of d pos _ pos le_rfl, updPw_pw, if_pos rfl]

/-- Inverse lemma, `one_fraction = 0` branch (division by `zero_fraction`):
    requires `zero_fraction ≠ 0`. -/
theorem unwLoop_inv_zero (zf of : ℚ) (hof : of = 0) (hzf : zf ≠ 0) (d : ℕ) (w : ℕ → ℚ) :
    ∀ (m : ℕ), m ≤ d → ∀ (p : ℕ → PathElement) (next : ℚ),
      (∀ i, i < m → (p i).pweight = extS zf of d w 0 i) →
      ∀ pos, pos < m →
        ((unwLoop zf of d m (p, next)).1 pos).pweight = w pos := by
  intro m
  induction m with
  | zero => intro _ p next _ pos hpos; omega
  | succ m ih =>
      intro hle p next hp pos hpos
      have hdm : ((d - m : ℕ) : ℚ) ≠ 0 := by
        have : 0 < d - m := Nat.sub_pos_of_lt hle
        exact_mod_cast Nat.pos_iff_ne_zero.mp this
      have hd1 : ((d:ℚ)+1) ≠ 0 := by positivity
      have hstep : unwStep zf of d (p, next) m = (updPw p m (w m), next) := by
        unfold unwStep
        rw [if_neg (by simp [hof] : ¬ of ≠ 0)]
        have hval : (p m).pweight * ((d:ℚ)+1) / (zf * ((d - m : ℕ) : ℚ)) = w m := by
          rw [hp m (by omega), extS_zero zf of d w m (by omega), hof]
          field_simp
          ring
        rw [hval]
      rw [show unwLoop zf of d (m+1) (p, next) =
        unwLoop zf of d m (unwStep zf of d (p, next) m) from rfl, hstep]
      by_cases hpos2 : pos < m
      · exact ih (by omega) (updPw p m (w m)) next (fun i hi => by
          rw [updPw_pw, if_neg (by omega : ¬ i = m)]
          exact hp i (by omega)) pos hpos2
      · have hpm : pos = m := by omega
        subst hpm
        rw [unwLoop_untouched zf of d pos _ pos le_rfl, updPw_pw, if_pos rfl]

/-- Closed form of the compaction loop. -/
theorem shiftLoop_spec :
    ∀ (n s : ℕ) (p : ℕ → PathElement) (j : ℕ),
      (shiftLoop s n p) j =
        if s ≤ j ∧ j < s + n then
          ⟨(p (j+1)).feature_index, (p (j+1)).zero_fraction,
            (p (j+1)).one_fraction, (p j).pweight⟩
        else p j := by
  intro n
  induction n with
  | zero =>
      intro s p j
      rw [if_neg (by omega)]
      rfl
  | succ n ih =>
      intro s p j
      rw [show shiftLoop s (n+1) p = shiftLoop (s+1) n
        (upd p s ⟨(p (s+1)).feature_index, (p (s+1)).zero_fraction,
          (p (s+1)).one_fraction, (p s).pweight⟩) from rfl, ih]
      by_cases h1 : j = s
      · subst h1
        rw [if_neg (by omega), if_pos (by omega), upd_same]
      · rw [upd_ne _ _ _ _ h1]
        by_cases h2 : s + 1 ≤ j ∧ j < s + 1 + n
        · rw [if_pos h2, if_pos (by omega), upd_ne _ _ _ _ (by omega)]
        · rw [if_neg h2, if_neg (by omega)]

/-! ### Claim C4: UnwindPath inverts ExtendPath -/

/-- Concrete path used to refute the unrestricted inverse claim. -/
def cexPath : ℕ → PathElement := fun _ => ⟨0, 0, 0, 1⟩

/-- C4 counterexample: extending with zero-fraction 0 and one-fraction 0 and
    then unwinding at the extended element's position does NOT restore the
    earlier element's permutation weight (the restoring division has a zero
    denominator). -/
theorem C4_counterexample :
    ((UnwindPath (ExtendPath cexPath 1 0 0 5) 1 1) 0).pweight ≠
      (cexPath 0).pweight := by
  with_unfolding_all decide

/-- C4 (amended): provided the extended element's one-fraction or
    zero-fraction is nonzero, unwinding at the extended element's position
    restores every earlier element's permutation weight; and (for any path)
    `UnwindPath` compacts the array by shifting the feature/fraction data of
    every element after the removed index down one slot. -/
theorem C4_unwind_inverts_extend (p : ℕ → PathElement) (d : ℕ) (zf of : ℚ)
    (f : ℤ) (h : of ≠ 0 ∨ zf ≠ 0) :
    (∀ i, i < d →
      ((UnwindPath (ExtendPath p d zf of f) d d) i).pweight = (p i).pweight) ∧
    (∀ (q : ℕ → PathElement) (k i : ℕ), k ≤ i → i < d →
      ((UnwindPath q d k) i).feature_index = (q (i+1)).feature_index ∧
      ((UnwindPath q d k) i).zero_fraction = (q (i+1)).zero_fraction ∧
      ((UnwindPath q d k) i).one_fraction = (q (i+1)).one_fraction) := by
  constructor
  · intro i hid
    have hd : 1 ≤ d := by omega
    set P := ExtendPath p d zf of f with hP
    have hfield := ExtendPath_fields p d zf of f d
    have hzfP : (P d).zero_fraction = zf := by rw [hP, hfield.2.1, if_pos rfl]
    have hofP : (P d).one_fraction = of := by rw [hP, hfield.2.2, if_pos rfl]
    have hPpw : ∀ j, (P j).pweight =
        extS zf of d (fun j => if j = d then 0 else (p j).pweight) 0 j :=
      ExtendPath_pw p d hd zf of f
    have hinit : (P d).pweight =
        of * (fun j => if j = d then 0 else (p j).pweight) (d-1) * (d:ℚ) / ((d:ℚ)+1) := by
      rw [hPpw d, extS_zero zf of d _ d le_rfl]
      simp
    have hshift : UnwindPath P d d =
        (unwLoop (P d).zero_fraction (P d).one_fraction d d (P, (P d).pweight)).1 := by
      unfold UnwindPath
      rw [Nat.sub_self]
      rfl
    rw [hshift, hzfP, hofP]
    rcases h with hof | hzf
    · rw [hinit]
      have := unwLoop_inv_one zf of hof d
        (fun j => if j = d then 0 else (p j).pweight) d le_rfl P
        (fun i2 hi2 => hPpw i2) i hid
      rw [this]
      simp [show i ≠ d by omega]
    · by_cases hof : of ≠ 0
      · rw [hinit]
        have := unwLoop_inv_one zf of hof d
          (fun j => if j = d then 0 else (p j).pweight) d le_rfl P
          (fun i2 hi2 => hPpw i2) i hid
        rw [this]
        simp [show i ≠ d by omega]
      · have hof0 : of = 0 := by simpa using hof
        have := unwLoop_inv_zero zf of hof0 hzf d
          (fun j => if j = d then 0 else (p j).pweight) d le_rfl P (P d).pweight
          (fun i2 hi2 => hPpw i2) i hid
        rw [this]
        simp [show i ≠ d by omega]
  · intro q k i hki hid
    have hspec := shiftLoop_spec (d - k) k
      (unwLoop (q k).zero_fraction (q k).one_fraction d d (q, (q d).pweight)).1 i
    have hcond : k ≤ i ∧ i < k + (d - k) := by omega
    unfold UnwindPath
    rw [hspec, if_pos hcond]
    have hf := unwLoop_fields (q k).zero_fraction (q k).one_fraction d d
      (q, (q d).pweight) (i+1)
    exact ⟨hf.1, hf.2.1, hf.2.2⟩

/-- Concrete path for the C4 witness. -/
def wPath : ℕ → PathElement := fun j => ⟨(j:ℤ), (j:ℚ), (j:ℚ), (j:ℚ)⟩

/-- Witness for C4 at depth 1 with fractions 1, 1. -/
theorem C4_unwind_inverts_extend_witness :
    ((1:ℚ) ≠ 0 ∨ (1:ℚ) ≠ 0) ∧
    ((UnwindPath (ExtendPath wPath 1 1 1 7) 1 1) 0).pweight = (wPath 0).pweight ∧
    ((UnwindPath wPath 2 0) 1).feature_index = (wPath 2).feature_index := by
  refine ⟨Or.inl one_ne_zero,
    (C4_unwind_inverts_extend wPath 1 1 1 7 (Or.inl one_ne_zero)).1 0
      (by decide),
    ((C4_unwind_inverts_extend wPath 2 1 1 7 (Or.inl one_ne_zero)).2 wPath 0 1
      (by decide) (by decide)).1⟩

/-! ### TreeModel arena operations -/

/-- Checked node access `nodes[i]` (out-of-range access is C++ UB, modelled
    as `none`). -/
def getN (tr : TreeS) (i : ℤ) : Option NodeS :=
  if 0 ≤ i ∧ i.toNat < tr.nodes.length then some (tr.nodes.getD i.toNat default)
  else none

/-- Write `nodes[i] = n`. -/
def setN (tr : TreeS) (i : ℤ) (n : NodeS) : TreeS :=
  { tr with nodes := tr.nodes.set i.toNat n }

/-- `std::vector::resize(n, dv)`. -/
def resizeL {α : Type} (l : List α) (n : ℕ) (dv : α) : List α :=
  if n ≤ l.length then l.take n else l ++ List.replicate (n - l.length) dv

/-- `TreeModel::AllocNode` (tree_model.h:208-222).  Returns the allocated id;
    `none` models the fatal node-count CHECK and the UB of `back()` on an
    empty vector. -/
def AllocNode (tr : TreeS) : Option (TreeS × ℤ) :=
  if tr.param.num_deleted ≠ 0 then
    match tr.deleted_nodes.getLast? with
    | none => none
    | some nd =>
        some ({ tr with
          deleted_nodes := tr.deleted_nodes.dropLast,
          param := { tr.param with num_deleted := tr.param.num_deleted - 1 } }, nd)
  else
    if tr.param.num_nodes + 1 < 2^31 - 1 then
      some ({ tr with
        param := { tr.param with num_nodes := tr.param.num_nodes + 1 },
        nodes := resizeL tr.nodes (tr.param.num_nodes + 1).toNat default,
        stats := resizeL tr.stats (tr.param.num_nodes + 1).toNat default,
        leaf_vector := resizeL tr.leaf_vector
          ((tr.param.num_nodes + 1) * tr.param.size_leaf_vector).toNat 0 },
       tr.param.num_nodes)
    else none

/-- `TreeModel::DeleteNode` (tree_model.h:224-229). -/
def DeleteNode (tr : TreeS) (nid : ℤ) : Option TreeS :=
  if tr.param.num_roots ≤ nid then
    match getN tr nid with
    | none => none
    | some n =>
        some { tr with
          deleted_nodes := tr.deleted_nodes ++ [nid],
          nodes := tr.nodes.set nid.toNat n.mark_delete,
          param := { tr.param with num_deleted := tr.param.num_deleted + 1 } }
  else none

/-- `TreeModel::ChangeToLeaf` (tree_model.h:237-243). -/
def ChangeToLeaf (tr : TreeS) (rid : ℤ) (value : ℚ) : Option TreeS :=
  (getN tr rid).bind fun r =>
  (getN tr r.cleft).bind fun lc =>
  (getN tr r.cright).bind fun rc =>
  if lc.is_leaf && rc.is_leaf then
    (DeleteNode tr r.cleft).bind fun tr1 =>
    (DeleteNode tr1 r.cright).bind fun tr2 =>
    (getN tr2 rid).bind fun r2 =>
    some (setN tr2 rid (r2.set_leaf value))
  else none

/-- `TreeModel::CollapseToLeaf` (tree_model.h:249-258), with explicit
    recursion fuel. -/
def CollapseToLeaf : ℕ → TreeS → ℤ → ℚ → Option TreeS
  | 0, _, _, _ => none
  | fuel+1, tr, rid, value =>
      (getN tr rid).bind fun r =>
      if r.is_leaf then
        some tr
      else
        (getN tr r.cleft).bind fun lc =>
        (if !lc.is_leaf then CollapseToLeaf fuel tr r.cleft 0 else some tr).bind fun tr1 =>
        (getN tr1 rid).bind fun r1 =>
        (getN tr1 r1.cright).bind fun rc =>
        (if !rc.is_leaf then CollapseToLeaf fuel tr1 r1.cright 0 else some tr1).bind fun tr2 =>
        ChangeToLeaf tr2 rid value

/-- The `TreeParam` constructor state (memset to 0, then
    `num_nodes = num_roots = 1`). -/
def initTreeParam : TreeParamS := ⟨1, 1, 0, 0, 0, 0, List.replicate 31 0⟩

/-- The `TreeModel` constructor state (`nodes.resize(1)`; stats, leaf vector
    and free list empty). -/
def initTree : TreeS := ⟨initTreeParam, [default], [], [], [], []⟩

/-! ### Serialization codec -/

/-- One machine word of the binary stream: an integer word or a float
    word. -/
inductive Word : Type
  | i (n : ℤ)
  | r (q : ℚ)
deriving DecidableEq, Repr

/-- The `TreeParam` block: 6 meaningful fields followed by the 31 reserved
    words, written verbatim. -/
def paramWords (p : TreeParamS) : List Word :=
  ([p.num_roots, p.num_nodes, p.num_deleted, p.max_depth, p.num_feature,
    p.size_leaf_vector] ++ p.reserved).map Word.i

/-- One `Node` record: parent, left, right, split index, value union. -/
def nodeWords (n : NodeS) : List Word :=
  [.i (n.parent_ : ℤ), .i n.cleft_, .i n.cright_, .i (n.sindex_ : ℤ), .r n.value]

/-- One `NodeStat` record. -/
def statWords (s : RTreeNodeStat) : List Word :=
  [.r s.loss_chg, .r s.sum_hess, .r s.base_weight, .i s.leaf_child_cnt]

/-- `TreeModel::Save` (tree_model.h:338-346); `none` models the fatal
    CHECKs. -/
def Save (tr : TreeS) : Option (List Word) :=
  if tr.param.num_nodes = (tr.nodes.length : ℤ) ∧
      tr.param.num_nodes = (tr.stats.length : ℤ) ∧
      tr.param.num_nodes ≠ 0 then
    some (paramWords tr.param ++ (tr.nodes.map nodeWords).flatten ++
      (tr.stats.map statWords).flatten ++
      (if tr.param.size_leaf_vector ≠ 0 then
        Word.i (tr.leaf_vector.length : ℤ) :: tr.leaf_vector.map Word.r
      else []))
  else none

def readInt : List Word → Option (ℤ × List Word)
  | .i n :: rest => some (n, rest)
  | _ => none

def readRat : List Word → Option (ℚ × List Word)
  | .r q :: rest => some (q, rest)
  | _ => none

def readInts : ℕ → List Word → Option (List ℤ × List Word)
  | 0, ws => some ([], ws)
  | n+1, ws => do
      let (x, ws1) ← readInt ws
      let (xs, ws2) ← readInts n ws1
      some (x :: xs, ws2)

def readRats : ℕ → List Word → Option (List ℚ × List Word)
  | 0, ws => some ([], ws)
  | n+1, ws => do
      let (x, ws1) ← readRat ws
      let (xs, ws2) ← readRats n ws1
      some (x :: xs, ws2)

/-- Reinterpret a stored int word as a 32-bit pattern. -/
def castPat (z : ℤ) : ℕ := (z % 2^32).toNat

def readNode (ws : List Word) : Option (NodeS × List Word) := do
  let (pa, ws1) ← readInt ws
  let (cl, ws2) ← readInt ws1
  let (cr, ws3) ← readInt ws2
  let (si, ws4) ← readInt ws3
  let (v, ws5) ← readRat ws4
  some (⟨castPat pa, cl, cr, castPat si, v⟩, ws5)

def readNodes : ℕ → List Word → Option (List NodeS × List Word)
  | 0, ws => some ([], ws)
  | n+1, ws => do
      let (x, ws1) ← readNode ws
      let (xs, ws2) ← readNodes n ws1
      some (x :: xs, ws2)

def readStat (ws : List Word) : Option (RTreeNodeStat × List Word) := do
  let (a, ws1) ← readRat ws
  let (b, ws2) ← readRat ws1
  let (c, ws3) ← readRat ws2
  let (d, ws4) ← readInt ws3
  some (⟨a, b, c, d⟩, ws4)

def readStats : ℕ → List Word → Option (List RTreeNodeStat × List Word)
  | 0, ws => some ([], ws)
  | n+1, ws => do
      let (x, ws1) ← readStat ws
      let (xs, ws2) ← readStats n ws1
      some (x :: xs, ws2)

/-- The int range `[a, b)` as a list. -/
def intRange (a b : ℤ) : List ℤ :=
  (List.range (b - a).toNat).map (fun k => a + (k:ℤ))

/-- The free list recomputed by `Load`: every non-root index whose node
    carries the deletion sentinel (tree_model.h:328-331). -/
def recomputedFreeList (p : TreeParamS) (ns : List NodeS) : List ℤ :=
  (intRange p.num_roots p.num_nodes).filter
    (fun i => (ns.getD i.toNat default).is_deleted)

/-- `TreeModel::Load` (tree_model.h:315-333) applied to the stream `ws` with
    `tr0` as the tree being loaded into.  `none` models a short read, the
    fatal CHECKs, and the abort of `resize` on a negative count. -/
def Load (ws : List Word) (tr0 : TreeS) : Option TreeS :=
  (readInts 37 ws).bind fun pr =>
  match pr.1 with
  | nr :: nn :: nd :: md :: nf :: slv :: reserved =>
      if nn < 0 then none
      else if nn = 0 then none
      else
        (readNodes nn.toNat pr.2).bind fun pn =>
        (readStats nn.toNat pn.2).bind fun ps =>
        (if slv ≠ 0 then
            (readInt ps.2).bind fun pl =>
            (readRats pl.1.toNat pl.2).bind fun pv => some pv.1
          else some tr0.leaf_vector).bind fun lv =>
        if ((recomputedFreeList ⟨nr, nn, nd, md, nf, slv, reserved⟩ pn.1).length : ℤ)
            = nd then
          some ⟨⟨nr, nn, nd, md, nf, slv, reserved⟩, pn.1,
            recomputedFreeList ⟨nr, nn, nd, md, nf, slv, reserved⟩ pn.1, ps.1, lv,
            tr0.node_mean_values⟩
        else none
  | _ => none

theorem resizeL_length {α : Type} (l : List α) (n : ℕ) (dv : α) :
    (resizeL l n dv).length = n := by
  unfold resizeL
  split_ifs with h
  · simp [Nat.min_eq_left h]
  · simp
    omega

/-! ### Claim C10: CollapseToLeaf on a leaf is a no-op -/

/-- C10: if `rid` is already a leaf, `CollapseToLeaf` returns immediately
    with the tree unchanged (the value argument is ignored). -/
theorem C10_collapse_on_leaf_noop (fuel : ℕ) (tr : TreeS) (rid : ℤ) (v : ℚ)
    (r : NodeS) (hr : getN tr rid = some r) (hleaf : r.is_leaf = true) :
    CollapseToLeaf (fuel+1) tr rid v = some tr := by
  unfold CollapseToLeaf
  rw [hr]
  simp [hleaf]

/-- Concrete one-leaf tree. -/
def leafTree : TreeS :=
  ⟨initTreeParam, [⟨2^32 - 1, -1, -1, 0, 5⟩], [], [default], [], []⟩

/-- Witness for C10: collapsing the leaf root of `leafTree` with a different
    value changes nothing. -/
theorem C10_collapse_on_leaf_noop_witness :
    CollapseToLeaf 1 leafTree 0 99 = some leafTree :=
  C10_collapse_on_leaf_noop 0 leafTree 0 99 ⟨2^32 - 1, -1, -1, 0, 5⟩
    (by decide) (by decide)

/-! ### Claim C6: allocation reuse -/

/-- C6: after `DeleteNode x` (the most recent deletion), a nonzero deleted
    count makes `AllocNode` return `x` from the free list, decrementing the
    deleted count and touching none of the arrays; with a zero deleted count
    (and no counter overflow) `AllocNode` mints the id `num_nodes` and grows
    the node/stat/leaf-vector arrays by one record. -/
theorem C6_alloc_reuse (tr0 tr : TreeS) (x : ℤ)
    (hdel : DeleteNode tr0 x = some tr) :
    (tr.param.num_deleted ≠ 0 →
      ∃ tr', AllocNode tr = some (tr', x) ∧
        tr'.nodes = tr.nodes ∧ tr'.stats = tr.stats ∧
        tr'.leaf_vector = tr.leaf_vector ∧
        tr'.param.num_nodes = tr.param.num_nodes ∧
        tr'.param.num_deleted = tr.param.num_deleted - 1 ∧
        tr'.deleted_nodes = tr0.deleted_nodes) ∧
    (∀ (tr2 : TreeS), tr2.param.num_deleted = 0 →
      tr2.param.num_nodes + 1 < 2^31 - 1 →
      0 ≤ tr2.param.num_nodes → 0 ≤ tr2.param.size_leaf_vector →
      tr2.nodes.length = tr2.param.num_nodes.toNat →
      tr2.stats.length = tr2.param.num_nodes.toNat →
      tr2.leaf_vector.length =
        (tr2.param.num_nodes * tr2.param.size_leaf_vector).toNat →
      ∃ tr', AllocNode tr2 = some (tr', tr2.param.num_nodes) ∧
        tr'.param.num_nodes = tr2.param.num_nodes + 1 ∧
        tr'.nodes.length = tr2.nodes.length + 1 ∧
        tr'.stats.length = tr2.stats.length + 1 ∧
        tr'.leaf_vector.length =
          tr2.leaf_vector.length + tr2.param.size_leaf_vector.toNat) := by
  constructor
  · intro hnz
    have hx : tr.deleted_nodes = tr0.deleted_nodes ++ [x] := by
      unfold DeleteNode at hdel
      by_cases h1 : tr0.param.num_roots ≤ x
      · rw [if_pos h1] at hdel
        cases hget : getN tr0 x with
        | none => rw [hget] at hdel; cases hdel
        | some n =>
            rw [hget] at hdel
            cases hdel
            rfl
      · rw [if_neg h1] at hdel; cases hdel
    refine ⟨{ tr with
        deleted_nodes := tr.deleted_nodes.dropLast,
        param := { tr.param with num_deleted := tr.param.num_deleted - 1 } },
      ?_, rfl, rfl, rfl, rfl, rfl, ?_⟩
    · unfold AllocNode
      rw [if_pos hnz, hx, List.getLast?_concat]
    · show (tr.deleted_nodes).dropLast = tr0.deleted_nodes
      rw [hx, List.dropLast_concat]
  · intro tr2 hz hov hnn hslv hlen1 hlen2 hlen3
    refine ⟨{ tr2 with
        param := { tr2.param with num_nodes := tr2.param.num_nodes + 1 },
        nodes := resizeL tr2.nodes (tr2.param.num_nodes + 1).toNat default,
        stats := resizeL tr2.stats (tr2.param.num_nodes + 1).toNat default,
        leaf_vector := resizeL tr2.leaf_vector
          ((tr2.param.num_nodes + 1) * tr2.param.size_leaf_vector).toNat 0 },
      ?_, rfl, ?_, ?_, ?_⟩
    · unfold AllocNode
      rw [if_neg (by simp [hz] : ¬ tr2.param.num_deleted ≠ 0), if_pos hov]
    · simp only [resizeL_length]
      omega
    · simp only [resizeL_length]
      omega
    · simp only [resizeL_length]
      have hdist : (tr2.param.num_nodes + 1) * tr2.param.size_leaf_vector =
          tr2.param.num_nodes * tr2.param.size_leaf_vector +
            tr2.param.size_leaf_vector := by ring
      rw [hdist]
      have hmul : 0 ≤ tr2.param.num_nodes * tr2.param.size_leaf_vector :=
        mul_nonneg hnn hslv
      omega

/-- Concrete two-node tree for the C6 witness (root plus one deletable
    leaf). -/
def twoTree : TreeS :=
  ⟨⟨1, 2, 0, 0, 0, 0, List.replicate 31 0⟩,
   [⟨2^32 - 1, -1, -1, 0, 0⟩, ⟨0, -1, -1, 0, 1⟩], [], [default, default], [], []⟩

/-- Witness for C6: delete node 1 of `twoTree`, then `AllocNode` returns 1
    again. -/
theorem C6_alloc_reuse_witness :
    ∃ tr', AllocNode
        { twoTree with
          deleted_nodes := [1],
          nodes := [⟨2^32 - 1, -1, -1, 0, 0⟩, ⟨0, -1, -1, 2^32 - 1, 1⟩],
          param := { twoTree.param with num_deleted := 1 } } = some (tr', 1) ∧
      tr'.nodes =
        ({ twoTree with
          deleted_nodes := [1],
          nodes := [⟨2^32 - 1, -1, -1, 0, 0⟩, ⟨0, -1, -1, 2^32 - 1, 1⟩],
          param := { twoTree.param with num_deleted := 1 } } : TreeS).nodes ∧
      tr'.stats =
        ({ twoTree with
          deleted_nodes := [1],
          nodes := [⟨2^32 - 1, -1, -1, 0, 0⟩, ⟨0, -1, -1, 2^32 - 1, 1⟩],
          param := { twoTree.param with num_deleted := 1 } } : TreeS).stats ∧
      tr'.leaf_vector =
        ({ twoTree with
          deleted_nodes := [1],
          nodes := [⟨2^32 - 1, -1, -1, 0, 0⟩, ⟨0, -1, -1, 2^32 - 1, 1⟩],
          param := { twoTree.param with num_deleted := 1 } } : TreeS).leaf_vector ∧
      tr'.param.num_nodes =
        ({ twoTree with
          deleted_nodes := [1],
          nodes := [⟨2^32 - 1, -1, -1, 0, 0⟩, ⟨0, -1, -1, 2^32 - 1, 1⟩],
          param := { twoTree.param with num_deleted := 1 } } : TreeS).param.num_nodes ∧
      tr'.param.num_deleted =
        ({ twoTree with
          deleted_nodes := [1],
          nodes := [⟨2^32 - 1, -1, -1, 0, 0⟩, ⟨0, -1, -1, 2^32 - 1, 1⟩],
          param := { twoTree.param with num_deleted := 1 } } : TreeS).param.num_deleted - 1 ∧
      tr'.deleted_nodes = twoTree.deleted_nodes :=
  (C6_alloc_reuse twoTree _ 1 (by decide)).1 (by decide)

/-! ### Claim C3 counterexample: Save's preconditions do not ensure a
    successful round trip -/

/-- A tree satisfying all of `Save`'s CHECKs whose stored deleted count (1)
    disagrees with its nodes (none carries the deletion sentinel). -/
def trBad : TreeS :=
  ⟨⟨1, 1, 1, 0, 0, 0, List.replicate 31 0⟩, [default], [], [default], [], []⟩

/-- C3 counterexample: `Save` succeeds on `trBad` but `Load` of the saved
    bytes aborts (deleted-count integrity check), so Save-then-Load yields
    no tree at all. -/
theorem C3_counterexample :
    (Save trBad).isSome = true ∧
    (Save trBad).bind (fun s => Load s initTree) = none := by
  constructor <;> with_unfolding_all decide

/-! ### Claim C9 counterexample: collapsing a depth-2 subtree removes six
    nodes, not three -/

/-- Depth-2 tree: root 0 with internal children 1, 2 and four distinct
    leaves 3, 4, 5, 6. -/
def cTree : TreeS :=
  ⟨⟨1, 7, 0, 0, 2, 0, List.replicate 31 0⟩,
   [⟨2^32 - 1, 1, 2, 0, 0⟩, ⟨0 ||| 2^31, 3, 4, 1, 0⟩, ⟨0, 5, 6, 1, 0⟩,
    ⟨1 ||| 2^31, -1, -1, 0, 1⟩, ⟨1, -1, -1, 0, 2⟩,
    ⟨2 ||| 2^31, -1, -1, 0, 3⟩, ⟨2, -1, -1, 0, 4⟩],
   [], List.replicate 7 default, [], []⟩

/-- C9 counterexample: collapsing the depth-2 tree `cTree` at its root
    deletes exactly the six nodes 3, 4, 5, 6, 1, 2 (in that order) — six
    removals, not three. -/
theorem C9_counterexample :
    (CollapseToLeaf 3 cTree 0 10).map
        (fun t => (t.deleted_nodes, t.param.num_deleted)) =
      some ([3, 4, 5, 6, 1, 2], 6) := by
  with_unfolding_all decide

/-! ### Claim C7: free-list length invariant -/

/-- The invariant: the free list length always equals `num_deleted`. -/
def FreeListInv (tr : TreeS) : Prop :=
  (tr.deleted_nodes.length : ℤ) = tr.param.num_deleted

/-- One mutation step of the arena (any of the five operations of the
    claim, when it succeeds). -/
inductive Step : TreeS → TreeS → Prop
  | alloc (tr tr' : TreeS) (x : ℤ) : AllocNode tr = some (tr', x) → Step tr tr'
  | delete (tr tr' : TreeS) (nid : ℤ) : DeleteNode tr nid = some tr' → Step tr tr'
  | change (tr tr' : TreeS) (rid : ℤ) (v : ℚ) :
      ChangeToLeaf tr rid v = some tr' → Step tr tr'
  | collapse (tr tr' : TreeS) (fuel : ℕ) (rid : ℤ) (v : ℚ) :
      CollapseToLeaf fuel tr rid v = some tr' → Step tr tr'
  | load (tr tr' : TreeS) (ws : List Word) : Load ws tr = some tr' → Step tr tr'

/-- States reachable from the freshly constructed tree. -/
inductive Reachable : TreeS → Prop
  | init : Reachable initTree
  | step {tr tr' : TreeS} : Reachable tr → Step tr tr' → Reachable tr'

theorem alloc_inv (tr tr' : TreeS) (x : ℤ) (h : AllocNode tr = some (tr', x))
    (hinv : FreeListInv tr) : FreeListInv tr' := by
  unfold AllocNode at h
  by_cases h1 : tr.param.num_deleted ≠ 0
  · rw [if_pos h1] at h
    cases hlast : tr.deleted_nodes.getLast? with
    | none => rw [hlast] at h; cases h
    | some nd =>
        rw [hlast] at h
        cases h
        have hne : tr.deleted_nodes ≠ [] := by
          intro hemp
          rw [hemp] at hlast
          cases hlast
        have hlen : 1 ≤ tr.deleted_nodes.length := by
          cases hdn : tr.deleted_nodes with
          | nil => exact absurd hdn hne
          | cons a l => simp [hdn]
        unfold FreeListInv at hinv ⊢
        simp only [List.length_dropLast]
        omega
  · rw [if_neg h1] at h
    by_cases h2 : tr.param.num_nodes + 1 < 2^31 - 1
    · simp only [if_pos h2] at h
      cases h
      exact hinv
    · simp only [if_neg h2] at h
      cases h

theorem delete_inv (tr tr' : TreeS) (nid : ℤ) (h : DeleteNode tr nid = some tr')
    (hinv : FreeListInv tr) : FreeListInv tr' := by
  unfold DeleteNode at h
  by_cases h1 : tr.param.num_roots ≤ nid
  · rw [if_pos h1] at h
    cases hget : getN tr nid with
    | none => rw [hget] at h; cases h
    | some n =>
        rw [hget] at h
        cases h
        unfold FreeListInv at hinv ⊢
        simp only [List.length_append, List.length_cons, List.length_nil]
        omega
  · rw [if_neg h1] at h; cases h

theorem change_inv (tr tr' : TreeS) (rid : ℤ) (v : ℚ)
    (h : ChangeToLeaf tr rid v = some tr') (hinv : FreeListInv tr) :
    FreeListInv tr' := by
  unfold ChangeToLeaf at h
  rcases Option.bind_eq_some.mp h with ⟨r, hr, h⟩
  rcases Option.bind_eq_some.mp h with ⟨lc, hlc, h⟩
  rcases Option.bind_eq_some.mp h with ⟨rc, hrc, h⟩
  by_cases hb : (lc.is_leaf && rc.is_leaf) = true
  · rw [if_pos hb] at h
    rcases Option.bind_eq_some.mp h with ⟨tr1, htr1, h⟩
    rcases Option.bind_eq_some.mp h with ⟨tr2, htr2, h⟩
    rcases Option.bind_eq_some.mp h with ⟨r2, hr2, h⟩
    cases h
    have i1 := delete_inv tr tr1 r.cleft htr1 hinv
    have i2 := delete_inv tr1 tr2 r.cright htr2 i1
    exact i2
  · rw [if_neg hb] at h; cases h

theorem collapse_inv (fuel : ℕ) :
    ∀ (tr tr' : TreeS) (rid : ℤ) (v : ℚ),
      CollapseToLeaf fuel tr rid v = some tr' → FreeListInv tr →
      FreeListInv tr' := by
  induction fuel with
  | zero => intro tr tr' rid v h _; cases h
  | succ fuel ih =>
      intro tr tr' rid v h hinv
      unfold CollapseToLeaf at h
      rcases Option.bind_eq_some.mp h with ⟨r, hr, h⟩
      by_cases hb : r.is_leaf = true
      · rw [if_pos hb] at h
        cases h
        exact hinv
      · rw [if_neg hb] at h
        rcases Option.bind_eq_some.mp h with ⟨lc, hlc, h⟩
        rcases Option.bind_eq_some.mp h with ⟨tr1, htr1, h⟩
        rcases Option.bind_eq_some.mp h with ⟨r1, hr1, h⟩
        rcases Option.bind_eq_some.mp h with ⟨rc, hrc, h⟩
        rcases Option.bind_eq_some.mp h with ⟨tr2, htr2, h⟩
        have i1 : FreeListInv tr1 := by
          by_cases hl : (!lc.is_leaf) = true
          · rw [if_pos hl] at htr1
            exact ih tr tr1 r.cleft 0 htr1 hinv
          · rw [if_neg hl] at htr1
            cases htr1
            exact hinv
        have i2 : FreeListInv tr2 := by
          by_cases hl : (!rc.is_leaf) = true
          · rw [if_pos hl] at htr2
            exact ih tr1 tr2 r1.cright 0 htr2 i1
          · rw [if_neg hl] at htr2
            cases htr2
            exact i1
        exact change_inv tr2 tr' rid v h i2

theorem load_inv (ws : List Word) (tr tr' : TreeS) (h : Load ws tr = some tr') :
    FreeListInv tr' := by
  unfold Load at h
  rcases Option.bind_eq_some.mp h with ⟨pr, hpr, h⟩
  rcases hrs : pr.1 with _ | ⟨nr, _ | ⟨nn, _ | ⟨nd, _ | ⟨md, _ | ⟨nf, _ | ⟨slv, reserved⟩⟩⟩⟩⟩⟩ <;>
    rw [hrs] at h <;> dsimp only at h <;> try exact Option.noConfusion h
  by_cases h0 : nn < 0
  · rw [if_pos h0] at h; cases h
  · rw [if_neg h0] at h
    by_cases h1 : nn = 0
    · rw [if_pos h1] at h; cases h
    · rw [if_neg h1] at h
      rcases Option.bind_eq_some.mp h with ⟨pn, hpn, h⟩
      rcases Option.bind_eq_some.mp h with ⟨ps, hps, h⟩
      rcases Option.bind_eq_some.mp h with ⟨lv, hlv, h⟩
      by_cases h2 : ((recomputedFreeList ⟨nr, nn, nd, md, nf, slv, reserved⟩
          pn.1).length : ℤ) = nd
      · rw [if_pos h2] at h
        cases h
        exact h2
      · rw [if_neg h2] at h
        cases h

/-- C7: in every state reachable from the freshly initialized tree by
    AllocNode, DeleteNode, ChangeToLeaf, CollapseToLeaf and successful Load
    operations, the free list length equals `num_deleted`. -/
theorem C7_freelist_invariant (tr : TreeS) (h : Reachable tr) : FreeListInv tr := by
  induction h with
  | init => rfl
  | step _ hstep ih =>
      cases hstep with
      | alloc x h => exact alloc_inv _ _ x h ih
      | delete nid h => exact delete_inv _ _ nid h ih
      | change rid v h => exact change_inv _ _ rid v h ih
      | collapse fuel rid v h => exact collapse_inv fuel _ _ rid v h ih
      | load ws h => exact load_inv ws _ _ h

/-- Witness for C7 at the initial state. -/
theorem C7_freelist_invariant_witness : FreeListInv initTree :=
  C7_freelist_invariant initTree Reachable.init

/-! ### Exact-parse lemmas for the codec -/

theorem readInts_exact : ∀ (l : List ℤ) (rest : List Word),
    readInts l.length (l.map Word.i ++ rest) = some (l, rest) := by
  intro l
  induction l with
  | nil => intro rest; rfl
  | cons a l ih =>
      intro rest
      have h0 : readInts (a :: l).length (List.map Word.i (a :: l) ++ rest) =
          (readInts l.length (l.map Word.i ++ rest)).bind
            (fun pq2 => some (a :: pq2.1, pq2.2)) := rfl
      rw [h0, ih rest]
      rfl

theorem readRats_exact : ∀ (l : List ℚ) (rest : List Word),
    readRats l.length (l.map Word.r ++ rest) = some (l, rest) := by
  intro l
  induction l with
  | nil => intro rest; rfl
  | cons a l ih =>
      intro rest
      have h0 : readRats (a :: l).length (List.map Word.r (a :: l) ++ rest) =
          (readRats l.length (l.map Word.r ++ rest)).bind
            (fun pq2 => some (a :: pq2.1, pq2.2)) := rfl
      rw [h0, ih rest]
      rfl

theorem castPat_roundtrip (n : ℕ) (h : n < 2^32) : castPat (n : ℤ) = n := by
  unfold castPat
  have h1 : (n : ℤ) % 2^32 = (n : ℤ) := by omega
  rw [h1]
  exact Int.toNat_natCast n

theorem readNode_exact (n : NodeS) (rest : List Word)
    (hp : n.parent_ < 2^32) (hs : n.sindex_ < 2^32) :
    readNode (nodeWords n ++ rest) = some (n, rest) := by
  have h1 : readNode (nodeWords n ++ rest) =
      some (⟨castPat (n.parent_ : ℤ), n.cleft_, n.cright_,
        castPat (n.sindex_ : ℤ), n.value⟩, rest) := rfl
  rw [h1, castPat_roundtrip _ hp, castPat_roundtrip _ hs]

theorem readNodes_exact : ∀ (ns : List NodeS) (rest : List Word),
    (∀ n ∈ ns, n.parent_ < 2^32 ∧ n.sindex_ < 2^32) →
    readNodes ns.length ((ns.map nodeWords).flatten ++ rest) = some (ns, rest) := by
  intro ns
  induction ns with
  | nil => intro rest _; rfl
  | cons a ns ih =>
      intro rest hpat
      have h1 : (((a :: ns).map nodeWords).flatten ++ rest) =
          nodeWords a ++ ((ns.map nodeWords).flatten ++ rest) := by
        simp
      have h0 : readNodes (a :: ns).length
          (nodeWords a ++ ((ns.map nodeWords).flatten ++ rest)) =
          (readNode (nodeWords a ++ ((ns.map nodeWords).flatten ++ rest))).bind
            (fun pq => (readNodes ns.length pq.2).bind
              (fun pq2 => some (pq.1 :: pq2.1, pq2.2))) := rfl
      rw [h1, h0, readNode_exact a _ (hpat a (by simp)).1 (hpat a (by simp)).2]
      simp only [Option.some_bind]
      rw [ih rest (fun n hn => hpat n (by simp [hn]))]
      rfl

theorem readStat_exact (s : RTreeNodeStat) (rest : List Word) :
    readStat (statWords s ++ rest) = some (s, rest) := rfl

theorem readStats_exact : ∀ (ss : List RTreeNodeStat) (rest : List Word),
    readStats ss.length ((ss.map statWords).flatten ++ rest) = some (ss, rest) := by
  intro ss
  induction ss with
  | nil => intro rest; rfl
  | cons a ss ih =>
      intro rest
      have h1 : (((a :: ss).map statWords).flatten ++ rest) =
          statWords a ++ ((ss.map statWords).flatten ++ rest) := by
        simp
      have h0 : readStats (a :: ss).length
          (statWords a ++ ((ss.map statWords).flatten ++ rest)) =
          (readStat (statWords a ++ ((ss.map statWords).flatten ++ rest))).bind
            (fun pq => (readStats ss.length pq.2).bind
              (fun pq2 => some (pq.1 :: pq2.1, pq2.2))) := rfl
      rw [h1, h0, readStat_exact a]
      simp only [Option.some_bind]
      rw [ih rest]
      rfl

/-! ### Claim C3 (amended): Save/Load round trip -/

/-- C3 (amended): for a tree satisfying Save's preconditions whose node
    bit-fields are genuine 32-bit values, whose stored deleted count agrees
    with the sentinel scan, and whose leaf-vector pool is empty when its
    width is zero, Save followed by Load reproduces the parameter block and
    every node, stat and leaf-vector entry exactly, and the recomputed free
    list has length equal to the stored deleted count. -/
theorem C3_save_load_roundtrip (tr : TreeS)
    (h1 : tr.param.num_nodes = (tr.nodes.length : ℤ))
    (h2 : tr.param.num_nodes = (tr.stats.length : ℤ))
    (h3 : tr.param.num_nodes ≠ 0)
    (hres : tr.param.reserved.length = 31)
    (hpat : ∀ n ∈ tr.nodes, n.parent_ < 2^32 ∧ n.sindex_ < 2^32)
    (hcnt : ((recomputedFreeList tr.param tr.nodes).length : ℤ) =
      tr.param.num_deleted)
    (hlv : tr.param.size_leaf_vector = 0 → tr.leaf_vector = []) :
    ∃ s tr', Save tr = some s ∧ Load s initTree = some tr' ∧
      tr'.param = tr.param ∧ tr'.nodes = tr.nodes ∧ tr'.stats = tr.stats ∧
      tr'.leaf_vector = tr.leaf_vector ∧
      tr'.deleted_nodes = recomputedFreeList tr.param tr.nodes ∧
      ((tr'.deleted_nodes.length : ℤ) = tr.param.num_deleted) := by
  have hnn0 : 0 ≤ tr.param.num_nodes := by
    rw [h1]; positivity
  have htoN : tr.param.num_nodes.toNat = tr.nodes.length := by omega
  have htoS : tr.param.num_nodes.toNat = tr.stats.length := by omega
  refine ⟨paramWords tr.param ++ (tr.nodes.map nodeWords).flatten ++
    (tr.stats.map statWords).flatten ++
    (if tr.param.size_leaf_vector ≠ 0 then
      Word.i (tr.leaf_vector.length : ℤ) :: tr.leaf_vector.map Word.r
    else []),
    ⟨tr.param, tr.nodes, recomputedFreeList tr.param tr.nodes, tr.stats,
      tr.leaf_vector, []⟩, ?_, ?_, rfl, rfl, rfl, rfl, rfl, hcnt⟩
  · unfold Save
    rw [if_pos ⟨h1, h2, h3⟩]
  · have hplist : paramWords tr.param =
        (tr.param.num_roots :: tr.param.num_nodes :: tr.param.num_deleted ::
          tr.param.max_depth :: tr.param.num_feature ::
          tr.param.size_leaf_vector :: tr.param.reserved).map Word.i := by
      unfold paramWords
      simp
    have hplen : (tr.param.num_roots :: tr.param.num_nodes ::
        tr.param.num_deleted :: tr.param.max_depth :: tr.param.num_feature ::
        tr.param.size_leaf_vector :: tr.param.reserved).length = 37 := by
      simp [hres]
    unfold Load
    simp only [List.append_assoc]
    rw [hplist, ← hplen, readInts_exact]
    simp only [Option.some_bind]
    rw [if_neg (by omega : ¬ tr.param.num_nodes < 0), if_neg h3]
    rw [htoN, readNodes_exact tr.nodes _ hpat]
    simp only [Option.some_bind]
    rw [show tr.nodes.length = tr.stats.length from htoN ▸ htoS]
    rw [readStats_exact tr.stats _]
    simp only [Option.some_bind]
    have hpeta : (⟨tr.param.num_roots, tr.param.num_nodes,
        tr.param.num_deleted, tr.param.max_depth, tr.param.num_feature,
        tr.param.size_leaf_vector, tr.param.reserved⟩ : TreeParamS) =
        tr.param := rfl
    by_cases hslv : tr.param.size_leaf_vector = 0
    · rw [if_neg (by simp [hslv] : ¬ tr.param.size_leaf_vector ≠ 0)]
      simp only [Option.some_bind]
      rw [hpeta, if_pos hcnt, hlv hslv]
      rfl
    · rw [if_pos hslv]
      rw [if_pos hslv]
      rw [show readInt (Word.i (tr.leaf_vector.length : ℤ) ::
        tr.leaf_vector.map Word.r) =
        some ((tr.leaf_vector.length : ℤ), tr.leaf_vector.map Word.r) from rfl]
      simp only [Option.some_bind]
      rw [show ((tr.leaf_vector.length : ℤ)).toNat = tr.leaf_vector.length from
        Int.toNat_natCast _]
      rw [show tr.leaf_vector.map Word.r =
        tr.leaf_vector.map Word.r ++ [] from (List.append_nil _).symm]
      rw [readRats_exact tr.leaf_vector []]
      simp only [Option.some_bind]
      rw [hpeta, if_pos hcnt]
      rfl

/-- Concrete valid one-node tree used in witnesses. -/
def trGood : TreeS :=
  ⟨⟨1, 1, 0, 0, 0, 0, List.replicate 31 0⟩, [default], [], [default], [], []⟩

/-- Witness for C3 on `trGood`. -/
theorem C3_save_load_roundtrip_witness :
    ∃ s tr', Save trGood = some s ∧ Load s initTree = some tr' ∧
      tr'.param = trGood.param ∧ tr'.nodes = trGood.nodes ∧
      tr'.stats = trGood.stats ∧ tr'.leaf_vector = trGood.leaf_vector ∧
      tr'.deleted_nodes = recomputedFreeList trGood.param trGood.nodes ∧
      ((tr'.deleted_nodes.length : ℤ) = trGood.param.num_deleted) :=
  C3_save_load_roundtrip trGood (by decide) (by decide) (by decide) (by decide)
    (by decide) (by decide) (by decide)

/-! ### Claim C8: Load's integrity checks -/

/-- C8: Load fatally rejects a stored `num_nodes` of 0; and any successful
    Load yields a tree whose free list is exactly the recomputed scan of
    non-root indices bearing the deletion sentinel, whose length equals the
    stored deleted count (and whose node count is nonzero). -/
theorem C8_load_integrity :
    (∀ (p : TreeParamS) (rest : List Word) (tr0 : TreeS),
      p.num_nodes = 0 → p.reserved.length = 31 →
      Load (paramWords p ++ rest) tr0 = none) ∧
    (∀ (ws : List Word) (tr0 tr' : TreeS), Load ws tr0 = some tr' →
      tr'.deleted_nodes = recomputedFreeList tr'.param tr'.nodes ∧
      ((tr'.deleted_nodes.length : ℤ) = tr'.param.num_deleted) ∧
      tr'.param.num_nodes ≠ 0) := by
  constructor
  · intro p rest tr0 hz hres
    have hplist : paramWords p =
        (p.num_roots :: p.num_nodes :: p.num_deleted :: p.max_depth ::
          p.num_feature :: p.size_leaf_vector :: p.reserved).map Word.i := by
      unfold paramWords
      simp
    have hplen : (p.num_roots :: p.num_nodes :: p.num_deleted :: p.max_depth ::
        p.num_feature :: p.size_leaf_vector :: p.reserved).length = 37 := by
      simp [hres]
    unfold Load
    rw [hplist, ← hplen, readInts_exact]
    simp only [Option.some_bind]
    rw [if_neg (by omega : ¬ p.num_nodes < 0), if_pos hz]
  · intro ws tr0 tr' h
    unfold Load at h
    rcases Option.bind_eq_some.mp h with ⟨pr, hpr, h⟩
    rcases hrs : pr.1 with _ | ⟨nr, _ | ⟨nn, _ | ⟨nd, _ | ⟨md, _ | ⟨nf, _ |
        ⟨slv, reserved⟩⟩⟩⟩⟩⟩ <;>
      rw [hrs] at h <;> dsimp only at h <;> try exact Option.noConfusion h
    by_cases h0 : nn < 0
    · rw [if_pos h0] at h; cases h
    · rw [if_neg h0] at h
      by_cases hz : nn = 0
      · rw [if_pos hz] at h; cases h
      · rw [if_neg hz] at h
        rcases Option.bind_eq_some.mp h with ⟨pn, hpn, h⟩
        rcases Option.bind_eq_some.mp h with ⟨ps, hps, h⟩
        rcases Option.bind_eq_some.mp h with ⟨lv, hlvv, h⟩
        by_cases hc : ((recomputedFreeList ⟨nr, nn, nd, md, nf, slv, reserved⟩
            pn.1).length : ℤ) = nd
        · rw [if_pos hc] at h
          cases h
          exact ⟨rfl, hc, hz⟩
        · rw [if_neg hc] at h
          cases h

/-- Witness for C8: the zero-node stream is rejected; loading the saved
    `trGood` succeeds with the recomputed (empty) free list. -/
theorem C8_load_integrity_witness :
    Load (paramWords ⟨1, 0, 0, 0, 0, 0, List.replicate 31 0⟩ ++ []) initTree
        = none ∧
    ∀ tr', Load ((Save trGood).getD []) initTree = some tr' →
      tr'.deleted_nodes = recomputedFreeList tr'.param tr'.nodes := by
  refine ⟨C8_load_integrity.1 ⟨1, 0, 0, 0, 0, 0, List.replicate 31 0⟩ [] initTree
    (by decide) (by decide), ?_⟩
  intro tr' h
  exact (C8_load_integrity.2 ((Save trGood).getD []) initTree tr' h).1

/-! ### Helper lemmas for the collapse proof -/

theorem getN_nonneg (tr : TreeS) (i : ℤ) (n : NodeS) (h : getN tr i = some n) :
    0 ≤ i ∧ i.toNat < tr.nodes.length := by
  unfold getN at h
  by_cases hc : 0 ≤ i ∧ i.toNat < tr.nodes.length
  · exact hc
  · rw [if_neg hc] at h; cases h

theorem getN_some (tr : TreeS) (i : ℤ) (n : NodeS) (h : getN tr i = some n) :
    tr.nodes.getD i.toNat default = n := by
  unfold getN at h
  by_cases hc : 0 ≤ i ∧ i.toNat < tr.nodes.length
  · rw [if_pos hc] at h; exact Option.some.inj h
  · rw [if_neg hc] at h; cases h

/-- Reading a slot other than the one just written. -/
theorem getN_set_ne (tr : TreeS) (k : ℤ) (m : NodeS) (j : ℤ) (hk : 0 ≤ k)
    (hj : 0 ≤ j) (hne : j ≠ k)
    (p : TreeParamS) (dn : List ℤ) (st : List RTreeNodeStat) (lv : List ℚ)
    (mv : List ℚ) :
    getN ⟨p, tr.nodes.set k.toNat m, dn, st, lv, mv⟩ j = getN tr j := by
  unfold getN
  simp only [List.length_set]
  by_cases hc : 0 ≤ j ∧ j.toNat < tr.nodes.length
  · rw [if_pos hc, if_pos hc,
      List.getD_eq_getElem?_getD, List.getD_eq_getElem?_getD,
      List.getElem?_set_ne (by omega : k.toNat ≠ j.toNat)]
  · rw [if_neg hc, if_neg hc]

/-- Reading the slot just written. -/
theorem getN_set_self (tr : TreeS) (k : ℤ) (m : NodeS) (hk : 0 ≤ k)
    (hlen : k.toNat < tr.nodes.length)
    (p : TreeParamS) (dn : List ℤ) (st : List RTreeNodeStat) (lv : List ℚ)
    (mv : List ℚ) :
    getN ⟨p, tr.nodes.set k.toNat m, dn, st, lv, mv⟩ k = some m := by
  unfold getN
  simp only [List.length_set]
  rw [if_pos ⟨hk, hlen⟩, List.getD_eq_getElem?_getD,
    List.getElem?_set_self hlen]
  rfl

/-- List-level node access; `getN tr i = getNL tr.nodes i`. -/
def getNL (ns : List NodeS) (i : ℤ) : Option NodeS :=
  if 0 ≤ i ∧ i.toNat < ns.length then some (ns.getD i.toNat default) else none

theorem getN_as_getNL (tr : TreeS) (i : ℤ) : getN tr i = getNL tr.nodes i := rfl

theorem getNL_set_ne (ns : List NodeS) (k : ℤ) (m : NodeS) (j : ℤ)
    (hk : 0 ≤ k) (hj : 0 ≤ j) (hne : j ≠ k) :
    getNL (ns.set k.toNat m) j = getNL ns j := by
  unfold getNL
  simp only [List.length_set]
  by_cases hc : 0 ≤ j ∧ j.toNat < ns.length
  · rw [if_pos hc, if_pos hc,
      List.getD_eq_getElem?_getD, List.getD_eq_getElem?_getD,
      List.getElem?_set_ne (by omega : k.toNat ≠ j.toNat)]
  · rw [if_neg hc, if_neg hc]

theorem getNL_set_self (ns : List NodeS) (k : ℤ) (m : NodeS)
    (hk : 0 ≤ k) (hlen : k.toNat < ns.length) :
    getNL (ns.set k.toNat m) k = some m := by
  unfold getNL
  simp only [List.length_set]
  rw [if_pos ⟨hk, hlen⟩, List.getD_eq_getElem?_getD,
    List.getElem?_set_self hlen]
  rfl

theorem set_leaf_is_leaf (n : NodeS) (v : ℚ) : (n.set_leaf v).is_leaf = true := by
  simp [NodeS.set_leaf, NodeS.is_leaf]

theorem set_leaf_leaf_value (n : NodeS) (v : ℚ) : (n.set_leaf v).leaf_value = v := rfl

theorem mark_delete_is_deleted (n : NodeS) : (n.mark_delete).is_deleted = true := by
  simp [NodeS.mark_delete, NodeS.is_deleted]

theorem DeleteNode_eq (tr : TreeS) (nid : ℤ) (n : NodeS)
    (hge : tr.param.num_roots ≤ nid) (hn : getN tr nid = some n) :
    DeleteNode tr nid = some { tr with
      deleted_nodes := tr.deleted_nodes ++ [nid],
      nodes := tr.nodes.set nid.toNat n.mark_delete,
      param := { tr.param with num_deleted := tr.param.num_deleted + 1 } } := by
  unfold DeleteNode
  rw [if_pos hge, hn]

theorem ChangeToLeaf_eq (tr : TreeS) (rid : ℤ) (v : ℚ) (r lc rc : NodeS)
    (hr : getN tr rid = some r) (hlc : getN tr r.cleft = some lc)
    (hrc : getN tr r.cright = some rc)
    (hl : lc.is_leaf = true) (hrr : rc.is_leaf = true)
    (tr1 tr2 : TreeS) (h1 : DeleteNode tr r.cleft = some tr1)
    (h2 : DeleteNode tr1 r.cright = some tr2)
    (r2 : NodeS) (hr2 : getN tr2 rid = some r2) :
    ChangeToLeaf tr rid v = some (setN tr2 rid (r2.set_leaf v)) := by
  unfold ChangeToLeaf
  rw [hr]
  simp only [Option.some_bind]
  rw [hlc]
  simp only [Option.some_bind]
  rw [hrc]
  simp only [Option.some_bind]
  rw [if_pos (by simp [hl, hrr])]
  rw [h1]
  simp only [Option.some_bind]
  rw [h2]
  simp only [Option.some_bind]
  rw [hr2]
  simp only [Option.some_bind]

theorem CollapseToLeaf_internal (fuel : ℕ) (tr : TreeS) (rid : ℤ) (v : ℚ)
    (r lc : NodeS) (hr : getN tr rid = some r) (hnl : r.is_leaf = false)
    (hlc : getN tr r.cleft = some lc)
    (tr1 : TreeS)
    (h1 : (if !lc.is_leaf then CollapseToLeaf fuel tr r.cleft 0 else some tr)
      = some tr1)
    (r1 : NodeS) (hr1 : getN tr1 rid = some r1)
    (rc : NodeS) (hrc : getN tr1 r1.cright = some rc)
    (tr2 : TreeS)
    (h2 : (if !rc.is_leaf then CollapseToLeaf fuel tr1 r1.cright 0 else some tr1)
      = some tr2) :
    CollapseToLeaf (fuel+1) tr rid v = ChangeToLeaf tr2 rid v := by
  unfold CollapseToLeaf
  rw [hr]
  simp only [Option.some_bind]
  rw [if_neg (by simp [hnl])]
  rw [hlc]
  simp only [Option.some_bind]
  rw [h1]
  simp only [Option.some_bind]
  rw [hr1]
  simp only [Option.some_bind]
  rw [hrc]
  simp only [Option.some_bind]
  rw [h2]
  simp only [Option.some_bind]

/-- Full effect of a successful `ChangeToLeaf`. -/
theorem ChangeToLeaf_spec (tr : TreeS) (rid : ℤ) (v : ℚ) (r lc rc : NodeS)
    (hr : getN tr rid = some r) (hlc : getN tr r.cleft = some lc)
    (hrc : getN tr r.cright = some rc)
    (hl : lc.is_leaf = true) (hrr : rc.is_leaf = true)
    (hbl : tr.param.num_roots ≤ r.cleft) (hbr : tr.param.num_roots ≤ r.cright)
    (hne1 : rid ≠ r.cleft) (hne2 : rid ≠ r.cright) (hne3 : r.cleft ≠ r.cright) :
    ∃ tr', ChangeToLeaf tr rid v = some tr' ∧
      tr'.deleted_nodes = tr.deleted_nodes ++ [r.cleft, r.cright] ∧
      tr'.param.num_deleted = tr.param.num_deleted + 2 ∧
      tr'.param.num_nodes = tr.param.num_nodes ∧
      tr'.param.num_roots = tr.param.num_roots ∧
      tr'.nodes.length = tr.nodes.length ∧
      getN tr' rid = some (r.set_leaf v) ∧
      getN tr' r.cleft = some lc.mark_delete ∧
      getN tr' r.cright = some rc.mark_delete ∧
      (∀ j : ℤ, 0 ≤ j → j ≠ rid → j ≠ r.cleft → j ≠ r.cright →
        getN tr' j = getN tr j) := by
  obtain ⟨h0rid, hLrid⟩ := getN_nonneg tr rid r hr
  obtain ⟨h0l, hLl⟩ := getN_nonneg tr r.cleft lc hlc
  obtain ⟨h0r2, hLr2⟩ := getN_nonneg tr r.cright rc hrc
  have hD1 := DeleteNode_eq tr r.cleft lc hbl hlc
  have g1 : ∀ j : ℤ, 0 ≤ j → j ≠ r.cleft →
      getN { tr with
        deleted_nodes := tr.deleted_nodes ++ [r.cleft],
        nodes := tr.nodes.set (r.cleft).toNat lc.mark_delete,
        param := { tr.param with num_deleted := tr.param.num_deleted + 1 } } j
        = getN tr j := by
    intro j hj hne
    show getNL (tr.nodes.set (r.cleft).toNat lc.mark_delete) j = getNL tr.nodes j
    exact getNL_set_ne tr.nodes r.cleft lc.mark_delete j h0l hj hne
  have hD2 := DeleteNode_eq
    { tr with
      deleted_nodes := tr.deleted_nodes ++ [r.cleft],
      nodes := tr.nodes.set (r.cleft).toNat lc.mark_delete,
      param := { tr.param with num_deleted := tr.param.num_deleted + 1 } }
    r.cright rc hbr ((g1 r.cright h0r2 (Ne.symm hne3)).trans hrc)
  have g2 : ∀ j : ℤ, 0 ≤ j → j ≠ r.cleft → j ≠ r.cright →
      getN { { tr with
          deleted_nodes := tr.deleted_nodes ++ [r.cleft],
          nodes := tr.nodes.set (r.cleft).toNat lc.mark_delete,
          param := { tr.param with num_deleted := tr.param.num_deleted + 1 } } with
        deleted_nodes := (tr.deleted_nodes ++ [r.cleft]) ++ [r.cright],
        nodes := (tr.nodes.set (r.cleft).toNat lc.mark_delete).set
          (r.cright).toNat rc.mark_delete,
        param := { { tr.param with num_deleted := tr.param.num_deleted + 1 } with
          num_deleted := tr.param.num_deleted + 1 + 1 } } j = getN tr j := by
    intro j hj hnel hner
    show getNL ((tr.nodes.set (r.cleft).toNat lc.mark_delete).set
      (r.cright).toNat rc.mark_delete) j = getNL tr.nodes j
    rw [getNL_set_ne _ r.cright rc.mark_delete j h0r2 hj hner,
      getNL_set_ne _ r.cleft lc.mark_delete j h0l hj hnel]
  have hfin := ChangeToLeaf_eq tr rid v r lc rc hr hlc hrc hl hrr _ _ hD1
    (by exact hD2) r ((g2 rid h0rid hne1 hne2).trans hr)
  refine ⟨_, hfin, ?_, ?_, rfl, rfl, ?_, ?_, ?_, ?_, ?_⟩
  · show (tr.deleted_nodes ++ [r.cleft]) ++ [r.cright] =
      tr.deleted_nodes ++ [r.cleft, r.cright]
    simp
  · show tr.param.num_deleted + 1 + 1 = tr.param.num_deleted + 2
    omega
  · show ((((tr.nodes.set (r.cleft).toNat lc.mark_delete).set
      (r.cright).toNat rc.mark_delete)).set rid.toNat (r.set_leaf v)).length
      = tr.nodes.length
    simp
  · show getNL (((tr.nodes.set (r.cleft).toNat lc.mark_delete).set
      (r.cright).toNat rc.mark_delete).set rid.toNat (r.set_leaf v)) rid = _
    exact getNL_set_self _ rid _ h0rid (by simpa using hLrid)
  · show getNL (((tr.nodes.set (r.cleft).toNat lc.mark_delete).set
      (r.cright).toNat rc.mark_delete).set rid.toNat (r.set_leaf v)) r.cleft = _
    rw [getNL_set_ne _ rid _ r.cleft h0rid h0l (Ne.symm hne1),
      getNL_set_ne _ r.cright _ r.cleft h0r2 h0l hne3]
    exact getNL_set_self _ r.cleft _ h0l hLl
  · show getNL (((tr.nodes.set (r.cleft).toNat lc.mark_delete).set
      (r.cright).toNat rc.mark_delete).set rid.toNat (r.set_leaf v)) r.cright = _
    rw [getNL_set_ne _ rid _ r.cright h0rid h0r2 (Ne.symm hne2)]
    exact getNL_set_self _ r.cright _ h0r2 (by simpa using hLr2)
  · intro j hj hjr hjl hjrr
    show getNL (((tr.nodes.set (r.cleft).toNat lc.mark_delete).set
      (r.cright).toNat rc.mark_delete).set rid.toNat (r.set_leaf v)) j
      = getNL tr.nodes j
    rw [getNL_set_ne _ rid _ j h0rid hj hjr,
      getNL_set_ne _ r.cright _ j h0r2 hj hjrr,
      getNL_set_ne _ r.cleft _ j h0l hj hjl]

/-- `CollapseToLeaf` on an internal node whose two children are already
    leaves reduces to `ChangeToLeaf`. -/
theorem CollapseToLeaf_depth1 (fuel : ℕ) (tr : TreeS) (rid : ℤ) (v : ℚ)
    (r lc rc : NodeS) (hr : getN tr rid = some r) (hnl : r.is_leaf = false)
    (hlc : getN tr r.cleft = some lc) (hl : lc.is_leaf = true)
    (hrc : getN tr r.cright = some rc) (hrr : rc.is_leaf = true) :
    CollapseToLeaf (fuel+1) tr rid v = ChangeToLeaf tr rid v :=
  CollapseToLeaf_internal fuel tr rid v r lc hr hnl hlc tr
    (by rw [hl]; rfl) r hr rc hrc tr (by rw [hrr]; rfl)

/-- C9 (amended): collapsing a depth-2 subtree (internal `rid` whose two
    children are internal, each with two leaf children) removes exactly SIX
    nodes — the two internal children and the four leaves — marking each with
    the deletion sentinel and appending exactly those six to the free list
    (in order: left pair, right pair, then the two internal children), and
    leaves `rid` itself a live leaf holding `value`. -/
theorem C9_collapse_depth2 (tr : TreeS) (rid a b c d e f : ℤ)
    (r na nb qc qd qe qf : NodeS) (v : ℚ) (fuel : ℕ)
    (hr : getN tr rid = some r) (hrleaf : r.is_leaf = false)
    (hra : r.cleft = a) (hrb : r.cright = b)
    (hna : getN tr a = some na) (hnaleaf : na.is_leaf = false)
    (hnac : na.cleft = c) (hnad : na.cright = d)
    (hnb : getN tr b = some nb) (hnbleaf : nb.is_leaf = false)
    (hnbe : nb.cleft = e) (hnbf : nb.cright = f)
    (hqc : getN tr c = some qc) (hqcleaf : qc.is_leaf = true)
    (hqd : getN tr d = some qd) (hqdleaf : qd.is_leaf = true)
    (hqe : getN tr e = some qe) (hqeleaf : qe.is_leaf = true)
    (hqf : getN tr f = some qf) (hqfleaf : qf.is_leaf = true)
    (hba : tr.param.num_roots ≤ a) (hbb : tr.param.num_roots ≤ b)
    (hbc : tr.param.num_roots ≤ c) (hbd : tr.param.num_roots ≤ d)
    (hbe : tr.param.num_roots ≤ e) (hbf : tr.param.num_roots ≤ f)
    (hdist : rid ≠ a ∧ rid ≠ b ∧ rid ≠ c ∧ rid ≠ d ∧ rid ≠ e ∧ rid ≠ f ∧
      a ≠ b ∧ a ≠ c ∧ a ≠ d ∧ a ≠ e ∧ a ≠ f ∧
      b ≠ c ∧ b ≠ d ∧ b ≠ e ∧ b ≠ f ∧
      c ≠ d ∧ c ≠ e ∧ c ≠ f ∧ d ≠ e ∧ d ≠ f ∧ e ≠ f) :
    ∃ tr', CollapseToLeaf (fuel+2) tr rid v = some tr' ∧
      tr'.deleted_nodes = tr.deleted_nodes ++ [c, d, e, f, a, b] ∧
      tr'.param.num_deleted = tr.param.num_deleted + 6 ∧
      tr'.param.num_nodes = tr.param.num_nodes ∧
      tr'.nodes.length = tr.nodes.length ∧
      getN tr' rid = some (r.set_leaf v) ∧
      (r.set_leaf v).is_leaf = true ∧ (r.set_leaf v).leaf_value = v ∧
      (∀ x ∈ ([c, d, e, f, a, b] : List ℤ), ∃ n2, getN tr' x = some n2 ∧
        n2.is_deleted = true) := by
  obtain ⟨dra, drb, drc, drd, dre, drf, dab, dac, dad, dae, daf,
    dbc, dbd, dbe, dbf, dcd, dce, dcf, dde, ddf, def2⟩ := hdist
  obtain ⟨h0rid, hLrid⟩ := getN_nonneg tr rid r hr
  obtain ⟨h0a, hLa⟩ := getN_nonneg tr a na hna
  obtain ⟨h0b, hLb⟩ := getN_nonneg tr b nb hnb
  obtain ⟨h0c, hLc⟩ := getN_nonneg tr c qc hqc
  obtain ⟨h0d, hLd⟩ := getN_nonneg tr d qd hqd
  obtain ⟨h0e, hLe⟩ := getN_nonneg tr e qe hqe
  obtain ⟨h0f, hLf⟩ := getN_nonneg tr f qf hqf
  -- left child collapse: ChangeToLeaf tr a 0
  have hqc' : getN tr na.cleft = some qc := by rw [hnac]; exact hqc
  have hqd' : getN tr na.cright = some qd := by rw [hnad]; exact hqd
  obtain ⟨TA, hTA, hTAdel, hTAnd, hTAnn, hTAnr, hTAlen, hTAa, hTAc, hTAd, gA⟩ :=
    ChangeToLeaf_spec tr a 0 na qc qd hna hqc' hqd' hqcleaf hqdleaf
      (by rw [hnac]; exact hbc) (by rw [hnad]; exact hbd)
      (by rw [hnac]; exact dac) (by rw [hnad]; exact dad)
      (by rw [hnac, hnad]; exact dcd)
  rw [hnac] at hTAc
  rw [hnad] at hTAd
  have gA' : ∀ j : ℤ, 0 ≤ j → j ≠ a → j ≠ c → j ≠ d → getN TA j = getN tr j := by
    intro j hj hja hjc hjd
    exact gA j hj hja (by rw [hnac]; exact hjc) (by rw [hnad]; exact hjd)
  have hLeft : CollapseToLeaf (fuel+1) tr a 0 = some TA := by
    rw [CollapseToLeaf_depth1 fuel tr a 0 na qc qd hna hnaleaf hqc' hqcleaf
      hqd' hqdleaf]
    exact hTA
  -- right child collapse: ChangeToLeaf TA b 0
  have hnbTA : getN TA b = some nb :=
    (gA' b h0b (Ne.symm dab) dbc dbd).trans hnb
  have hqeTA : getN TA nb.cleft = some qe := by
    rw [hnbe]
    exact (gA' e h0e (Ne.symm dae) (Ne.symm dce) (Ne.symm dde)).trans hqe
  have hqfTA : getN TA nb.cright = some qf := by
    rw [hnbf]
    exact (gA' f h0f (Ne.symm daf) (Ne.symm dcf) (Ne.symm ddf)).trans hqf
  obtain ⟨TB, hTB, hTBdel, hTBnd, hTBnn, hTBnr, hTBlen, hTBb, hTBe, hTBf, gB⟩ :=
    ChangeToLeaf_spec TA b 0 nb qe qf hnbTA hqeTA hqfTA hqeleaf hqfleaf
      (by rw [hnbe, hTAnr]; exact hbe) (by rw [hnbf, hTAnr]; exact hbf)
      (by rw [hnbe]; exact dbe) (by rw [hnbf]; exact dbf)
      (by rw [hnbe, hnbf]; exact def2)
  rw [hnbe] at hTBe
  rw [hnbf] at hTBf
  have gB' : ∀ j : ℤ, 0 ≤ j → j ≠ b → j ≠ e → j ≠ f → getN TB j = getN TA j := by
    intro j hj hjb hje hjf
    exact gB j hj hjb (by rw [hnbe]; exact hje) (by rw [hnbf]; exact hjf)
  have hRight : CollapseToLeaf (fuel+1) TA b 0 = some TB := by
    rw [CollapseToLeaf_depth1 fuel TA b 0 nb qe qf hnbTA hnbleaf hqeTA hqeleaf
      hqfTA hqfleaf]
    exact hTB
  -- the outer call reduces to ChangeToLeaf TB rid v
  have hrTA : getN TA rid = some r := (gA' rid h0rid dra drc drd).trans hr
  have hnbTA' : getN TA r.cright = some nb := by rw [hrb]; exact hnbTA
  have hO : CollapseToLeaf (fuel+1+1) tr rid v = ChangeToLeaf TB rid v := by
    refine CollapseToLeaf_internal (fuel+1) tr rid v r na hr hrleaf
      (by rw [hra]; exact hna) TA ?_ r hrTA nb hnbTA' TB ?_
    · rw [hnaleaf]
      show CollapseToLeaf (fuel+1) tr r.cleft 0 = some TA
      rw [hra]
      exact hLeft
    · rw [hnbleaf]
      show CollapseToLeaf (fuel+1) TA r.cright 0 = some TB
      rw [hrb]
      exact hRight
  -- the final ChangeToLeaf at rid
  have hrTB : getN TB rid = some r :=
    ((gB' rid h0rid drb dre drf).trans hrTA)
  have haTB : getN TB r.cleft = some (na.set_leaf 0) := by
    rw [hra]
    exact (gB' a h0a dab dae daf).trans hTAa
  have hbTB : getN TB r.cright = some (nb.set_leaf 0) := by
    rw [hrb]
    exact hTBb
  obtain ⟨TF, hTF, hTFdel, hTFnd, hTFnn, hTFnr, hTFlen, hTFrid, hTFa, hTFb, gF⟩ :=
    ChangeToLeaf_spec TB rid v r (na.set_leaf 0) (nb.set_leaf 0) hrTB haTB hbTB
      (set_leaf_is_leaf na 0) (set_leaf_is_leaf nb 0)
      (by rw [hra, hTBnr, hTAnr]; exact hba) (by rw [hrb, hTBnr, hTAnr]; exact hbb)
      (by rw [hra]; exact dra) (by rw [hrb]; exact drb)
      (by rw [hra, hrb]; exact dab)
  rw [hra] at hTFa
  rw [hrb] at hTFb
  have gF' : ∀ j : ℤ, 0 ≤ j → j ≠ rid → j ≠ a → j ≠ b → getN TF j = getN TB j := by
    intro j hj hjr hja hjb
    exact gF j hj hjr (by rw [hra]; exact hja) (by rw [hrb]; exact hjb)
  refine ⟨TF, ?_, ?_, ?_, ?_, ?_, hTFrid, set_leaf_is_leaf r v,
    set_leaf_leaf_value r v, ?_⟩
  · rw [show fuel + 2 = fuel + 1 + 1 from rfl, hO]
    exact hTF
  · rw [hTFdel, hra, hrb, hTBdel, hnbe, hnbf, hTAdel, hnac, hnad]
    simp
  · rw [hTFnd, hTBnd, hTAnd]
    omega
  · rw [hTFnn, hTBnn, hTAnn]
  · rw [hTFlen, hTBlen, hTAlen]
  · intro x hx
    simp only [List.mem_cons, List.not_mem_nil, or_false] at hx
    rcases hx with hx | hx | hx | hx | hx | hx <;> rw [hx]
    · exact ⟨qc.mark_delete, ((gF' c h0c (Ne.symm drc) (Ne.symm dac)
        (Ne.symm dbc)).trans ((gB' c h0c (Ne.symm dbc) dce dcf).trans hTAc)),
        mark_delete_is_deleted qc⟩
    · exact ⟨qd.mark_delete, ((gF' d h0d (Ne.symm drd) (Ne.symm dad)
        (Ne.symm dbd)).trans ((gB' d h0d (Ne.symm dbd) dde ddf).trans hTAd)),
        mark_delete_is_deleted qd⟩
    · exact ⟨qe.mark_delete, ((gF' e h0e (Ne.symm dre) (Ne.symm dae)
        (Ne.symm dbe)).trans hTBe), mark_delete_is_deleted qe⟩
    · exact ⟨qf.mark_delete, ((gF' f h0f (Ne.symm drf) (Ne.symm daf)
        (Ne.symm dbf)).trans hTBf), mark_delete_is_deleted qf⟩
    · exact ⟨(na.set_leaf 0).mark_delete, hTFa,
        mark_delete_is_deleted (na.set_leaf 0)⟩
    · exact ⟨(nb.set_leaf 0).mark_delete, hTFb,
        mark_delete_is_deleted (nb.set_leaf 0)⟩

/-- Witness for C9 (amended) on the concrete depth-2 tree `cTree`. -/
theorem C9_collapse_depth2_witness :
    ∃ tr', CollapseToLeaf 5 cTree 0 10 = some tr' ∧
      tr'.deleted_nodes = cTree.deleted_nodes ++ [3, 4, 5, 6, 1, 2] ∧
      tr'.param.num_deleted = cTree.param.num_deleted + 6 ∧
      tr'.param.num_nodes = cTree.param.num_nodes ∧
      tr'.nodes.length = cTree.nodes.length ∧
      getN tr' 0 = some ((⟨2^32 - 1, 1, 2, 0, 0⟩ : NodeS).set_leaf 10) ∧
      ((⟨2^32 - 1, 1, 2, 0, 0⟩ : NodeS).set_leaf 10).is_leaf = true ∧
      ((⟨2^32 - 1, 1, 2, 0, 0⟩ : NodeS).set_leaf 10).leaf_value = 10 ∧
      (∀ x ∈ ([3, 4, 5, 6, 1, 2] : List ℤ), ∃ n2, getN tr' x = some n2 ∧
        n2.is_deleted = true) :=
  C9_collapse_depth2 cTree 0 1 2 3 4 5 6
    ⟨2^32 - 1, 1, 2, 0, 0⟩ ⟨0 ||| 2^31, 3, 4, 1, 0⟩ ⟨0, 5, 6, 1, 0⟩
    ⟨1 ||| 2^31, -1, -1, 0, 1⟩ ⟨1, -1, -1, 0, 2⟩
    ⟨2 ||| 2^31, -1, -1, 0, 3⟩ ⟨2, -1, -1, 0, 4⟩ 10 3
    (by decide) (by decide) (by decide) (by decide)
    (by decide) (by decide) (by decide) (by decide)
    (by decide) (by decide) (by decide) (by decide)
    (by decide) (by decide) (by decide) (by decide)
    (by decide) (by decide) (by decide) (by decide)
    (by decide) (by decide) (by decide) (by decide)
    (by decide) (by decide)
    (by refine ⟨?_, ?_, ?_, ?_, ?_, ?_, ?_, ?_, ?_, ?_, ?_, ?_, ?_, ?_, ?_,
      ?_, ?_, ?_, ?_, ?_, ?_⟩ <;> decide)

/-! ### Combinatorics for the SHAP permutation weights

`fpc F i` is the coefficient of `X^i` in `∏ (z + o·X)` over the
zero/one-fraction pairs in `F`; `fBeta x y = x! y! / (x+y+1)!` is the Beta
integral `∫ t^x (1-t)^y dt`; `mea F a b = ∫ t^a (1-t)^b ∏ (z(1-t) + o t) dt`
expressed as a finite sum.  These are proof-side artifacts, not part of the
embedded program. -/

def fpc : List (ℚ × ℚ) → ℕ → ℚ
  | [], 0 => 1
  | [], _+1 => 0
  | zo :: G, 0 => zo.1 * fpc G 0
  | zo :: G, i+1 => zo.1 * fpc G (i+1) + zo.2 * fpc G i

def fBeta (x y : ℕ) : ℚ :=
  (x.factorial : ℚ) * (y.factorial : ℚ) / ((x + y + 1).factorial : ℚ)

/-- The pweight normalization `i! (n-1-i)! / n!` for a path of length `n`. -/
def betaQ (n i : ℕ) : ℚ :=
  (i.factorial : ℚ) * ((n - 1 - i).factorial : ℚ) / (n.factorial : ℚ)

def prodZ (F : List (ℚ × ℚ)) : ℚ := (F.map Prod.fst).prod

def prodO (F : List (ℚ × ℚ)) : ℚ := (F.map Prod.snd).prod

def mea (F : List (ℚ × ℚ)) (a b : ℕ) : ℚ :=
  Finset.sum (Finset.range (F.length + 1))
    (fun i => fpc F i * fBeta (a + i) (b + (F.length - i)))

theorem fpc_ge_length : ∀ (F : List (ℚ × ℚ)) (i : ℕ), F.length < i → fpc F i = 0 := by
  intro F
  induction F with
  | nil =>
      intro i hi
      match i, hi with
      | i+1, _ => rfl
  | cons zo G ih =>
      intro i hi
      match i, hi with
      | i+1, hi =>
          have hlen : G.length < i := by simp at hi; omega
          show zo.1 * fpc G (i+1) + zo.2 * fpc G i = 0
          rw [ih (i+1) (by omega), ih i hlen]
          ring

theorem fpc_append_single : ∀ (F : List (ℚ × ℚ)) (zo : ℚ × ℚ) (k : ℕ),
    fpc (F ++ [zo]) k =
      zo.1 * fpc F k + (if k = 0 then 0 else zo.2 * fpc F (k-1)) := by
  intro F
  induction F with
  | nil =>
      intro zo k
      match k with
      | 0 => show zo.1 * 1 = zo.1 * 1 + 0; ring
      | 1 =>
          show zo.1 * fpc [] 1 + zo.2 * fpc [] 0 = zo.1 * fpc [] 1 + _
          rw [if_neg (by omega : ¬ (1:ℕ) = 0)]
      | k+2 =>
          show zo.1 * fpc [] (k+2) + zo.2 * fpc [] (k+1) = zo.1 * fpc [] (k+2) + _
          rw [if_neg (by omega : ¬ k+2 = 0)]
          have e1 : k+2-1 = k+1 := by omega
          rw [e1]
  | cons zo2 G ih =>
      intro zo k
      match k with
      | 0 =>
          show zo2.1 * fpc (G ++ [zo]) 0 = zo.1 * (zo2.1 * fpc G 0) + 0
          rw [ih zo 0, if_pos rfl]
          ring
      | 1 =>
          show zo2.1 * fpc (G ++ [zo]) 1 + zo2.2 * fpc (G ++ [zo]) 0 =
            zo.1 * (zo2.1 * fpc G 1 + zo2.2 * fpc G 0) +
              (if (1:ℕ) = 0 then 0 else zo.2 * (zo2.1 * fpc G 0))
          rw [ih zo 1, ih zo 0, if_neg (by omega : ¬ (1:ℕ) = 0),
            if_neg (by omega : ¬ (1:ℕ) = 0), if_pos rfl]
          have e1 : (1:ℕ) - 1 = 0 := by omega
          rw [e1]
          ring
      | k+2 =>
          show zo2.1 * fpc (G ++ [zo]) (k+2) + zo2.2 * fpc (G ++ [zo]) (k+1) =
            zo.1 * (zo2.1 * fpc G (k+2) + zo2.2 * fpc G (k+1)) +
              (if k+2 = 0 then 0
                else zo.2 * (zo2.1 * fpc G (k+1) + zo2.2 * fpc G k))
          rw [ih zo (k+2), ih zo (k+1), if_neg (by omega : ¬ k+2 = 0),
            if_neg (by omega : ¬ k+2 = 0), if_neg (by omega : ¬ k+1 = 0)]
          have e1 : k+2-1 = k+1 := by omega
          have e2 : k+1-1 = k := by omega
          rw [e1, e2]
          ring

theorem mea_nil (a b : ℕ) : mea [] a b = fBeta a b := by
  unfold mea
  simp [fpc]

theorem mea_cons (zo : ℚ × ℚ) (H : List (ℚ × ℚ)) (a b : ℕ) :
    mea (zo :: H) a b = zo.1 * mea H a (b+1) + zo.2 * mea H (a+1) b := by
  unfold mea
  simp only [List.length_cons]
  rw [Finset.sum_range_succ']
  have hsplit : ∀ i ∈ Finset.range (H.length + 1),
      fpc (zo :: H) (i+1) * fBeta (a+(i+1)) (b+(H.length + 1 - (i+1))) =
      zo.1 * (fpc H (i+1) * fBeta (a+(i+1)) (b+(H.length - i))) +
      zo.2 * (fpc H i * fBeta ((a+1)+i) (b+(H.length - i))) := by
    intro i hi
    have h1 : H.length + 1 - (i+1) = H.length - i := by omega
    have h2 : a + (i+1) = (a+1) + i := by omega
    rw [h1]
    show (zo.1 * fpc H (i+1) + zo.2 * fpc H i) * fBeta (a+(i+1)) (b+(H.length - i)) = _
    rw [h2]
    ring
  rw [Finset.sum_congr rfl hsplit, Finset.sum_add_distrib, ← Finset.mul_sum,
    ← Finset.mul_sum]
  have htarget : Finset.sum (Finset.range (H.length + 1))
      (fun i => fpc H i * fBeta (a+i) ((b+1)+(H.length - i))) =
      Finset.sum (Finset.range (H.length + 1))
        (fun i => fpc H (i+1) * fBeta (a+(i+1)) (b+(H.length - i))) +
      fpc H 0 * fBeta (a+0) (b+(H.length + 1 - 0)) := by
    rw [Finset.sum_range_succ']
    have hcong : ∀ i ∈ Finset.range H.length,
        fpc H (i+1) * fBeta (a+(i+1)) ((b+1)+(H.length - (i+1))) =
        fpc H (i+1) * fBeta (a+(i+1)) (b+(H.length - i)) := by
      intro i hi
      have hi' : i < H.length := Finset.mem_range.mp hi
      have h3 : (b+1) + (H.length - (i+1)) = b + (H.length - i) := by omega
      rw [h3]
    rw [Finset.sum_congr rfl hcong, Finset.sum_range_succ]
    rw [fpc_ge_length H (H.length + 1) (by omega)]
    have h4 : (b+1) + (H.length - 0) = b + (H.length + 1 - 0) := by omega
    rw [h4]
    ring
  rw [htarget]
  show _ + fpc (zo :: H) 0 * fBeta (a+0) (b+(H.length + 1 - 0)) = _
  have h5 : fpc (zo :: H) 0 = zo.1 * fpc H 0 := rfl
  rw [h5]
  ring

/-- Closed form for the telescoping sum `∫ t^a (1-t)^b (∏ ℓ)' dt`. -/
def phiAux (G : List (ℚ × ℚ)) : ℕ → ℕ → ℚ
  | 0, 0 => prodO G - prodZ G
  | 0, b+1 => -prodZ G + ((b:ℚ)+1) * mea G 0 b
  | a+1, 0 => prodO G - ((a:ℚ)+1) * mea G a 0
  | a+1, b+1 => -((a:ℚ)+1) * mea G a (b+1) + ((b:ℚ)+1) * mea G (a+1) b

theorem phiAux_nil (a b : ℕ) : phiAux [] a b = 0 := by
  have hO : prodO [] = 1 := rfl
  have hZ : prodZ [] = 1 := rfl
  match a, b with
  | 0, 0 =>
      simp only [phiAux]
      rw [hO, hZ]; ring
  | 0, t+1 =>
      simp only [phiAux]
      rw [hZ, mea_nil]
      unfold fBeta
      have h2 : (0:ℕ) + t + 1 = t + 1 := by omega
      rw [h2, Nat.factorial_succ, Nat.factorial_zero]
      have h3 : ((t.factorial : ℚ)) ≠ 0 := by
        exact_mod_cast Nat.factorial_ne_zero t
      have h4 : ((t:ℚ)+1) ≠ 0 := by positivity
      push_cast
      field_simp
  | s+1, 0 =>
      simp only [phiAux]
      rw [hO, mea_nil]
      unfold fBeta
      have h2 : s + (0:ℕ) + 1 = s + 1 := by omega
      rw [h2, Nat.factorial_succ, Nat.factorial_zero]
      have h3 : ((s.factorial : ℚ)) ≠ 0 := by
        exact_mod_cast Nat.factorial_ne_zero s
      have h4 : ((s:ℚ)+1) ≠ 0 := by positivity
      push_cast
      field_simp
  | s+1, t+1 =>
      simp only [phiAux]
      rw [mea_nil, mea_nil]
      unfold fBeta
      have h3 : s + (t+1) + 1 = s + t + 2 := by omega
      have h4 : (s+1) + t + 1 = s + t + 2 := by omega
      rw [h3, h4, Nat.factorial_succ s, Nat.factorial_succ t]
      push_cast
      ring

theorem phiAux_rec (zo : ℚ × ℚ) (H : List (ℚ × ℚ)) (a b : ℕ) :
    phiAux (zo :: H) a b =
      (zo.2 - zo.1) * mea H a b + zo.1 * phiAux H a (b+1) + zo.2 * phiAux H (a+1) b := by
  have hO : prodO (zo :: H) = zo.2 * prodO H := by
    unfold prodO; simp
  have hZ : prodZ (zo :: H) = zo.1 * prodZ H := by
    unfold prodZ; simp
  match a, b with
  | 0, 0 =>
      simp only [phiAux]
      rw [hO, hZ]
      push_cast
      ring
  | 0, t+1 =>
      simp only [phiAux]
      rw [hZ, mea_cons]
      push_cast
      ring
  | s+1, 0 =>
      simp only [phiAux]
      rw [hO, mea_cons]
      push_cast
      ring
  | s+1, t+1 =>
      simp only [phiAux]
      rw [mea_cons, mea_cons]
      push_cast
      ring

theorem sum_erase_mea : ∀ (G : List (ℚ × ℚ)) (a b : ℕ),
    Finset.sum (Finset.range G.length)
      (fun k => ((G.getD k (0,0)).2 - (G.getD k (0,0)).1) * mea (G.eraseIdx k) a b)
    = phiAux G a b := by
  intro G
  induction G with
  | nil =>
      intro a b
      rw [phiAux_nil]
      simp
  | cons zo H ih =>
      intro a b
      simp only [List.length_cons]
      rw [Finset.sum_range_succ']
      have hcong : ∀ k ∈ Finset.range H.length,
          (((zo :: H).getD (k+1) (0,0)).2 - ((zo :: H).getD (k+1) (0,0)).1) *
            mea ((zo :: H).eraseIdx (k+1)) a b =
          zo.1 * (((H.getD k (0,0)).2 - (H.getD k (0,0)).1) * mea (H.eraseIdx k) a (b+1)) +
          zo.2 * (((H.getD k (0,0)).2 - (H.getD k (0,0)).1) * mea (H.eraseIdx k) (a+1) b) := by
        intro k hk
        have h1 : (zo :: H).getD (k+1) (0,0) = H.getD k (0,0) := rfl
        have h2 : (zo :: H).eraseIdx (k+1) = zo :: H.eraseIdx k := rfl
        rw [h1, h2, mea_cons]
        ring
      rw [Finset.sum_congr rfl hcong, Finset.sum_add_distrib, ← Finset.mul_sum,
        ← Finset.mul_sum, ih a (b+1), ih (a+1) b]
      have h3 : (zo :: H).getD 0 (0,0) = zo := rfl
      have h4 : (zo :: H).eraseIdx 0 = H := rfl
      rw [h3, h4, phiAux_rec]
      ring

theorem sum_erase_mea_zero (G : List (ℚ × ℚ)) :
    Finset.sum (Finset.range G.length)
      (fun k => ((G.getD k (0,0)).2 - (G.getD k (0,0)).1) * mea (G.eraseIdx k) 0 0)
    = prodO G - prodZ G := by
  rw [sum_erase_mea]
  rfl

theorem fpc_perm {l1 l2 : List (ℚ × ℚ)} (h : l1.Perm l2) :
    ∀ k, fpc l1 k = fpc l2 k := by
  induction h with
  | nil => intro k; rfl
  | cons x h ih =>
      intro k
      match k with
      | 0 => show x.1 * fpc _ 0 = x.1 * fpc _ 0; rw [ih 0]
      | k+1 =>
          show x.1 * fpc _ (k+1) + x.2 * fpc _ k = x.1 * fpc _ (k+1) + x.2 * fpc _ k
          rw [ih (k+1), ih k]
  | swap x y l =>
      intro k
      match k with
      | 0 => show y.1 * (x.1 * fpc l 0) = x.1 * (y.1 * fpc l 0); ring
      | 1 =>
          show y.1 * (x.1 * fpc l 1 + x.2 * fpc l 0) + y.2 * (x.1 * fpc l 0) =
            x.1 * (y.1 * fpc l 1 + y.2 * fpc l 0) + x.2 * (y.1 * fpc l 0)
          ring
      | k+2 =>
          show y.1 * (x.1 * fpc l (k+2) + x.2 * fpc l (k+1)) +
              y.2 * (x.1 * fpc l (k+1) + x.2 * fpc l k) =
            x.1 * (y.1 * fpc l (k+2) + y.2 * fpc l (k+1)) +
              x.2 * (y.1 * fpc l (k+1) + y.2 * fpc l k)
          ring
  | trans h1 h2 ih1 ih2 => intro k; rw [ih1 k, ih2 k]

theorem perm_getD_eraseIdx :
    ∀ (l : List (ℚ × ℚ)) (j : ℕ), j < l.length →
      l.Perm (l.getD j (0,0) :: l.eraseIdx j) := by
  intro l
  induction l with
  | nil => intro j hj; simp at hj
  | cons x t ih =>
      intro j hj
      match j with
      | 0 => exact List.Perm.refl _
      | j+1 =>
          have hj' : j < t.length := by simp at hj; omega
          have h1 : (x :: t).getD (j+1) (0,0) = t.getD j (0,0) := rfl
          have h2 : (x :: t).eraseIdx (j+1) = x :: t.eraseIdx j := rfl
          rw [h1, h2]
          exact ((ih j hj').cons x).trans (List.Perm.swap _ _ _)

theorem eraseIdx_getD (l : List (ℚ × ℚ)) (i j : ℕ) (hi : i < l.length) :
    (l.eraseIdx i).getD j (0,0) =
      if j < i then l.getD j (0,0) else l.getD (j+1) (0,0) := by
  induction l generalizing i j with
  | nil => simp at hi
  | cons x t ih =>
      match i with
      | 0 =>
          rw [if_neg (by omega : ¬ j < 0)]
          rfl
      | i+1 =>
          have hi' : i < t.length := by simp at hi; omega
          match j with
          | 0 => rw [if_pos (by omega : 0 < i+1)]; rfl
          | j+1 =>
              have h2 : (x :: t).eraseIdx (i+1) = x :: t.eraseIdx i := rfl
              rw [h2]
              have h3 : (x :: t.eraseIdx i).getD (j+1) (0,0) =
                (t.eraseIdx i).getD j (0,0) := rfl
              rw [h3, ih i j hi']
              by_cases hji : j < i
              · rw [if_pos hji, if_pos (by omega : j+1 < i+1)]
                rfl
              · rw [if_neg hji, if_neg (by omega : ¬ j+1 < i+1)]
                rfl

theorem betaQ_eq_fBeta (n i : ℕ) (h : i < n) : betaQ n i = fBeta i (n-1-i) := by
  unfold betaQ fBeta
  have e : i + (n-1-i) + 1 = n := by omega
  rw [e]

theorem betaQ_one_zero : betaQ 1 0 = 1 := by
  unfold betaQ
  norm_num [Nat.factorial]

theorem beta_A (n k : ℕ) (h : k < n) :
    betaQ n k * ((n - k : ℕ) : ℚ) / ((n:ℚ)+1) = betaQ (n+1) k := by
  unfold betaQ
  have hm : n - k = (n - 1 - k) + 1 := by omega
  have hd : n + 1 - 1 - k = (n - 1 - k) + 1 := by omega
  rw [hm, hd, Nat.factorial_succ (n-1-k), Nat.factorial_succ n]
  have h1 : ((n.factorial : ℚ)) ≠ 0 := by exact_mod_cast Nat.factorial_ne_zero n
  have h2 : ((n:ℚ)+1) ≠ 0 := by positivity
  push_cast
  field_simp
  ring

theorem beta_C (n k : ℕ) (h1 : 1 ≤ k) (h2 : k ≤ n) :
    betaQ n (k-1) * (k:ℚ) / ((n:ℚ)+1) = betaQ (n+1) k := by
  unfold betaQ
  have e1 : n - 1 - (k-1) = n - k := by omega
  have e2 : n + 1 - 1 - k = n - k := by omega
  rw [e1, e2, Nat.factorial_succ n]
  obtain ⟨k', rfl⟩ : ∃ k', k = k' + 1 := ⟨k-1, by omega⟩
  have e3 : k' + 1 - 1 = k' := by omega
  rw [e3, Nat.factorial_succ k']
  have h3 : ((n.factorial : ℚ)) ≠ 0 := by exact_mod_cast Nat.factorial_ne_zero n
  have h4 : ((n:ℚ)+1) ≠ 0 := by positivity
  push_cast
  field_simp
  ring

/-- Closed form of the path permutation weights: slot `i` of a path of
    length `n` built from fraction pairs `F` (slot 0 is the dummy root
    element, excluded from `F`) holds coefficient `i` of `∏ (z + o·X)`
    times `i! (n-1-i)! / n!`. -/
def PwClosed (p : ℕ → PathElement) (n : ℕ) (F : List (ℚ × ℚ)) : Prop :=
  ∀ i, i < n → (p i).pweight = fpc F i * betaQ n i

theorem extS_closed (zf of : ℚ) (F : List (ℚ × ℚ)) (n : ℕ) (hn : n = F.length + 1)
    (w : ℕ → ℚ)
    (hw : ∀ j, j ≤ n → w j = if j = n then 0 else fpc F j * betaQ n j) :
    ∀ k, k ≤ n →
      extS zf of n w 0 k = fpc (F ++ [(zf, of)]) k * betaQ (n+1) k := by
  intro k hk
  rw [extS_zero zf of n w k hk, fpc_append_single F (zf, of) k]
  by_cases hk0 : k = 0
  · subst hk0
    rw [hw 0 (by omega), if_neg (by omega : ¬ (0:ℕ) = n), if_pos rfl]
    have hA := beta_A n 0 (by omega)
    push_cast
    linear_combination (zf * fpc F 0) * hA
  · by_cases hkn : k = n
    · subst hkn
      rw [hw k le_rfl, if_pos rfl, hw (k-1) (by omega),
        if_neg (by omega : ¬ k-1 = k), if_neg hk0]
      have hC := beta_C k k (by omega) le_rfl
      have hzero : fpc F k = 0 := fpc_ge_length F k (by omega)
      rw [hzero]
      have e : k - k = 0 := by omega
      rw [e]
      push_cast
      linear_combination (of * fpc F (k-1)) * hC
    · rw [hw k (by omega), if_neg hkn, hw (k-1) (by omega),
        if_neg (by omega : ¬ k-1 = n), if_neg hk0]
      have hA := beta_A n k (by omega)
      have hC := beta_C n k (by omega) (by omega)
      linear_combination (zf * fpc F k) * hA + (of * fpc F (k-1)) * hC

/-- Extending an empty path writes the dummy element with weight 1. -/
theorem ExtendPath_closed_base (p : ℕ → PathElement) (zf of : ℚ) (f : ℤ) :
    PwClosed (ExtendPath p 0 zf of f) 1 [] := by
  intro i hi
  have h0 : i = 0 := by omega
  subst h0
  show ((upd p 0 ⟨f, zf, of, if (0:ℕ) = 0 then 1 else 0⟩) 0).pweight =
    fpc [] 0 * betaQ 1 0
  rw [upd_same]
  show (if (0:ℕ) = 0 then (1:ℚ) else 0) = fpc [] 0 * betaQ 1 0
  rw [if_pos rfl, betaQ_one_zero]
  norm_num [fpc]

/-- `ExtendPath` preserves the closed form, appending the new fraction
    pair to the polynomial factor list. -/
theorem ExtendPath_closed (p : ℕ → PathElement) (F : List (ℚ × ℚ)) (zf of : ℚ)
    (f : ℤ) (hP : PwClosed p (F.length + 1) F) :
    PwClosed (ExtendPath p (F.length + 1) zf of f) (F.length + 2) (F ++ [(zf, of)]) := by
  intro i hi
  rw [ExtendPath_pw p (F.length+1) (by omega) zf of f i]
  have hcl := extS_closed zf of F (F.length + 1) rfl
    (fun j => if j = F.length + 1 then 0 else (p j).pweight)
    (fun j hj => by
      show (if j = F.length + 1 then (0:ℚ) else (p j).pweight) =
        if j = F.length + 1 then 0 else fpc F j * betaQ (F.length + 1) j
      by_cases hje : j = F.length + 1
      · rw [if_pos hje, if_pos hje]
      · rw [if_neg hje, if_neg hje]
        exact hP j (by omega)) i (by omega)
  rw [hcl]

/-- The `UnwindPath` weight loop restores the closed form with the
    unwound element's fraction pair deleted from the factor list. -/
theorem unwind_restore (p : ℕ → PathElement) (Q : List (ℚ × ℚ)) (k : ℕ)
    (hk1 : 1 ≤ k) (hk2 : k ≤ Q.length)
    (hP : PwClosed p (Q.length + 1) Q)
    (hfrac : ((p k).zero_fraction, (p k).one_fraction) = Q.getD (k-1) (0,0))
    (hnz : (Q.getD (k-1) (0,0)).1 ≠ 0) :
    ∀ pos, pos < Q.length →
      ((unwLoop (p k).zero_fraction (p k).one_fraction Q.length Q.length
        (p, (p Q.length).pweight)).1 pos).pweight
      = fpc (Q.eraseIdx (k-1)) pos * betaQ Q.length pos := by
  intro pos hpos
  have hz : (p k).zero_fraction = (Q.getD (k-1) (0,0)).1 := by rw [← hfrac]
  have ho : (p k).one_fraction = (Q.getD (k-1) (0,0)).2 := by rw [← hfrac]
  have hkQ : k - 1 < Q.length := by omega
  have hlen : (Q.eraseIdx (k-1)).length = Q.length - 1 := by
    rw [List.length_eraseIdx]
    simp [hkQ]
  have hperm : Q.Perm ((Q.eraseIdx (k-1)) ++ [Q.getD (k-1) (0,0)]) := by
    refine (perm_getD_eraseIdx Q (k-1) hkQ).trans ?_
    exact (@List.perm_append_comm _ [Q.getD (k-1) (0,0)] (Q.eraseIdx (k-1)))
  have hfpcQ : ∀ i, fpc Q i = fpc ((Q.eraseIdx (k-1)) ++ [Q.getD (k-1) (0,0)]) i :=
    fpc_perm hperm
  have hcl := extS_closed (Q.getD (k-1) (0,0)).1 (Q.getD (k-1) (0,0)).2
    (Q.eraseIdx (k-1)) Q.length (by omega)
    (fun j => if j = Q.length then 0
      else fpc (Q.eraseIdx (k-1)) j * betaQ Q.length j)
    (fun j _ => rfl)
  have hinput : ∀ i, i < Q.length →
      (p i).pweight = extS (Q.getD (k-1) (0,0)).1 (Q.getD (k-1) (0,0)).2 Q.length
        (fun j => if j = Q.length then 0
          else fpc (Q.eraseIdx (k-1)) j * betaQ Q.length j) 0 i := by
    intro i hi
    rw [hP i (by omega), hfpcQ i, ← hcl i (by omega)]
  rw [hz, ho]
  by_cases ho2 : (Q.getD (k-1) (0,0)).2 ≠ 0
  · have hpu : (p Q.length).pweight =
        (Q.getD (k-1) (0,0)).2 *
          (if Q.length - 1 = Q.length then (0:ℚ)
            else fpc (Q.eraseIdx (k-1)) (Q.length - 1) * betaQ Q.length (Q.length - 1)) *
          ((Q.length:ℚ)) / ((Q.length:ℚ)+1) := by
      rw [hP Q.length (by omega), hfpcQ Q.length, ← hcl Q.length le_rfl,
        extS_zero _ _ Q.length _ Q.length le_rfl]
      have e : Q.length - Q.length = 0 := by omega
      rw [e]
      push_cast
      ring
    rw [hpu]
    have hres := unwLoop_inv_one (Q.getD (k-1) (0,0)).1 (Q.getD (k-1) (0,0)).2 ho2
      Q.length
      (fun j => if j = Q.length then 0
        else fpc (Q.eraseIdx (k-1)) j * betaQ Q.length j)
      Q.length le_rfl p hinput pos hpos
    rw [hres]
    show (if pos = Q.length then (0:ℚ) else _) = _
    rw [if_neg (by omega : ¬ pos = Q.length)]
  · have ho3 : (Q.getD (k-1) (0,0)).2 = 0 := by
      by_contra hc
      exact ho2 hc
    have hres := unwLoop_inv_zero (Q.getD (k-1) (0,0)).1 (Q.getD (k-1) (0,0)).2 ho3
      hnz Q.length
      (fun j => if j = Q.length then 0
        else fpc (Q.eraseIdx (k-1)) j * betaQ Q.length j)
      Q.length le_rfl p ((p Q.length).pweight) hinput pos hpos
    rw [hres]
    show (if pos = Q.length then (0:ℚ) else _) = _
    rw [if_neg (by omega : ¬ pos = Q.length)]

/-- `UnwindPath` restores the closed form (`eraseIdx` on the factor list). -/
theorem UnwindPath_closed (p : ℕ → PathElement) (Q : List (ℚ × ℚ)) (k : ℕ)
    (hk1 : 1 ≤ k) (hk2 : k ≤ Q.length)
    (hP : PwClosed p (Q.length + 1) Q)
    (hfrac : ((p k).zero_fraction, (p k).one_fraction) = Q.getD (k-1) (0,0))
    (hnz : (Q.getD (k-1) (0,0)).1 ≠ 0) :
    PwClosed (UnwindPath p Q.length k) Q.length (Q.eraseIdx (k-1)) := by
  intro pos hpos
  unfold UnwindPath
  rw [shiftLoop_spec]
  have hres := unwind_restore p Q k hk1 hk2 hP hfrac hnz pos hpos
  by_cases h : k ≤ pos ∧ pos < k + (Q.length - k)
  · rw [if_pos h]
    exact hres
  · rw [if_neg h]
    exact hres

/-- Fields of `UnwindPath`: slots at or above the removed index take the
    next slot's feature/fraction data; slots below keep their own. -/
theorem UnwindPath_fields (p : ℕ → PathElement) (u k : ℕ) (hk : k ≤ u) (j : ℕ) :
    ((UnwindPath p u k) j).feature_index =
      (if k ≤ j ∧ j < u then (p (j+1)).feature_index else (p j).feature_index) ∧
    ((UnwindPath p u k) j).zero_fraction =
      (if k ≤ j ∧ j < u then (p (j+1)).zero_fraction else (p j).zero_fraction) ∧
    ((UnwindPath p u k) j).one_fraction =
      (if k ≤ j ∧ j < u then (p (j+1)).one_fraction else (p j).one_fraction) := by
  unfold UnwindPath
  rw [shiftLoop_spec]
  have hufl := unwLoop_fields (p k).zero_fraction (p k).one_fraction u u
    (p, (p u).pweight)
  by_cases h : k ≤ j ∧ j < k + (u - k)
  · rw [if_pos h]
    have h2 : k ≤ j ∧ j < u := ⟨h.1, by omega⟩
    rw [if_pos h2, if_pos h2, if_pos h2]
    exact ⟨(hufl (j+1)).1, (hufl (j+1)).2.1, (hufl (j+1)).2.2⟩
  · have h2 : ¬ (k ≤ j ∧ j < u) := by
      intro hc
      exact h ⟨hc.1, by omega⟩
    rw [if_neg h, if_neg h2, if_neg h2, if_neg h2]
    exact ⟨(hufl j).1, (hufl j).2.1, (hufl j).2.2⟩

/-- The `UnwindPath` weight loop's restored weights depend only on the
    weights below the loop counter. -/
theorem unwLoop_congr (zf of : ℚ) (d : ℕ) :
    ∀ (m : ℕ) (p q : ℕ → PathElement) (next : ℚ),
      (∀ i, i < m → (p i).pweight = (q i).pweight) →
      ∀ j, j < m →
        ((unwLoop zf of d m (p, next)).1 j).pweight =
        ((unwLoop zf of d m (q, next)).1 j).pweight := by
  intro m
  induction m with
  | zero => intro p q next _ j hj; omega
  | succ m ih =>
      intro p q next hpq j hj
      by_cases hof : of ≠ 0
      · have hp : unwStep zf of d (p, next) m =
            (updPw p m (next * ((d:ℚ)+1) / ((((m:ℚ)+1)) * of)),
             (p m).pweight -
               next * ((d:ℚ)+1) / ((((m:ℚ)+1)) * of) * zf * ((d - m : ℕ) : ℚ) / ((d:ℚ)+1)) := by
          unfold unwStep
          rw [if_pos hof]
        have hq : unwStep zf of d (q, next) m =
            (updPw q m (next * ((d:ℚ)+1) / ((((m:ℚ)+1)) * of)),
             (q m).pweight -
               next * ((d:ℚ)+1) / ((((m:ℚ)+1)) * of) * zf * ((d - m : ℕ) : ℚ) / ((d:ℚ)+1)) := by
          unfold unwStep
          rw [if_pos hof]
        rw [show unwLoop zf of d (m+1) (p, next) =
          unwLoop zf of d m (unwStep zf of d (p, next) m) from rfl,
          show unwLoop zf of d (m+1) (q, next) =
          unwLoop zf of d m (unwStep zf of d (q, next) m) from rfl, hp, hq,
          hpq m (by omega)]
        by_cases hjm : j < m
        · exact ih _ _ _ (fun i hi => by
            rw [updPw_pw, updPw_pw]
            by_cases he : i = m
            · rw [if_pos he, if_pos he]
            · rw [if_neg he, if_neg he]
              exact hpq i (by omega)) j hjm
        · have hjm2 : j = m := by omega
          subst hjm2
          rw [unwLoop_untouched zf of d j _ j le_rfl,
            unwLoop_untouched zf of d j _ j le_rfl, updPw_pw, updPw_pw,
            if_pos rfl, if_pos rfl]
      · have hp : unwStep zf of d (p, next) m =
            (updPw p m ((p m).pweight * ((d:ℚ)+1) / (zf * ((d - m : ℕ) : ℚ))),
             next) := by
          unfold unwStep
          rw [if_neg hof]
        have hq : unwStep zf of d (q, next) m =
            (updPw q m ((q m).pweight * ((d:ℚ)+1) / (zf * ((d - m : ℕ) : ℚ))),
             next) := by
          unfold unwStep
          rw [if_neg hof]
        rw [show unwLoop zf of d (m+1) (p, next) =
          unwLoop zf of d m (unwStep zf of d (p, next) m) from rfl,
          show unwLoop zf of d (m+1) (q, next) =
          unwLoop zf of d m (unwStep zf of d (q, next) m) from rfl, hp, hq,
          hpq m (by omega)]
        by_cases hjm : j < m
        · exact ih _ _ _ (fun i hi => by
            rw [updPw_pw, updPw_pw]
            by_cases he : i = m
            · rw [if_pos he, if_pos he]
            · rw [if_neg he, if_neg he]
              exact hpq i (by omega)) j hjm
        · have hjm2 : j = m := by omega
          subst hjm2
          rw [unwLoop_untouched zf of d j _ j le_rfl,
            unwLoop_untouched zf of d j _ j le_rfl, updPw_pw, updPw_pw,
            if_pos rfl, if_pos rfl]

/-- The `UnwoundPathSum` loop total is the sum of the weights that the
    `UnwindPath` weight loop would have restored. -/
theorem upsLoop_eq (zf of : ℚ) (d : ℕ) :
    ∀ (m : ℕ), m ≤ d → ∀ (p : ℕ → PathElement) (next total : ℚ),
      (upsLoop zf of d p m (next, total)).2 =
        total + Finset.sum (Finset.range m)
          (fun i => ((unwLoop zf of d m (p, next)).1 i).pweight) := by
  intro m
  induction m with
  | zero => intro _ p next total; simp [upsLoop, unwLoop]
  | succ m ih =>
      intro hle p next total
      rw [show upsLoop zf of d p (m+1) (next, total) =
        upsLoop zf of d p m (upsStep zf of d p (next, total) m) from rfl,
        show unwLoop zf of d (m+1) (p, next) =
        unwLoop zf of d m (unwStep zf of d (p, next) m) from rfl,
        Finset.sum_range_succ]
      by_cases hof : of ≠ 0
      · have hups : upsStep zf of d p (next, total) m =
            ((p m).pweight -
               next * ((d:ℚ)+1) / ((((m:ℚ)+1)) * of) * zf * (((d - m : ℕ) : ℚ) / ((d:ℚ)+1)),
             total + next * ((d:ℚ)+1) / ((((m:ℚ)+1)) * of)) := by
          unfold upsStep
          rw [if_pos hof]
        have hunw : unwStep zf of d (p, next) m =
            (updPw p m (next * ((d:ℚ)+1) / ((((m:ℚ)+1)) * of)),
             (p m).pweight -
               next * ((d:ℚ)+1) / ((((m:ℚ)+1)) * of) * zf * ((d - m : ℕ) : ℚ) / ((d:ℚ)+1)) := by
          unfold unwStep
          rw [if_pos hof]
        rw [hups, hunw, ih (by omega)]
        have hnext : (p m).pweight -
            next * ((d:ℚ)+1) / ((((m:ℚ)+1)) * of) * zf * (((d - m : ℕ) : ℚ) / ((d:ℚ)+1)) =
            (p m).pweight -
            next * ((d:ℚ)+1) / ((((m:ℚ)+1)) * of) * zf * ((d - m : ℕ) : ℚ) / ((d:ℚ)+1) := by
          ring
        rw [hnext]
        have hsum : Finset.sum (Finset.range m)
            (fun i => ((unwLoop zf of d m (p,
              (p m).pweight -
                next * ((d:ℚ)+1) / ((((m:ℚ)+1)) * of) * zf * ((d - m : ℕ) : ℚ) / ((d:ℚ)+1))).1 i).pweight) =
            Finset.sum (Finset.range m)
            (fun i => ((unwLoop zf of d m (updPw p m (next * ((d:ℚ)+1) / ((((m:ℚ)+1)) * of)),
              (p m).pweight -
                next * ((d:ℚ)+1) / ((((m:ℚ)+1)) * of) * zf * ((d - m : ℕ) : ℚ) / ((d:ℚ)+1))).1 i).pweight) := by
          apply Finset.sum_congr rfl
          intro i hi
          have hi' : i < m := Finset.mem_range.mp hi
          exact unwLoop_congr zf of d m p _ _ (fun i2 hi2 => by
            rw [updPw_pw, if_neg (by omega : ¬ i2 = m)]) i hi'
        rw [hsum]
        have hlast : ((unwLoop zf of d m (updPw p m (next * ((d:ℚ)+1) / ((((m:ℚ)+1)) * of)),
            (p m).pweight -
              next * ((d:ℚ)+1) / ((((m:ℚ)+1)) * of) * zf * ((d - m : ℕ) : ℚ) / ((d:ℚ)+1))).1 m).pweight =
            next * ((d:ℚ)+1) / ((((m:ℚ)+1)) * of) := by
          rw [unwLoop_untouched zf of d m _ m le_rfl, updPw_pw, if_pos rfl]
        rw [hlast]
        ring
      · have hups : upsStep zf of d p (next, total) m =
            (next, total + ((p m).pweight / zf) / (((d - m : ℕ) : ℚ) / ((d:ℚ)+1))) := by
          unfold upsStep
          rw [if_neg hof]
        have hunw : unwStep zf of d (p, next) m =
            (updPw p m ((p m).pweight * ((d:ℚ)+1) / (zf * ((d - m : ℕ) : ℚ))),
             next) := by
          unfold unwStep
          rw [if_neg hof]
        rw [hups, hunw, ih (by omega)]
        have hsum : Finset.sum (Finset.range m)
            (fun i => ((unwLoop zf of d m (p, next)).1 i).pweight) =
            Finset.sum (Finset.range m)
            (fun i => ((unwLoop zf of d m (updPw p m ((p m).pweight * ((d:ℚ)+1) / (zf * ((d - m : ℕ) : ℚ))),
              next)).1 i).pweight) := by
          apply Finset.sum_congr rfl
          intro i hi
          have hi' : i < m := Finset.mem_range.mp hi
          exact unwLoop_congr zf of d m p _ _ (fun i2 hi2 => by
            rw [updPw_pw, if_neg (by omega : ¬ i2 = m)]) i hi'
        rw [hsum]
        have hlast : ((unwLoop zf of d m (updPw p m ((p m).pweight * ((d:ℚ)+1) / (zf * ((d - m : ℕ) : ℚ))),
            next)).1 m).pweight =
            (p m).pweight * ((d:ℚ)+1) / (zf * ((d - m : ℕ) : ℚ)) := by
          rw [unwLoop_untouched zf of d m _ m le_rfl, updPw_pw, if_pos rfl]
        rw [hlast]
        have hdiv : ((p m).pweight / zf) / (((d - m : ℕ) : ℚ) / ((d:ℚ)+1)) =
            (p m).pweight * ((d:ℚ)+1) / (zf * ((d - m : ℕ) : ℚ)) := by
          simp [div_eq_mul_inv, mul_inv, inv_inv]
          ring
        rw [hdiv]
        ring

/-- `UnwoundPathSum` under the closed form: its value is the Beta-weighted
    coefficient sum of the factor list with the unwound pair deleted. -/
theorem UnwoundPathSum_closed (p : ℕ → PathElement) (Q : List (ℚ × ℚ)) (k : ℕ)
    (hk1 : 1 ≤ k) (hk2 : k ≤ Q.length)
    (hP : PwClosed p (Q.length + 1) Q)
    (hfrac : ((p k).zero_fraction, (p k).one_fraction) = Q.getD (k-1) (0,0))
    (hnz : (Q.getD (k-1) (0,0)).1 ≠ 0) :
    UnwoundPathSum p Q.length k = mea (Q.eraseIdx (k-1)) 0 0 := by
  unfold UnwoundPathSum
  rw [upsLoop_eq _ _ _ Q.length le_rfl, zero_add]
  have hlen : (Q.eraseIdx (k-1)).length = Q.length - 1 := by
    rw [List.length_eraseIdx]
    simp [show k - 1 < Q.length by omega]
  unfold mea
  have hrange : (Q.eraseIdx (k-1)).length + 1 = Q.length := by omega
  rw [hrange]
  apply Finset.sum_congr rfl
  intro i hi
  have hi' : i < Q.length := Finset.mem_range.mp hi
  rw [unwind_restore p Q k hk1 hk2 hP hfrac hnz i hi']
  congr 1
  rw [betaQ_eq_fBeta Q.length i hi']
  have e1 : (0:ℕ) + i = i := by omega
  have e2 : (0:ℕ) + ((Q.eraseIdx (k-1)).length - i) = Q.length - 1 - i := by omega
  rw [e1, e2]

/-! ### SHAP embedding: feature vector, prediction, TreeShap -/

/-- `RegTree::FVec::Entry`: `flag == -1` marks a missing feature. -/
inductive FEntry where
  | none_ : FEntry
  | val : ℚ → FEntry
deriving DecidableEq, Repr

/-- `RegTree::FVec` (tree_model.h:528-549, 579-609). -/
structure FVecS where
  data : List FEntry
deriving DecidableEq, Repr

namespace FVecS

/-- `FVec::size`. -/
def size (fv : FVecS) : ℕ := fv.data.length

/-- `FVec::fvalue` (the union value; only read on non-missing entries). -/
def fvalue (fv : FVecS) (i : ℕ) : ℚ :=
  match fv.data.getD i FEntry.none_ with
  | FEntry.val v => v
  | FEntry.none_ => 0

/-- `FVec::is_missing`. -/
def is_missing (fv : FVecS) (i : ℕ) : Bool :=
  match fv.data.getD i FEntry.none_ with
  | FEntry.none_ => true
  | FEntry.val _ => false

end FVecS

/-- `RegTree::GetLeafIndex` (tree_model.h:611-618); the `while` loop gets
    explicit fuel, `none` meaning the loop did not reach a leaf within the
    allotted steps. -/
def GetLeafIndex (tr : TreeS) (feat : FVecS) : ℕ → ℤ → Option ℤ
  | 0, _ => none
  | fuel+1, pid =>
      if (getNodeD tr pid).is_leaf then some pid
      else
        GetLeafIndex tr feat fuel
          (GetNext tr pid (feat.fvalue (getNodeD tr pid).split_index)
            (feat.is_missing (getNodeD tr pid).split_index))

/-- `RegTree::Predict` (tree_model.h:620-623). -/
def Predict (tr : TreeS) (feat : FVecS) (fuel : ℕ) (root_id : ℕ) : Option ℚ :=
  (GetLeafIndex tr feat fuel (root_id : ℤ)).map
    (fun pid => (getNodeD tr pid).leaf_value)

/-- The value computed (and cached into `node_mean_values`) by
    `RegTree::FillNodeMeanValue` (tree_model.h:636-648), with explicit
    recursion fuel. -/
def FillNodeMeanValue (tr : TreeS) : ℕ → ℤ → Option ℚ
  | 0, _ => none
  | fuel+1, nid =>
      if (getNodeD tr nid).is_leaf then some (getNodeD tr nid).leaf_value
      else
        (FillNodeMeanValue tr fuel (getNodeD tr nid).cleft).bind fun ml =>
        (FillNodeMeanValue tr fuel (getNodeD tr nid).cright).bind fun mr =>
        some ((ml * (getStatD tr (getNodeD tr nid).cleft).sum_hess +
               mr * (getStatD tr (getNodeD tr nid).cright).sum_hess) /
              (getStatD tr nid).sum_hess)

/-- Functional update of the contribution buffer `phi` at index `i`. -/
def updQ (phi : ℤ → ℚ) (i : ℤ) (x : ℚ) : ℤ → ℚ :=
  fun j => if j = i then x else phi j

/-- The leaf loop of `TreeShap` (tree_model.h:766-771) after `n`
    iterations (`i = 1, ..., n`); `v` is the leaf value, `cf` the
    condition fraction. -/
def leafLoop (path : ℕ → PathElement) (u : ℕ) (v cf : ℚ) (phi : ℤ → ℚ) :
    ℕ → (ℤ → ℚ)
  | 0 => phi
  | n+1 =>
      updQ (leafLoop path u v cf phi n) (path (n+1)).feature_index
        ((leafLoop path u v cf phi n) (path (n+1)).feature_index +
          UnwoundPathSum path u (n+1) *
            ((path (n+1)).one_fraction - (path (n+1)).zero_fraction) * v * cf)

/-- The duplicate-feature scan of `TreeShap` (tree_model.h:794-797):
    starting at slot `i` with `n` slots left to examine, return the first
    slot whose feature index, cast to `unsigned`, equals `split`, or one
    past the last examined slot. -/
def dupFrom (path : ℕ → PathElement) (split : ℕ) : ℕ → ℕ → ℕ
  | i, 0 => i
  | i, n+1 =>
      if castPat (path i).feature_index = split then i
      else dupFrom path split (i+1) n

/-- The scan over slots `0, ..., u` yielding `path_index`. -/
def dupIdx (q : ℕ → PathElement) (u si : ℕ) : ℕ := dupFrom q si 0 (u+1)

/-- The "hot" child (the one the input would follow), tree_model.h:776-783. -/
def hotIndex (feat : FVecS) (node : NodeS) : ℤ :=
  if feat.is_missing node.split_index then node.cdefault
  else if feat.fvalue node.split_index < node.split_cond then node.cleft
  else node.cright

/-- The "cold" child (tree_model.h:784-785). -/
def coldIndex (node : NodeS) (hot : ℤ) : ℤ :=
  if hot = node.cleft then node.cright else node.cleft

/-- The conditional path extension at the top of `TreeShap`
    (tree_model.h:755-761); the scratch-buffer copy is the identity in
    this functional model. -/
def shapExtend (p : ℕ → PathElement) (u : ℕ) (pzf pof : ℚ) (pfi : ℤ)
    (condition : ℤ) (condition_feature : ℕ) : ℕ → PathElement :=
  if condition = 0 ∨ condition_feature ≠ castPat pfi then
    ExtendPath p u pzf pof pfi
  else p

/-- `incoming_zero_fraction` (tree_model.h:789, 798-800). -/
def shapIZ (q : ℕ → PathElement) (u si : ℕ) : ℚ :=
  if dupIdx q u si ≠ u + 1 then (q (dupIdx q u si)).zero_fraction else 1

/-- `incoming_one_fraction` (tree_model.h:790, 798-800). -/
def shapIOne (q : ℕ → PathElement) (u si : ℕ) : ℚ :=
  if dupIdx q u si ≠ u + 1 then (q (dupIdx q u si)).one_fraction else 1

/-- The path after the duplicate-feature unwind (tree_model.h:801). -/
def shapPath2 (q : ℕ → PathElement) (u si : ℕ) : ℕ → PathElement :=
  if dupIdx q u si ≠ u + 1 then UnwindPath q u (dupIdx q u si) else q

/-- `unique_depth` after the duplicate-feature unwind (tree_model.h:802);
    ℕ subtraction truncates the `unsigned` underflow that cannot occur
    here (the unwind only fires at a slot `≥ 1`, so `u ≥ 1`). -/
def shapUD2 (q : ℕ → PathElement) (u si : ℕ) : ℕ :=
  if dupIdx q u si ≠ u + 1 then u - 1 else u

/-- `unique_depth` after the condition-feature adjustment
    (tree_model.h:806-815). -/
def shapUD3 (condition : ℤ) (si condition_feature : ℕ) (ud2 : ℕ) : ℕ :=
  if (0 < condition ∧ si = condition_feature) ∨
     (condition < 0 ∧ si = condition_feature) then ud2 - 1 else ud2

/-- `hot_condition_fraction` (tree_model.h:806-815). -/
def shapHotCF (condition : ℤ) (si condition_feature : ℕ) (cfrac hzf : ℚ) : ℚ :=
  if 0 < condition ∧ si = condition_feature then cfrac
  else if condition < 0 ∧ si = condition_feature then cfrac * hzf
  else cfrac

/-- `cold_condition_fraction` (tree_model.h:806-815). -/
def shapColdCF (condition : ℤ) (si condition_feature : ℕ) (cfrac czf : ℚ) : ℚ :=
  if 0 < condition ∧ si = condition_feature then 0
  else if condition < 0 ∧ si = condition_feature then cfrac * czf
  else cfrac

/-- `RegTree::TreeShap` (tree_model.h:743-825), with explicit recursion
    fuel.  The child node index travels through the `unsigned` cast
    (`castPat`), as in the source. -/
def TreeShap (tr : TreeS) (feat : FVecS) : ℕ → (ℤ → ℚ) → ℕ → ℕ →
    (ℕ → PathElement) → ℚ → ℚ → ℤ → ℤ → ℕ → ℚ → Option (ℤ → ℚ)
  | 0, _, _, _, _, _, _, _, _, _, _ => none
  | fuel+1, phi, node_index, u, pp, pzf, pof, pfi, condition, condition_feature,
      cfrac =>
    if cfrac = 0 then some phi
    else
      if (tr.nodes.getD node_index default).is_leaf then
        some (leafLoop (shapExtend pp u pzf pof pfi condition condition_feature) u
          (tr.nodes.getD node_index default).leaf_value cfrac phi u)
      else
        (TreeShap tr feat fuel phi
          (castPat (hotIndex feat (tr.nodes.getD node_index default)))
          (shapUD3 condition (tr.nodes.getD node_index default).split_index
            condition_feature
            (shapUD2 (shapExtend pp u pzf pof pfi condition condition_feature) u
              (tr.nodes.getD node_index default).split_index) + 1)
          (shapPath2 (shapExtend pp u pzf pof pfi condition condition_feature) u
            (tr.nodes.getD node_index default).split_index)
          ((getStatD tr (hotIndex feat (tr.nodes.getD node_index default))).sum_hess /
              (getStatD tr (node_index : ℤ)).sum_hess *
            shapIZ (shapExtend pp u pzf pof pfi condition condition_feature) u
              (tr.nodes.getD node_index default).split_index)
          (shapIOne (shapExtend pp u pzf pof pfi condition condition_feature) u
            (tr.nodes.getD node_index default).split_index)
          ((tr.nodes.getD node_index default).split_index : ℤ)
          condition condition_feature
          (shapHotCF condition (tr.nodes.getD node_index default).split_index
            condition_feature cfrac
            ((getStatD tr (hotIndex feat (tr.nodes.getD node_index default))).sum_hess /
              (getStatD tr (node_index : ℤ)).sum_hess))).bind fun phi1 =>
        TreeShap tr feat fuel phi1
          (castPat (coldIndex (tr.nodes.getD node_index default)
            (hotIndex feat (tr.nodes.getD node_index default))))
          (shapUD3 condition (tr.nodes.getD node_index default).split_index
            condition_feature
            (shapUD2 (shapExtend pp u pzf pof pfi condition condition_feature) u
              (tr.nodes.getD node_index default).split_index) + 1)
          (shapPath2 (shapExtend pp u pzf pof pfi condition condition_feature) u
            (tr.nodes.getD node_index default).split_index)
          ((getStatD tr (coldIndex (tr.nodes.getD node_index default)
              (hotIndex feat (tr.nodes.getD node_index default)))).sum_hess /
              (getStatD tr (node_index : ℤ)).sum_hess *
            shapIZ (shapExtend pp u pzf pof pfi condition condition_feature) u
              (tr.nodes.getD node_index default).split_index)
          0
          ((tr.nodes.getD node_index default).split_index : ℤ)
          condition condition_feature
          (shapColdCF condition (tr.nodes.getD node_index default).split_index
            condition_feature cfrac
            ((getStatD tr (coldIndex (tr.nodes.getD node_index default)
                (hotIndex feat (tr.nodes.getD node_index default)))).sum_hess /
              (getStatD tr (node_index : ℤ)).sum_hess))

/-- `RegTree::CalculateContributions` (tree_model.h:827-844); the scratch
    path buffer starts as all-default elements (the source leaves it
    uninitialized; `TreeShap` writes each slot before reading it). -/
def CalculateContributions (tr : TreeS) (feat : FVecS) (fuel : ℕ) (root_id : ℕ)
    (out_contribs : ℤ → ℚ) (condition : ℤ) (condition_feature : ℕ) :
    Option (ℤ → ℚ) :=
  TreeShap tr feat fuel
    (if condition = 0 then
      updQ out_contribs (feat.size : ℤ)
        (out_contribs (feat.size : ℤ) + getMeanD tr (root_id : ℤ))
    else out_contribs)
    root_id 0 (fun _ => default) 1 1 (-1) condition condition_feature 1

/-- Sum of contribution entries over the feature slots `0, ..., nf` (slot
    `nf` is the bias slot). -/
def phiSum (phi : ℤ → ℚ) (nf : ℕ) : ℚ :=
  Finset.sum (Finset.range (nf + 1)) (fun i => phi (i : ℤ))

/-- Well-formedness (to height `h`) of the subtree at `nid`, as the SHAP
    path needs it: nodes in range, children of internal nodes nonnegative
    31-bit indices, nonzero hessians, split indices below the feature
    count `nf`, and `node_mean_values` satisfying the
    `FillNodeMeanValue` recurrence. -/
def WFShap (tr : TreeS) (nf : ℕ) : ℕ → ℕ → Prop
  | nid, 0 =>
      nid < tr.nodes.length ∧ (tr.nodes.getD nid default).is_leaf = true ∧
      getMeanD tr (nid : ℤ) = (tr.nodes.getD nid default).leaf_value
  | nid, h+1 =>
      nid < tr.nodes.length ∧
      (((tr.nodes.getD nid default).is_leaf = true ∧
        getMeanD tr (nid : ℤ) = (tr.nodes.getD nid default).leaf_value) ∨
       ((tr.nodes.getD nid default).is_leaf = false ∧
        (tr.nodes.getD nid default).split_index < nf ∧
        0 ≤ (tr.nodes.getD nid default).cleft ∧
        (tr.nodes.getD nid default).cleft < 2^31 ∧
        0 ≤ (tr.nodes.getD nid default).cright ∧
        (tr.nodes.getD nid default).cright < 2^31 ∧
        (getStatD tr (nid : ℤ)).sum_hess ≠ 0 ∧
        (getStatD tr (tr.nodes.getD nid default).cleft).sum_hess ≠ 0 ∧
        (getStatD tr (tr.nodes.getD nid default).cright).sum_hess ≠ 0 ∧
        getMeanD tr (nid : ℤ) * (getStatD tr (nid : ℤ)).sum_hess =
          getMeanD tr (tr.nodes.getD nid default).cleft *
            (getStatD tr (tr.nodes.getD nid default).cleft).sum_hess +
          getMeanD tr (tr.nodes.getD nid default).cright *
            (getStatD tr (tr.nodes.getD nid default).cright).sum_hess ∧
        WFShap tr nf (tr.nodes.getD nid default).cleft.toNat h ∧
        WFShap tr nf (tr.nodes.getD nid default).cright.toNat h))

theorem castPat_small (z : ℤ) (h0 : 0 ≤ z) (h1 : z < 2^32) :
    ((castPat z : ℕ) : ℤ) = z := by
  unfold castPat
  omega

theorem castPat_neg1 : castPat (-1) = 2^32 - 1 := by
  unfold castPat
  decide

theorem split_index_lt (n : NodeS) : n.split_index < 2^31 :=
  Nat.mod_lt _ (by norm_num)

theorem getNodeD_natCast (tr : TreeS) (nid : ℕ) :
    getNodeD tr (nid : ℤ) = tr.nodes.getD nid default := by
  unfold getNodeD
  norm_num

/-- Field invariant of a SHAP path of length `n` built over the fraction
    pairs `F` (slot 0 is the dummy element): each real slot carries its
    pair from `F` and a feature index in `[0, nf)`. -/
def PathOK (p : ℕ → PathElement) (n : ℕ) (F : List (ℚ × ℚ)) (nf : ℕ) : Prop :=
  ∀ j, 1 ≤ j → j < n →
    ((p j).zero_fraction, (p j).one_fraction) = F.getD (j-1) (0,0) ∧
    0 ≤ (p j).feature_index ∧ (p j).feature_index < (nf:ℤ)

theorem phiSum_updQ (phi : ℤ → ℚ) (nf : ℕ) (fi : ℤ) (h0 : 0 ≤ fi)
    (h1 : fi < (nf:ℤ)+1) (delta : ℚ) :
    phiSum (updQ phi fi (phi fi + delta)) nf = phiSum phi nf + delta := by
  unfold phiSum
  have hsplit : ∀ i ∈ Finset.range (nf+1),
      updQ phi fi (phi fi + delta) (i:ℤ) =
        phi (i:ℤ) + (if i = fi.toNat then delta else 0) := by
    intro i hi
    unfold updQ
    by_cases he : (i:ℤ) = fi
    · rw [if_pos he, if_pos (by omega), he]
    · rw [if_neg he, if_neg (by omega), add_zero]
  rw [Finset.sum_congr rfl hsplit, Finset.sum_add_distrib]
  congr 1
  rw [Finset.sum_ite_eq' (Finset.range (nf+1)) fi.toNat (fun _ => delta),
    if_pos (Finset.mem_range.mpr (by omega))]

theorem phiSum_leafLoop (path : ℕ → PathElement) (u : ℕ) (v cf : ℚ) (nf : ℕ) :
    ∀ (n : ℕ) (phi : ℤ → ℚ),
      (∀ k, 1 ≤ k → k ≤ n → 0 ≤ (path k).feature_index ∧
        (path k).feature_index < (nf:ℤ)) →
      phiSum (leafLoop path u v cf phi n) nf =
        phiSum phi nf + Finset.sum (Finset.range n) (fun j =>
          UnwoundPathSum path u (j+1) *
            ((path (j+1)).one_fraction - (path (j+1)).zero_fraction) * v * cf) := by
  intro n
  induction n with
  | zero => intro phi _; simp [leafLoop]
  | succ n ih =>
      intro phi hb
      rw [show leafLoop path u v cf phi (n+1) =
        updQ (leafLoop path u v cf phi n) (path (n+1)).feature_index
          ((leafLoop path u v cf phi n) (path (n+1)).feature_index +
            UnwoundPathSum path u (n+1) *
              ((path (n+1)).one_fraction - (path (n+1)).zero_fraction) * v * cf)
        from rfl,
        phiSum_updQ _ _ _ (hb (n+1) (by omega) le_rfl).1
          (by have := (hb (n+1) (by omega) le_rfl).2; omega),
        ih phi (fun k hk1 hk2 => hb k hk1 (by omega)), Finset.sum_range_succ]
      ring

theorem dupFrom_spec (path : ℕ → PathElement) (split : ℕ) :
    ∀ (n i : ℕ),
      (dupFrom path split i n = i + n ∧
        ∀ j, i ≤ j → j < i + n → castPat (path j).feature_index ≠ split) ∨
      (i ≤ dupFrom path split i n ∧ dupFrom path split i n < i + n ∧
        castPat (path (dupFrom path split i n)).feature_index = split ∧
        ∀ j, i ≤ j → j < dupFrom path split i n →
          castPat (path j).feature_index ≠ split) := by
  intro n
  induction n with
  | zero => intro i; left; exact ⟨rfl, fun j h1 h2 => by omega⟩
  | succ n ih =>
      intro i
      by_cases hm : castPat (path i).feature_index = split
      · right
        rw [show dupFrom path split i (n+1) =
          (if castPat (path i).feature_index = split then i
            else dupFrom path split (i+1) n) from rfl, if_pos hm]
        exact ⟨le_rfl, by omega, hm, fun j h1 h2 => by omega⟩
      · rw [show dupFrom path split i (n+1) =
          (if castPat (path i).feature_index = split then i
            else dupFrom path split (i+1) n) from rfl, if_neg hm]
        rcases ih (i+1) with ⟨heq, hall⟩ | ⟨hge, hlt, hfound, hmin⟩
        · left
          refine ⟨by rw [heq]; omega, fun j h1 h2 => ?_⟩
          by_cases hji : j = i
          · subst hji; exact hm
          · exact hall j (by omega) (by omega)
        · right
          refine ⟨by omega, by omega, hfound, fun j h1 h2 => ?_⟩
          by_cases hji : j = i
          · subst hji; exact hm
          · exact hmin j (by omega) h2

/-- On a well-formed subtree, `GetLeafIndex` reaches a leaf within the
    fuel bound. -/
theorem GetLeafIndex_ok (tr : TreeS) (nf : ℕ) (feat : FVecS) :
    ∀ (h : ℕ) (nid : ℕ), WFShap tr nf nid h → ∀ (fuel : ℕ), h < fuel →
      ∃ leaf, GetLeafIndex tr feat fuel (nid : ℤ) = some leaf := by
  intro h
  induction h with
  | zero =>
      intro nid hwf fuel hfuel
      match fuel, hfuel with
      | fuel+1, _ =>
          refine ⟨(nid:ℤ), ?_⟩
          show (if (getNodeD tr (nid:ℤ)).is_leaf then some ((nid:ℤ):ℤ)
            else GetLeafIndex tr feat fuel _) = _
          rw [getNodeD_natCast, hwf.2.1]
          rfl
  | succ h ih =>
      intro nid hwf fuel hfuel
      match fuel, hfuel with
      | fuel+1, hfuel =>
          obtain ⟨hrange, hcases⟩ := hwf
          rcases hcases with ⟨hleaf, _⟩ |
            ⟨hleaf, hsi, hcl0, hcl31, hcr0, hcr31, hw, hhl, hhr, hmean, hwl, hwr⟩
          · refine ⟨(nid:ℤ), ?_⟩
            show (if (getNodeD tr (nid:ℤ)).is_leaf then some ((nid:ℤ):ℤ)
              else GetLeafIndex tr feat fuel _) = _
            rw [getNodeD_natCast, hleaf]
            rfl
          · have hstep : GetLeafIndex tr feat (fuel+1) (nid:ℤ) =
                GetLeafIndex tr feat fuel
                  (GetNext tr (nid:ℤ)
                    (feat.fvalue (getNodeD tr (nid:ℤ)).split_index)
                    (feat.is_missing (getNodeD tr (nid:ℤ)).split_index)) := by
              show (if (getNodeD tr (nid:ℤ)).is_leaf then some ((nid:ℤ):ℤ)
                else GetLeafIndex tr feat fuel _) = _
              rw [getNodeD_natCast, hleaf]
              rfl
            have hnext : GetNext tr (nid:ℤ)
                  (feat.fvalue (getNodeD tr (nid:ℤ)).split_index)
                  (feat.is_missing (getNodeD tr (nid:ℤ)).split_index) =
                  (tr.nodes.getD nid default).cleft ∨
                GetNext tr (nid:ℤ)
                  (feat.fvalue (getNodeD tr (nid:ℤ)).split_index)
                  (feat.is_missing (getNodeD tr (nid:ℤ)).split_index) =
                  (tr.nodes.getD nid default).cright := by
              unfold GetNext NodeS.cdefault
              rw [getNodeD_natCast]
              by_cases h1 : feat.is_missing (tr.nodes.getD nid default).split_index
              · rw [if_pos h1]
                by_cases h2 : (tr.nodes.getD nid default).default_left
                · left; rw [if_pos h2]
                · right; rw [if_neg h2]
              · rw [if_neg h1]
                by_cases h2 : feat.fvalue (tr.nodes.getD nid default).split_index <
                    (tr.nodes.getD nid default).split_cond
                · left; rw [if_pos h2]
                · right; rw [if_neg h2]
            rcases hnext with hc | hc
            · obtain ⟨leaf, hleaf2⟩ := ih (tr.nodes.getD nid default).cleft.toNat hwl
                fuel (by omega)
              refine ⟨leaf, ?_⟩
              rw [show (((tr.nodes.getD nid default).cleft.toNat : ℕ) : ℤ) =
                (tr.nodes.getD nid default).cleft from by omega] at hleaf2
              rw [hstep, hc]
              exact hleaf2
            · obtain ⟨leaf, hleaf2⟩ := ih (tr.nodes.getD nid default).cright.toNat hwr
                fuel (by omega)
              refine ⟨leaf, ?_⟩
              rw [show (((tr.nodes.getD nid default).cright.toNat : ℕ) : ℤ) =
                (tr.nodes.getD nid default).cright from by omega] at hleaf2
              rw [hstep, hc]
              exact hleaf2

theorem shapExtend_zero (p : ℕ → PathElement) (u : ℕ) (pz po : ℚ) (pf : ℤ)
    (cfeat : ℕ) : shapExtend p u pz po pf 0 cfeat = ExtendPath p u pz po pf := by
  unfold shapExtend
  rw [if_pos (Or.inl rfl)]

theorem shapUD3_zero (si cfeat ud2 : ℕ) : shapUD3 0 si cfeat ud2 = ud2 := by
  unfold shapUD3
  rw [if_neg]
  rintro (⟨hc, _⟩ | ⟨hc, _⟩) <;> exact absurd hc (by omega)

theorem shapHotCF_zero (si cfeat : ℕ) (cfrac hzf : ℚ) :
    shapHotCF 0 si cfeat cfrac hzf = cfrac := by
  unfold shapHotCF
  rw [if_neg (by rintro ⟨hc, _⟩; exact absurd hc (by omega)),
    if_neg (by rintro ⟨hc, _⟩; exact absurd hc (by omega))]

theorem shapColdCF_zero (si cfeat : ℕ) (cfrac czf : ℚ) :
    shapColdCF 0 si cfeat cfrac czf = cfrac := by
  unfold shapColdCF
  rw [if_neg (by rintro ⟨hc, _⟩; exact absurd hc (by omega)),
    if_neg (by rintro ⟨hc, _⟩; exact absurd hc (by omega))]

theorem GetNext_eq_hot (tr : TreeS) (nid : ℕ) (feat : FVecS) :
    GetNext tr (nid:ℤ)
      (feat.fvalue (getNodeD tr (nid:ℤ)).split_index)
      (feat.is_missing (getNodeD tr (nid:ℤ)).split_index) =
    hotIndex feat (tr.nodes.getD nid default) := by
  unfold GetNext hotIndex
  rw [getNodeD_natCast]

theorem hotIndex_cases (feat : FVecS) (n : NodeS) :
    hotIndex feat n = n.cleft ∨ hotIndex feat n = n.cright := by
  unfold hotIndex NodeS.cdefault
  by_cases h1 : feat.is_missing n.split_index
  · rw [if_pos h1]
    by_cases h2 : n.default_left
    · left; rw [if_pos h2]
    · right; rw [if_neg h2]
  · rw [if_neg h1]
    by_cases h2 : feat.fvalue n.split_index < n.split_cond
    · left; rw [if_pos h2]
    · right; rw [if_neg h2]

theorem hotCold_cases (feat : FVecS) (n : NodeS) :
    (hotIndex feat n = n.cleft ∧ coldIndex n (hotIndex feat n) = n.cright) ∨
    (hotIndex feat n = n.cright ∧ coldIndex n (hotIndex feat n) = n.cleft) := by
  unfold coldIndex
  by_cases h : hotIndex feat n = n.cleft
  · left
    exact ⟨h, by rw [if_pos h]⟩
  · right
    rcases hotIndex_cases feat n with hc | hc
    · exact absurd hc h
    · exact ⟨hc, by rw [if_neg h]⟩

theorem getD_mem_of_lt (l : List (ℚ × ℚ)) (j : ℕ) (h : j < l.length) :
    l.getD j (0,0) ∈ l := by
  rw [List.getD_eq_getElem l (0,0) h]
  exact List.getElem_mem h

/-- Properties of the freshly extended path: closed-form weights, field
    invariant, dummy slot 0, nonzero zero-fractions, and the product
    bookkeeping, all over the extended factor list `Q`. -/
theorem postExtend_package (p : ℕ → PathElement) (u : ℕ) (F : List (ℚ × ℚ))
    (nf : ℕ) (pz po : ℚ) (pf : ℤ)
    (hu : (u = 0 ∧ F = [] ∧ pf = -1 ∧ pz = 1 ∧ po = 1) ∨
          (F.length + 1 = u ∧ 0 ≤ pf ∧ pf < (nf:ℤ) ∧ (p 0).feature_index = -1))
    (hP : PwClosed p u F) (hOK : PathOK p u F nf)
    (hzF : ∀ zo ∈ F, zo.1 ≠ 0) (hpz : pz ≠ 0) :
    ∃ Q : List (ℚ × ℚ),
      Q.length = u ∧
      PwClosed (ExtendPath p u pz po pf) (u+1) Q ∧
      PathOK (ExtendPath p u pz po pf) (u+1) Q nf ∧
      ((ExtendPath p u pz po pf) 0).feature_index = -1 ∧
      (∀ zo ∈ Q, zo.1 ≠ 0) ∧
      prodO Q = prodO F * po ∧
      prodZ Q = prodZ F * pz := by
  rcases hu with ⟨hu0, hF, hpf, hpz1, hpo1⟩ | ⟨hlen, hpf0, hpfn, hp0⟩
  · subst hu0 hF hpf hpz1 hpo1
    refine ⟨[], rfl, ExtendPath_closed_base p _ _ _, ?_, ?_, ?_, ?_, ?_⟩
    · intro j hj1 hj2
      omega
    · rw [(ExtendPath_fields p 0 1 1 (-1) 0).1, if_pos rfl]
    · intro zo hzo
      simp at hzo
    · unfold prodO
      simp
    · unfold prodZ
      simp
  · obtain rfl : u = F.length + 1 := by omega
    refine ⟨F ++ [(pz, po)], by simp, ?_, ?_, ?_, ?_, ?_, ?_⟩
    · exact ExtendPath_closed p F pz po pf hP
    · intro j hj1 hj2
      obtain ⟨hf, hz, ho⟩ := ExtendPath_fields p (F.length+1) pz po pf j
      by_cases hje : j = F.length + 1
      · subst hje
        rw [hz, ho, hf, if_pos rfl, if_pos rfl, if_pos rfl]
        refine ⟨?_, hpf0, hpfn⟩
        rw [List.getD_append_right F [(pz,po)] (0,0) (F.length+1-1) (by omega)]
        have e : F.length + 1 - 1 - F.length = 0 := by omega
        rw [e]
        rfl
      · rw [hz, ho, hf, if_neg hje, if_neg hje, if_neg hje]
        obtain ⟨hpair, hb0, hbn⟩ := hOK j hj1 (by omega)
        refine ⟨?_, hb0, hbn⟩
        rw [List.getD_append F [(pz,po)] (0,0) (j-1) (by omega)]
        exact hpair
    · rw [(ExtendPath_fields p (F.length+1) pz po pf 0).1,
        if_neg (by omega : ¬ (0:ℕ) = F.length + 1)]
      exact hp0
    · intro zo hzo
      rcases List.mem_append.mp hzo with hm | hm
      · exact hzF zo hm
      · have : zo = (pz, po) := by simpa using hm
        rw [this]
        exact hpz
    · unfold prodO
      simp
    · unfold prodZ
      simp

/-- The leaf case of the conservation argument: at a leaf, `TreeShap`
    adds `cf · v · (∏o - ∏z)` to the summed contributions. -/
theorem treeShap_leaf_case (tr : TreeS) (nf : ℕ) (feat : FVecS) (nid : ℕ)
    (hleaf : (tr.nodes.getD nid default).is_leaf = true)
    (hmean : getMeanD tr (nid:ℤ) = (tr.nodes.getD nid default).leaf_value)
    (fuel : ℕ) (u : ℕ) (F : List (ℚ × ℚ)) (p : ℕ → PathElement) (phi : ℤ → ℚ)
    (pz po : ℚ) (pf : ℤ) (cfeat : ℕ) (cf : ℚ)
    (hu : (u = 0 ∧ F = [] ∧ pf = -1 ∧ pz = 1 ∧ po = 1) ∨
          (F.length + 1 = u ∧ 0 ≤ pf ∧ pf < (nf:ℤ) ∧ (p 0).feature_index = -1))
    (hP : PwClosed p u F) (hOK : PathOK p u F nf)
    (hzF : ∀ zo ∈ F, zo.1 ≠ 0) (hpz : pz ≠ 0) :
    ∃ phi2 leaf,
      TreeShap tr feat (fuel+1) phi nid u p pz po pf 0 cfeat cf = some phi2 ∧
      GetLeafIndex tr feat (fuel+1) (nid : ℤ) = some leaf ∧
      phiSum phi2 nf = phiSum phi nf +
        cf * (po * prodO F * (getNodeD tr leaf).leaf_value -
              pz * prodZ F * getMeanD tr (nid : ℤ)) := by
  have hgl : GetLeafIndex tr feat (fuel+1) (nid:ℤ) = some (nid:ℤ) := by
    show (if (getNodeD tr (nid:ℤ)).is_leaf then some ((nid:ℤ):ℤ)
      else GetLeafIndex tr feat fuel
        (GetNext tr (nid:ℤ) (feat.fvalue (getNodeD tr (nid:ℤ)).split_index)
          (feat.is_missing (getNodeD tr (nid:ℤ)).split_index))) = some ((nid:ℤ))
    rw [getNodeD_natCast, hleaf]
    rfl
  by_cases hcf : cf = 0
  · refine ⟨phi, (nid:ℤ), ?_, hgl, ?_⟩
    · simp only [TreeShap]
      rw [if_pos hcf]
    · rw [hcf]
      ring
  · obtain ⟨Q, hQlen, hQP, hQOK, hQ0, hQz, hprodO, hprodZ⟩ :=
      postExtend_package p u F nf pz po pf hu hP hOK hzF hpz
    subst hQlen
    refine ⟨leafLoop (shapExtend p Q.length pz po pf 0 cfeat) Q.length
        (tr.nodes.getD nid default).leaf_value cf phi Q.length, (nid:ℤ), ?_, hgl, ?_⟩
    · simp only [TreeShap]
      rw [if_neg hcf, if_pos hleaf]
    · rw [shapExtend_zero]
      rw [phiSum_leafLoop (ExtendPath p Q.length pz po pf) Q.length
        (tr.nodes.getD nid default).leaf_value cf nf Q.length phi
        (fun k hk1 hk2 => ⟨(hQOK k hk1 (by omega)).2.1, (hQOK k hk1 (by omega)).2.2⟩)]
      have hterm : ∀ j ∈ Finset.range Q.length,
          UnwoundPathSum (ExtendPath p Q.length pz po pf) Q.length (j+1) *
            (((ExtendPath p Q.length pz po pf) (j+1)).one_fraction -
              ((ExtendPath p Q.length pz po pf) (j+1)).zero_fraction) *
            (tr.nodes.getD nid default).leaf_value * cf =
          (((Q.getD j (0,0)).2 - (Q.getD j (0,0)).1) * mea (Q.eraseIdx j) 0 0) *
            ((tr.nodes.getD nid default).leaf_value * cf) := by
        intro j hj
        have hj' : j < Q.length := Finset.mem_range.mp hj
        have hfr := (hQOK (j+1) (by omega) (by omega)).1
        have hz2 : ((ExtendPath p Q.length pz po pf) (j+1)).zero_fraction =
            (Q.getD j (0,0)).1 := congrArg Prod.fst hfr
        have ho2 : ((ExtendPath p Q.length pz po pf) (j+1)).one_fraction =
            (Q.getD j (0,0)).2 := congrArg Prod.snd hfr
        have hnz : (Q.getD (j+1-1) (0,0)).1 ≠ 0 :=
          hQz _ (getD_mem_of_lt Q j hj')
        have hups := UnwoundPathSum_closed (ExtendPath p Q.length pz po pf) Q (j+1)
          (by omega) (by omega) hQP hfr hnz
        have e : j + 1 - 1 = j := by omega
        rw [e] at hups
        rw [hups, ho2, hz2]
        ring
      rw [Finset.sum_congr rfl hterm, ← Finset.sum_mul, sum_erase_mea_zero,
        getNodeD_natCast, hmean, hprodO, hprodZ]
      ring

/-- Conservation of the SHAP recursion (condition = 0): the amount added
    to the summed contributions is `cf·(po·∏o·v - pz·∏z·mean)`, where `v`
    is the leaf value reached below `nid` on this input and `mean` the
    cached mean value of `nid`. -/
theorem treeShap_sum (tr : TreeS) (nf : ℕ) (feat : FVecS) :
    ∀ (h : ℕ), ∀ (nid : ℕ), WFShap tr nf nid h → ∀ (fuel : ℕ), h < fuel →
    ∀ (u : ℕ) (F : List (ℚ × ℚ)) (p : ℕ → PathElement) (phi : ℤ → ℚ)
      (pz po : ℚ) (pf : ℤ) (cfeat : ℕ) (cf : ℚ),
      ((u = 0 ∧ F = [] ∧ pf = -1 ∧ pz = 1 ∧ po = 1) ∨
       (F.length + 1 = u ∧ 0 ≤ pf ∧ pf < (nf:ℤ) ∧ (p 0).feature_index = -1)) →
      PwClosed p u F →
      PathOK p u F nf →
      (∀ zo ∈ F, zo.1 ≠ 0) →
      pz ≠ 0 →
      ∃ phi2 leaf,
        TreeShap tr feat fuel phi nid u p pz po pf 0 cfeat cf = some phi2 ∧
        GetLeafIndex tr feat fuel (nid : ℤ) = some leaf ∧
        phiSum phi2 nf = phiSum phi nf +
          cf * (po * prodO F * (getNodeD tr leaf).leaf_value -
                pz * prodZ F * getMeanD tr (nid : ℤ)) := by
  intro h
  induction h with
  | zero =>
      intro nid hwf fuel hfuel
      match fuel, hfuel with
      | fuel+1, _ =>
          intro u F p phi pz po pf cfeat cf hu hP hOK hzF hpz
          exact treeShap_leaf_case tr nf feat nid hwf.2.1 hwf.2.2 fuel u F p phi
            pz po pf cfeat cf hu hP hOK hzF hpz
  | succ h ih =>
      intro nid hwf fuel hfuel
      match fuel, hfuel with
      | fuel+1, hfuel =>
        intro u F p phi pz po pf cfeat cf hu hP hOK hzF hpz
        obtain ⟨hrange, hcases⟩ := hwf
        rcases hcases with ⟨hleaf, hmean⟩ |
          ⟨hleaf, hsi, hcl0, hcl31, hcr0, hcr31, hw, hhl, hhr, hmean, hwl, hwr⟩
        · exact treeShap_leaf_case tr nf feat nid hleaf hmean fuel u F p phi
            pz po pf cfeat cf hu hP hOK hzF hpz
        · -- internal node
          by_cases hcf : cf = 0
          · obtain ⟨leaf, hleaf2⟩ := GetLeafIndex_ok tr nf feat (h+1) nid
              ⟨hrange, Or.inr ⟨hleaf, hsi, hcl0, hcl31, hcr0, hcr31, hw, hhl,
                hhr, hmean, hwl, hwr⟩⟩ (fuel+1) (by omega)
            refine ⟨phi, leaf, ?_, hleaf2, ?_⟩
            · simp only [TreeShap]
              rw [if_pos hcf]
            · rw [hcf]
              ring
          · obtain ⟨Q, hQlen, hQP, hQOK, hQ0, hQz, hprodO, hprodZ⟩ :=
              postExtend_package p u F nf pz po pf hu hP hOK hzF hpz
            subst hQlen
            -- hot/cold groundwork
            have hhotlr := hotIndex_cases feat (tr.nodes.getD nid default)
            have hcoldlr : coldIndex (tr.nodes.getD nid default)
                  (hotIndex feat (tr.nodes.getD nid default)) =
                  (tr.nodes.getD nid default).cleft ∨
                coldIndex (tr.nodes.getD nid default)
                  (hotIndex feat (tr.nodes.getD nid default)) =
                  (tr.nodes.getD nid default).cright := by
              rcases hotCold_cases feat (tr.nodes.getD nid default) with ⟨_, hc⟩ | ⟨_, hc⟩
              · right; exact hc
              · left; exact hc
            have hot0 : 0 ≤ hotIndex feat (tr.nodes.getD nid default) := by
              rcases hhotlr with hc | hc <;> rw [hc] <;> assumption
            have hot31 : hotIndex feat (tr.nodes.getD nid default) < 2^31 := by
              rcases hhotlr with hc | hc <;> rw [hc] <;> assumption
            have cold0 : 0 ≤ coldIndex (tr.nodes.getD nid default)
                (hotIndex feat (tr.nodes.getD nid default)) := by
              rcases hcoldlr with hc | hc <;> rw [hc] <;> assumption
            have cold31 : coldIndex (tr.nodes.getD nid default)
                (hotIndex feat (tr.nodes.getD nid default)) < 2^31 := by
              rcases hcoldlr with hc | hc <;> rw [hc] <;> assumption
            have hcast : ((castPat (hotIndex feat (tr.nodes.getD nid default)) : ℕ) : ℤ) =
                hotIndex feat (tr.nodes.getD nid default) :=
              castPat_small _ hot0 (by omega)
            have hcastc : ((castPat (coldIndex (tr.nodes.getD nid default)
                  (hotIndex feat (tr.nodes.getD nid default))) : ℕ) : ℤ) =
                coldIndex (tr.nodes.getD nid default)
                  (hotIndex feat (tr.nodes.getD nid default)) :=
              castPat_small _ cold0 (by omega)
            have hwf_hot : WFShap tr nf
                (castPat (hotIndex feat (tr.nodes.getD nid default))) h := by
              have he : castPat (hotIndex feat (tr.nodes.getD nid default)) =
                  (hotIndex feat (tr.nodes.getD nid default)).toNat := by
                unfold castPat
                omega
              rw [he]
              rcases hhotlr with hc | hc
              · rw [hc]; exact hwl
              · rw [hc]; exact hwr
            have hwf_cold : WFShap tr nf
                (castPat (coldIndex (tr.nodes.getD nid default)
                  (hotIndex feat (tr.nodes.getD nid default)))) h := by
              have he : castPat (coldIndex (tr.nodes.getD nid default)
                    (hotIndex feat (tr.nodes.getD nid default))) =
                  (coldIndex (tr.nodes.getD nid default)
                    (hotIndex feat (tr.nodes.getD nid default))).toNat := by
                unfold castPat
                omega
              rw [he]
              rcases hcoldlr with hc | hc
              · rw [hc]; exact hwl
              · rw [hc]; exact hwr
            have hhess_hot : (getStatD tr
                (hotIndex feat (tr.nodes.getD nid default))).sum_hess ≠ 0 := by
              rcases hhotlr with hc | hc <;> rw [hc] <;> assumption
            have hhess_cold : (getStatD tr (coldIndex (tr.nodes.getD nid default)
                (hotIndex feat (tr.nodes.getD nid default)))).sum_hess ≠ 0 := by
              rcases hcoldlr with hc | hc <;> rw [hc] <;> assumption
            have hzf_ne : (getStatD tr
                  (hotIndex feat (tr.nodes.getD nid default))).sum_hess /
                (getStatD tr (nid:ℤ)).sum_hess ≠ 0 := div_ne_zero hhess_hot hw
            have hczf_ne : (getStatD tr (coldIndex (tr.nodes.getD nid default)
                  (hotIndex feat (tr.nodes.getD nid default)))).sum_hess /
                (getStatD tr (nid:ℤ)).sum_hess ≠ 0 := div_ne_zero hhess_cold hw
            have hkey : (getStatD tr
                  (hotIndex feat (tr.nodes.getD nid default))).sum_hess /
                (getStatD tr (nid:ℤ)).sum_hess *
                getMeanD tr (hotIndex feat (tr.nodes.getD nid default)) +
                (getStatD tr (coldIndex (tr.nodes.getD nid default)
                  (hotIndex feat (tr.nodes.getD nid default)))).sum_hess /
                (getStatD tr (nid:ℤ)).sum_hess *
                getMeanD tr (coldIndex (tr.nodes.getD nid default)
                  (hotIndex feat (tr.nodes.getD nid default))) =
                getMeanD tr (nid:ℤ) := by
              rcases hotCold_cases feat (tr.nodes.getD nid default) with
                ⟨hh, hc⟩ | ⟨hh, hc⟩
              · rw [hc, hh, div_mul_eq_mul_div, div_mul_eq_mul_div,
                  div_add_div_same, div_eq_iff hw]
                linear_combination -hmean
              · rw [hc, hh, div_mul_eq_mul_div, div_mul_eq_mul_div,
                  div_add_div_same, div_eq_iff hw]
                linear_combination -hmean
            have hglstep : GetLeafIndex tr feat (fuel+1) (nid:ℤ) =
                GetLeafIndex tr feat fuel
                  (hotIndex feat (tr.nodes.getD nid default)) := by
              show (if (getNodeD tr (nid:ℤ)).is_leaf then some ((nid:ℤ))
                else GetLeafIndex tr feat fuel
                  (GetNext tr (nid:ℤ)
                    (feat.fvalue (getNodeD tr (nid:ℤ)).split_index)
                    (feat.is_missing (getNodeD tr (nid:ℤ)).split_index))) = _
              rw [GetNext_eq_hot, getNodeD_natCast, hleaf]
              rfl
            -- duplicate-feature scan
            rcases dupFrom_spec (ExtendPath p Q.length pz po pf)
                ((tr.nodes.getD nid default).split_index) (Q.length+1) 0 with
              ⟨hdeq, hnone⟩ | ⟨hdge, hdlt, hdfound, hdmin⟩
            · -- no duplicate: path unchanged
              have hdidx : dupIdx (ExtendPath p Q.length pz po pf) Q.length
                  ((tr.nodes.getD nid default).split_index) = Q.length + 1 := by
                unfold dupIdx
                rw [hdeq]
                omega
              have hIZ : shapIZ (ExtendPath p Q.length pz po pf) Q.length
                  ((tr.nodes.getD nid default).split_index) = 1 := by
                unfold shapIZ
                rw [hdidx, if_neg (by omega)]
              have hIO : shapIOne (ExtendPath p Q.length pz po pf) Q.length
                  ((tr.nodes.getD nid default).split_index) = 1 := by
                unfold shapIOne
                rw [hdidx, if_neg (by omega)]
              have hP2 : shapPath2 (ExtendPath p Q.length pz po pf) Q.length
                  ((tr.nodes.getD nid default).split_index) =
                  ExtendPath p Q.length pz po pf := by
                unfold shapPath2
                rw [hdidx, if_neg (by omega)]
              have hUD2 : shapUD2 (ExtendPath p Q.length pz po pf) Q.length
                  ((tr.nodes.getD nid default).split_index) = Q.length := by
                unfold shapUD2
                rw [hdidx, if_neg (by omega)]
              obtain ⟨phi1, leaf1, hts1, hgl1, hsum1⟩ :=
                ih (castPat (hotIndex feat (tr.nodes.getD nid default))) hwf_hot
                  fuel (by omega) (Q.length+1) Q (ExtendPath p Q.length pz po pf)
                  phi
                  ((getStatD tr (hotIndex feat (tr.nodes.getD nid default))).sum_hess /
                    (getStatD tr (nid:ℤ)).sum_hess * 1)
                  1 (((tr.nodes.getD nid default).split_index : ℕ) : ℤ) cfeat cf
                  (Or.inr ⟨rfl, Int.natCast_nonneg _, by exact_mod_cast hsi, hQ0⟩)
                  hQP hQOK hQz (by rw [mul_one]; exact hzf_ne)
              obtain ⟨phi2, leaf2, hts2, hgl2, hsum2⟩ :=
                ih (castPat (coldIndex (tr.nodes.getD nid default)
                    (hotIndex feat (tr.nodes.getD nid default)))) hwf_cold
                  fuel (by omega) (Q.length+1) Q (ExtendPath p Q.length pz po pf)
                  phi1
                  ((getStatD tr (coldIndex (tr.nodes.getD nid default)
                      (hotIndex feat (tr.nodes.getD nid default)))).sum_hess /
                    (getStatD tr (nid:ℤ)).sum_hess * 1)
                  0 (((tr.nodes.getD nid default).split_index : ℕ) : ℤ) cfeat cf
                  (Or.inr ⟨rfl, Int.natCast_nonneg _, by exact_mod_cast hsi, hQ0⟩)
                  hQP hQOK hQz (by rw [mul_one]; exact hczf_ne)
              refine ⟨phi2, leaf1, ?_, ?_, ?_⟩
              · simp only [TreeShap]
                rw [if_neg hcf, hleaf]
                rw [if_neg Bool.false_ne_true]
                rw [shapExtend_zero, shapUD3_zero, shapHotCF_zero, shapColdCF_zero,
                  hIZ, hIO, hP2, hUD2, hts1]
                exact hts2
              · rw [hglstep, ← hcast]
                exact hgl1
              · rw [hcast] at hsum1
                rw [hcastc] at hsum2
                rw [hprodO, hprodZ] at hsum1 hsum2
                rw [hsum2, hsum1]
                linear_combination (-(cf * pz * prodZ F)) * hkey
            · -- duplicate found at slot k
              obtain ⟨k, hkeq⟩ : ∃ k, dupFrom (ExtendPath p Q.length pz po pf)
                  ((tr.nodes.getD nid default).split_index) 0 (Q.length+1) = k :=
                ⟨_, rfl⟩
              rw [hkeq] at hdge hdlt hdfound hdmin
              have hk1 : 1 ≤ k := by
                by_contra hk0
                have hk0' : k = 0 := by omega
                subst hk0'
                rw [hQ0, castPat_neg1] at hdfound
                have := split_index_lt (tr.nodes.getD nid default)
                omega
              have hk2 : k ≤ Q.length := by omega
              have hdidx : dupIdx (ExtendPath p Q.length pz po pf) Q.length
                  ((tr.nodes.getD nid default).split_index) = k := by
                unfold dupIdx
                rw [hkeq]
              have hIZ : shapIZ (ExtendPath p Q.length pz po pf) Q.length
                  ((tr.nodes.getD nid default).split_index) =
                  ((ExtendPath p Q.length pz po pf) k).zero_fraction := by
                unfold shapIZ
                rw [hdidx, if_pos (by omega)]
              have hIO : shapIOne (ExtendPath p Q.length pz po pf) Q.length
                  ((tr.nodes.getD nid default).split_index) =
                  ((ExtendPath p Q.length pz po pf) k).one_fraction := by
                unfold shapIOne
                rw [hdidx, if_pos (by omega)]
              have hP2 : shapPath2 (ExtendPath p Q.length pz po pf) Q.length
                  ((tr.nodes.getD nid default).split_index) =
                  UnwindPath (ExtendPath p Q.length pz po pf) Q.length k := by
                unfold shapPath2
                rw [hdidx, if_pos (by omega)]
              have hUD2 : shapUD2 (ExtendPath p Q.length pz po pf) Q.length
                  ((tr.nodes.getD nid default).split_index) = Q.length - 1 := by
                unfold shapUD2
                rw [hdidx, if_pos (by omega)]
              have hdep : Q.length - 1 + 1 = Q.length := by omega
              have hfrk := (hQOK k hk1 (by omega)).1
              have hizq : ((ExtendPath p Q.length pz po pf) k).zero_fraction =
                  (Q.getD (k-1) (0,0)).1 := congrArg Prod.fst hfrk
              have hioq : ((ExtendPath p Q.length pz po pf) k).one_fraction =
                  (Q.getD (k-1) (0,0)).2 := congrArg Prod.snd hfrk
              have hnzk : (Q.getD (k-1) (0,0)).1 ≠ 0 :=
                hQz _ (getD_mem_of_lt Q (k-1) (by omega))
              have hQ'len : (Q.eraseIdx (k-1)).length = Q.length - 1 := by
                rw [List.length_eraseIdx]
                simp [show k - 1 < Q.length by omega]
              have hP2cl : PwClosed
                  (UnwindPath (ExtendPath p Q.length pz po pf) Q.length k)
                  Q.length (Q.eraseIdx (k-1)) :=
                UnwindPath_closed (ExtendPath p Q.length pz po pf) Q k hk1 hk2
                  hQP hfrk hnzk
              have hOK2 : PathOK
                  (UnwindPath (ExtendPath p Q.length pz po pf) Q.length k)
                  Q.length (Q.eraseIdx (k-1)) nf := by
                intro j hj1 hj2
                obtain ⟨hf, hz, ho⟩ := UnwindPath_fields
                  (ExtendPath p Q.length pz po pf) Q.length k (by omega) j
                by_cases hjk : k ≤ j
                · have hcond : k ≤ j ∧ j < Q.length := ⟨hjk, by omega⟩
                  rw [hz, ho, hf, if_pos hcond, if_pos hcond, if_pos hcond]
                  obtain ⟨hpair, hb1, hb2⟩ := hQOK (j+1) (by omega) (by omega)
                  refine ⟨?_, hb1, hb2⟩
                  rw [eraseIdx_getD Q (k-1) (j-1) (by omega),
                    if_neg (by omega : ¬ j-1 < k-1)]
                  have e : j - 1 + 1 = j := by omega
                  rw [e]
                  have e2 : j + 1 - 1 = j := by omega
                  rw [e2] at hpair
                  exact hpair
                · have hcond : ¬ (k ≤ j ∧ j < Q.length) := fun hc => hjk hc.1
                  rw [hz, ho, hf, if_neg hcond, if_neg hcond, if_neg hcond]
                  obtain ⟨hpair, hb1, hb2⟩ := hQOK j hj1 (by omega)
                  refine ⟨?_, hb1, hb2⟩
                  rw [eraseIdx_getD Q (k-1) (j-1) (by omega),
                    if_pos (by omega : j-1 < k-1)]
                  exact hpair
              have h02 : ((UnwindPath (ExtendPath p Q.length pz po pf) Q.length k)
                  0).feature_index = -1 := by
                rw [(UnwindPath_fields (ExtendPath p Q.length pz po pf) Q.length k
                  (by omega) 0).1, if_neg (by omega : ¬ (k ≤ 0 ∧ 0 < Q.length))]
                exact hQ0
              have hperm := perm_getD_eraseIdx Q (k-1) (by omega)
              have hz2' : ∀ zo ∈ Q.eraseIdx (k-1), zo.1 ≠ 0 := by
                intro zo hzo
                exact hQz zo (hperm.mem_iff.mpr (List.mem_cons_of_mem _ hzo))
              have hprodQ'O : prodO Q =
                  (Q.getD (k-1) (0,0)).2 * prodO (Q.eraseIdx (k-1)) := by
                unfold prodO
                rw [(hperm.map Prod.snd).prod_eq]
                simp
              have hprodQ'Z : prodZ Q =
                  (Q.getD (k-1) (0,0)).1 * prodZ (Q.eraseIdx (k-1)) := by
                unfold prodZ
                rw [(hperm.map Prod.fst).prod_eq]
                simp
              obtain ⟨phi1, leaf1, hts1, hgl1, hsum1⟩ :=
                ih (castPat (hotIndex feat (tr.nodes.getD nid default))) hwf_hot
                  fuel (by omega) (Q.length - 1 + 1) (Q.eraseIdx (k-1))
                  (UnwindPath (ExtendPath p Q.length pz po pf) Q.length k)
                  phi
                  ((getStatD tr (hotIndex feat (tr.nodes.getD nid default))).sum_hess /
                    (getStatD tr (nid:ℤ)).sum_hess *
                    ((ExtendPath p Q.length pz po pf) k).zero_fraction)
                  (((ExtendPath p Q.length pz po pf) k).one_fraction)
                  (((tr.nodes.getD nid default).split_index : ℕ) : ℤ) cfeat cf
                  (Or.inr ⟨by omega, Int.natCast_nonneg _, by exact_mod_cast hsi, h02⟩)
                  (by rw [hdep]; exact hP2cl) (by rw [hdep]; exact hOK2) hz2'
                  (by rw [hizq]; exact mul_ne_zero hzf_ne hnzk)
              obtain ⟨phi2, leaf2, hts2, hgl2, hsum2⟩ :=
                ih (castPat (coldIndex (tr.nodes.getD nid default)
                    (hotIndex feat (tr.nodes.getD nid default)))) hwf_cold
                  fuel (by omega) (Q.length - 1 + 1) (Q.eraseIdx (k-1))
                  (UnwindPath (ExtendPath p Q.length pz po pf) Q.length k)
                  phi1
                  ((getStatD tr (coldIndex (tr.nodes.getD nid default)
                      (hotIndex feat (tr.nodes.getD nid default)))).sum_hess /
                    (getStatD tr (nid:ℤ)).sum_hess *
                    ((ExtendPath p Q.length pz po pf) k).zero_fraction)
                  0
                  (((tr.nodes.getD nid default).split_index : ℕ) : ℤ) cfeat cf
                  (Or.inr ⟨by omega, Int.natCast_nonneg _, by exact_mod_cast hsi, h02⟩)
                  (by rw [hdep]; exact hP2cl) (by rw [hdep]; exact hOK2) hz2'
                  (by rw [hizq]; exact mul_ne_zero hczf_ne hnzk)
              refine ⟨phi2, leaf1, ?_, ?_, ?_⟩
              · simp only [TreeShap]
                rw [if_neg hcf, hleaf]
                rw [if_neg Bool.false_ne_true]
                rw [shapExtend_zero, shapUD3_zero, shapHotCF_zero, shapColdCF_zero,
                  hIZ, hIO, hP2, hUD2, hts1]
                exact hts2
              · rw [hglstep, ← hcast]
                exact hgl1
              · rw [hcast] at hsum1
                rw [hcastc] at hsum2
                rw [hizq] at hsum1 hsum2
                rw [hioq] at hsum1
                rw [hsum2, hsum1]
                linear_combination
                  (cf * (getNodeD tr leaf1).leaf_value) * hprodO -
                  (cf * (getNodeD tr leaf1).leaf_value) * hprodQ'O -
                  (cf * getMeanD tr (nid:ℤ)) * hprodZ +
                  (cf * getMeanD tr (nid:ℤ)) * hprodQ'Z -
                  (cf * (Q.getD (k-1) (0,0)).1 * prodZ (Q.eraseIdx (k-1))) * hkey

/-- C1: for every tree whose node mean-value cache is filled (the
    `FillNodeMeanValue` recurrence, part of `WFShap`) and every input
    feature vector, the exact attribution path (`CalculateContributions`
    with condition = 0) produces an output whose entries over all features
    plus the bias slot (index = feature count) sum to the value `Predict`
    returns on the same input and root. -/
theorem C1_contributions_sum_to_predict (tr : TreeS) (nf : ℕ) (feat : FVecS)
    (root_id : ℕ) (h fuel : ℕ) (cfeat : ℕ)
    (hwf : WFShap tr nf root_id h) (hsz : feat.size = nf) (hfuel : h < fuel) :
    ∃ out v,
      CalculateContributions tr feat fuel root_id (fun _ => 0) 0 cfeat = some out ∧
      Predict tr feat fuel root_id = some v ∧
      phiSum out nf = v := by
  obtain ⟨out, leaf, hts, hgl, hsum⟩ :=
    treeShap_sum tr nf feat h root_id hwf fuel hfuel 0 [] (fun _ => default)
      (if (0:ℤ) = 0 then
        updQ (fun _ => 0) (feat.size : ℤ)
          ((fun _ => (0:ℚ)) ((feat.size : ℕ) : ℤ) + getMeanD tr (root_id : ℤ))
      else (fun _ => 0))
      1 1 (-1) cfeat 1
      (Or.inl ⟨rfl, rfl, rfl, rfl, rfl⟩)
      (fun i hi => absurd hi (by omega))
      (fun j hj1 hj2 => absurd hj2 (by omega))
      (fun zo hzo => absurd hzo (by simp))
      one_ne_zero
  refine ⟨out, (getNodeD tr leaf).leaf_value, ?_, ?_, ?_⟩
  · unfold CalculateContributions
    exact hts
  · unfold Predict
    rw [hgl]
    rfl
  · rw [hsum, if_pos rfl, hsz,
      phiSum_updQ (fun _ => 0) nf ((nf:ℕ):ℤ) (by omega) (by omega)
        (getMeanD tr (root_id : ℤ))]
    have hzero : phiSum (fun _ => 0) nf = 0 := by
      unfold phiSum
      simp
    rw [hzero]
    have hO : prodO [] = 1 := rfl
    have hZ : prodZ [] = 1 := rfl
    rw [hO, hZ]
    ring

/-! ### C1 witness data: the depth-2 tree of spec §8 -/

/-- Concrete 5-node tree: root splits feature 0 at 1/2 (children 1, 2);
    node 1 a leaf with value 1; node 2 splits feature 1 at 3/2 (children
    3, 4: leaves 2 and 3).  Hessians: leaves 1, node 2 has 2, root 3;
    mean cache 2, 1, 5/2, 2, 3. -/
def cTree1 : TreeS :=
  ⟨⟨1, 5, 0, 2, 2, 0, List.replicate 31 0⟩,
   [⟨2^32-1, 1, 2, 0, 1/2⟩,
    ⟨0, -1, -1, 0, 1⟩,
    ⟨0, 3, 4, 1, 3/2⟩,
    ⟨2, -1, -1, 0, 2⟩,
    ⟨2, -1, -1, 0, 3⟩],
   [],
   [⟨0, 3, 0, 0⟩, ⟨0, 1, 0, 0⟩, ⟨0, 2, 0, 0⟩, ⟨0, 1, 0, 0⟩, ⟨0, 1, 0, 0⟩],
   [],
   [2, 1, 5/2, 2, 3]⟩

/-- Concrete input: feature 0 = 1/5 (goes left at the root), feature 1 = 2. -/
def cFeat1 : FVecS := ⟨[FEntry.val (1/5), FEntry.val 2]⟩

theorem cTree1_wf : WFShap cTree1 2 0 2 := by
  refine ⟨by with_unfolding_all decide, Or.inr ⟨by with_unfolding_all decide,
    by with_unfolding_all decide, by with_unfolding_all decide,
    by with_unfolding_all decide, by with_unfolding_all decide,
    by with_unfolding_all decide, by with_unfolding_all decide,
    by with_unfolding_all decide, by with_unfolding_all decide,
    by with_unfolding_all decide, ?_, ?_⟩⟩
  · exact ⟨by with_unfolding_all decide, Or.inl ⟨by with_unfolding_all decide,
      by with_unfolding_all decide⟩⟩
  · refine ⟨by with_unfolding_all decide, Or.inr ⟨by with_unfolding_all decide,
      by with_unfolding_all decide, by with_unfolding_all decide,
      by with_unfolding_all decide, by with_unfolding_all decide,
      by with_unfolding_all decide, by with_unfolding_all decide,
      by with_unfolding_all decide, by with_unfolding_all decide,
      by with_unfolding_all decide, ?_, ?_⟩⟩
    · exact ⟨by with_unfolding_all decide, by with_unfolding_all decide,
        by with_unfolding_all decide⟩
    · exact ⟨by with_unfolding_all decide, by with_unfolding_all decide,
        by with_unfolding_all decide⟩

/-- C1 witness: the conservation theorem applied to the concrete depth-2
    tree and input. -/
theorem C1_contributions_sum_to_predict_witness :
    ∃ out v,
      CalculateContributions cTree1 cFeat1 3 0 (fun _ => 0) 0 0 = some out ∧
      Predict cTree1 cFeat1 3 0 = some v ∧
      phiSum out 2 = v :=
  C1_contributions_sum_to_predict cTree1 2 cFeat1 0 2 3 0 cTree1_wf rfl
    (by omega)

end XGB
